import Mathlib

/-!
# Tic-tac-toe search variants

A shallow embedding of the C programs under `using_exhaustive_minimax_search`,
`using_alpha_beta_pruning` and `using_a_simple_evaluation_function_with_2_ply_search`.

* `char board[3][3]` is a record of nine characters stored row by row; `board[i][j]` is the
  byte at offset `3*i + j`.  A read past the end of the array has no value (`none`).
* C `int` is `Int`; truth values are the integers the C code returns (`1` / `0`).  The two
  arithmetic expressions on arguments, `depth + 1` and `1 - is_maximizer` in `search`, wrap
  around at 32 bits (`int_wrap`), as the compiled program does.
* A function that mutates the board in place takes the board and returns it next to its
  result.  Recursive functions take a fuel argument (the number of nested calls still allowed)
  and return `none` when it is used up.
-/

namespace TicTacToe

/-! ## Data model -/

/-- The array `char board[3][3]`; field `cRC` is `board[R][C]`. -/
structure Board where
  c00 : Char
  c01 : Char
  c02 : Char
  c10 : Char
  c11 : Char
  c12 : Char
  c20 : Char
  c21 : Char
  c22 : Char
deriving DecidableEq

/-- Value of `#define ARBITRARILY_LOW_VALUE -10000`. -/
abbrev ARBITRARILY_LOW_VALUE : Int := -10000

/-- Value of `#define ARBITRARILY_HIGH_VALUE 10000`. -/
abbrev ARBITRARILY_HIGH_VALUE : Int := 10000

/-- The value a 32-bit C `int` holds after an arithmetic result `x`: `x` itself when it lies in
`[-2^31, 2^31 - 1]`, and otherwise the two's-complement wrap-around of the compiled program
(`2147483647 + 1` gives `-2147483648`). -/
def int_wrap (x : Int) : Int :=
  (x + 2147483648) % 4294967296 - 2147483648

/-- The byte at offset `k` from the start of the array, `none` outside the array. -/
def Board.read (b : Board) (k : Int) : Option Char :=
  if k = 0 then some b.c00
  else if k = 1 then some b.c01
  else if k = 2 then some b.c02
  else if k = 3 then some b.c10
  else if k = 4 then some b.c11
  else if k = 5 then some b.c12
  else if k = 6 then some b.c20
  else if k = 7 then some b.c21
  else if k = 8 then some b.c22
  else none

/-- Store `v` at offset `k`.  The programs only store at offsets inside the array; for any
other offset the model leaves the board as it is. -/
def Board.write (b : Board) (k : Int) (v : Char) : Board :=
  if k = 0 then { b with c00 := v }
  else if k = 1 then { b with c01 := v }
  else if k = 2 then { b with c02 := v }
  else if k = 3 then { b with c10 := v }
  else if k = 4 then { b with c11 := v }
  else if k = 5 then { b with c12 := v }
  else if k = 6 then { b with c20 := v }
  else if k = 7 then { b with c21 := v }
  else if k = 8 then { b with c22 := v }
  else b

/-- The expression `board[i][j]` as an rvalue (offset `3*i + j`); it is only used with
`0 ≤ i, j ≤ 2`, where the read is inside the array. -/
def Board.get (b : Board) (i j : Int) : Char :=
  (b.read (3 * i + j)).getD '\x00'

/-- The assignment `board[i][j] = v`. -/
def Board.set (b : Board) (i j : Int) (v : Char) : Board :=
  b.write (3 * i + j) v

/-- The index pairs visited by `for (i = 0; i < 3; i++) for (j = 0; j < 3; j++)`, in order. -/
def cells : List (Int × Int) :=
  [(0, 0), (0, 1), (0, 2), (1, 0), (1, 1), (1, 2), (2, 0), (2, 1), (2, 2)]

/-- The board every `main` starts from. -/
def emptyBoard : Board :=
  ⟨'_', '_', '_', '_', '_', '_', '_', '_', '_'⟩

/-! ## Functions shared by the variants -/

/-- The index pairs of the eight lines, in the order in which `is_victorious` and the counting
functions scan them: rows (`board[i][j]`), columns (`board[j][i]`), `board[i][i]`,
`board[i][2-i]`. -/
def lines : List (List (Int × Int)) :=
  [[(0, 0), (0, 1), (0, 2)], [(1, 0), (1, 1), (1, 2)], [(2, 0), (2, 1), (2, 2)],
   [(0, 0), (1, 0), (2, 0)], [(0, 1), (1, 1), (2, 1)], [(0, 2), (1, 2), (2, 2)],
   [(0, 0), (1, 1), (2, 2)],
   [(0, 2), (1, 1), (2, 0)]]

/-- The function `is_legal`: the bounds test (with `col_choice > 3`, as in the source) and then the
read of `board[row_choice][col_choice]`. -/
def is_legal (board : Board) (row_choice col_choice : Int) : Option Int :=
  if row_choice < 0 ∨ row_choice ≥ 3 ∨ col_choice < 0 ∨ col_choice > 3 then some 0
  else
    match board.read (3 * row_choice + col_choice) with
    | none => none
    | some c => if c = '_' then some 1 else some 0

/-- The function `is_victorious`: rows, columns, main diagonal, other diagonal. -/
def is_victorious (board : Board) (player : Char) : Int :=
  if ([0, 1, 2] : List Int).any (fun i =>
      decide (board.get i 0 = player ∧ board.get i 1 = player ∧ board.get i 2 = player)) then 1
  else if ([0, 1, 2] : List Int).any (fun j =>
      decide (board.get 0 j = player ∧ board.get 1 j = player ∧ board.get 2 j = player)) then 1
  else if board.get 0 0 = player ∧ board.get 1 1 = player ∧ board.get 2 2 = player then 1
  else if board.get 0 2 = player ∧ board.get 1 1 = player ∧ board.get 2 0 = player then 1
  else 0

/-- The counter `num_of_empty_pos` of `is_draw` after its two loops. -/
def num_of_empty_pos (board : Board) : Nat :=
  cells.countP (fun ij => decide (board.get ij.1 ij.2 = '_'))

/-- The function `is_draw`. -/
def is_draw (board : Board) : Int :=
  if num_of_empty_pos board = 0 then 1 else 0

/-- The state of `main` at the head of its `while (1)` loop: the board, whose turn it is, the two
output variables shared by `player_choose` and `computer_choose`, and whether the loop is still
running (`false` once a `break` was taken). -/
structure GameState where
  board : Board
  is_maximizer : Int
  row_choice : Int
  col_choice : Int
  running : Bool

/-- The tail of one turn of `main`, after `board[row_choice][col_choice] = player` was stored:
`break` on a win of `player` or on a full board, otherwise hand the turn to `next`. -/
def after_move (board : Board) (player : Char) (row_choice col_choice cur next : Int) : GameState :=
  if is_victorious board player ≠ 0 then ⟨board, cur, row_choice, col_choice, false⟩
  else if is_draw board ≠ 0 then ⟨board, cur, row_choice, col_choice, false⟩
  else ⟨board, next, row_choice, col_choice, true⟩

/-! ## Exhaustive minimax (`using_exhaustive_minimax_search`) -/

namespace Exhaustive

/-- The double loop of the maximizer branch of `min_max`, over the index pairs still to visit;
`self` is the recursive call.  State: board, `best_value`, `no_legal_move`. -/
def min_max_max_loop (self : Board → Int → Option (Int × Board)) :
    List (Int × Int) → Board → Int → Int → Option (Board × Int × Int)
  | [], board, best_value, no_legal_move => some (board, best_value, no_legal_move)
  | (i, j) :: rest, board, best_value, no_legal_move =>
    match is_legal board i j with
    | none => none
    | some legal =>
      if legal = 0 then min_max_max_loop self rest board best_value no_legal_move
      else
        match self (board.set i j 'x') 0 with
        | none => none
        | some (value, board) =>
          min_max_max_loop self rest (board.set i j '_')
            (if value > best_value then value else best_value) 0

/-- The double loop of the minimizer branch of `min_max`. -/
def min_max_min_loop (self : Board → Int → Option (Int × Board)) :
    List (Int × Int) → Board → Int → Int → Option (Board × Int × Int)
  | [], board, best_value, no_legal_move => some (board, best_value, no_legal_move)
  | (i, j) :: rest, board, best_value, no_legal_move =>
    match is_legal board i j with
    | none => none
    | some legal =>
      if legal = 0 then min_max_min_loop self rest board best_value no_legal_move
      else
        match self (board.set i j 'o') 1 with
        | none => none
        | some (value, board) =>
          min_max_min_loop self rest (board.set i j '_')
            (if value < best_value then value else best_value) 0

/-- The function `min_max`; returns the score and the board as the call leaves it. -/
def min_max : Nat → Board → Int → Option (Int × Board)
  | 0, _, _ => none
  | fuel + 1, board, is_maximizer =>
    if is_victorious board 'o' ≠ 0 then some (-10, board)
    else if is_victorious board 'x' ≠ 0 then some (10, board)
    else if is_draw board ≠ 0 then some (0, board)
    else if is_maximizer ≠ 0 then
      match min_max_max_loop (min_max fuel) cells board ARBITRARILY_LOW_VALUE 1 with
      | none => none
      | some (board, best_value, no_legal_move) =>
        if no_legal_move = 0 then some (best_value, board) else some (0, board)
    else
      match min_max_min_loop (min_max fuel) cells board ARBITRARILY_HIGH_VALUE 1 with
      | none => none
      | some (board, best_value, no_legal_move) =>
        if no_legal_move = 0 then some (best_value, board) else some (0, board)

/-- The double loop of `computer_choose`.  State: board, `best_value` and the locals `row`, `col`
(`none` while they are uninitialised). -/
def computer_choose_loop (fuel : Nat) :
    List (Int × Int) → Board → Int → Option (Int × Int) → Option (Board × Int × Option (Int × Int))
  | [], board, best_value, rc => some (board, best_value, rc)
  | (i, j) :: rest, board, best_value, rc =>
    match is_legal board i j with
    | none => none
    | some legal =>
      if legal = 0 then computer_choose_loop fuel rest board best_value rc
      else
        match min_max fuel (board.set i j 'o') 1 with
        | none => none
        | some (value, board) =>
          if value < best_value then
            computer_choose_loop fuel rest (board.set i j '_') value (some (i, j))
          else
            computer_choose_loop fuel rest (board.set i j '_') best_value rc

/-- The function `computer_choose` (the computer is `o`, the minimizer).  Returns the board as
the call leaves it and the pair stored to `*row_choice`, `*col_choice`; the pair is `none` when
the locals `row`, `col` are copied out uninitialised. -/
def computer_choose (fuel : Nat) (board : Board) : Option (Board × Option (Int × Int)) :=
  match computer_choose_loop fuel cells board ARBITRARILY_HIGH_VALUE none with
  | none => none
  | some (board, _, rc) => some (board, rc)

/-- One pass through the body of the `while (1)` loop of `main`: the player (`x`, maximizer)
enters any pair that `is_legal` accepts; the computer (`o`) plays what `computer_choose`
stored. -/
inductive main_step : GameState → GameState → Prop
  | player (s : GameState) (row col : Int) :
      s.running = true → s.is_maximizer ≠ 0 → is_legal s.board row col = some 1 →
      main_step s (after_move (s.board.set row col 'x') 'x' row col s.is_maximizer 0)
  | computer (s : GameState) (fuel : Nat) (board : Board) (row col : Int) :
      s.running = true → s.is_maximizer = 0 →
      computer_choose fuel s.board = some (board, some (row, col)) →
      main_step s (after_move (board.set row col 'o') 'o' row col s.is_maximizer 1)

/-- The states `main` can be in at the head of its loop (or after leaving it). -/
inductive main_reach : GameState → Prop
  | start (row_choice col_choice : Int) : main_reach ⟨emptyBoard, 1, row_choice, col_choice, true⟩
  | step (s t : GameState) : main_reach s → main_step s t → main_reach t

end Exhaustive

/-! ## Alpha-beta pruning (`using_alpha_beta_pruning`) -/

namespace AlphaBeta

/-- The double loop of the maximizer branch of `alpha_beta_routine`; leaving the loop through
`goto THE_END` and running off its end both return `value`.  State: board, `value`, `alpha`. -/
def alpha_beta_max_loop (self : Board → Int → Int → Int → Option (Int × Board)) (beta : Int) :
    List (Int × Int) → Board → Int → Int → Option (Int × Board)
  | [], board, value, _ => some (value, board)
  | (i, j) :: rest, board, value, alpha =>
    match is_legal board i j with
    | none => none
    | some legal =>
      if legal = 0 then alpha_beta_max_loop self beta rest board value alpha
      else
        match self (board.set i j 'x') alpha beta 0 with
        | none => none
        | some (temp, board) =>
          let board := board.set i j '_'
          let value := if temp > value then temp else value
          let alpha := if value > alpha then value else alpha
          if alpha ≥ beta then some (value, board)
          else alpha_beta_max_loop self beta rest board value alpha

/-- The double loop of the minimizer branch of `alpha_beta_routine`.  State: board, `value`,
`beta`. -/
def alpha_beta_min_loop (self : Board → Int → Int → Int → Option (Int × Board)) (alpha : Int) :
    List (Int × Int) → Board → Int → Int → Option (Int × Board)
  | [], board, value, _ => some (value, board)
  | (i, j) :: rest, board, value, beta =>
    match is_legal board i j with
    | none => none
    | some legal =>
      if legal = 0 then alpha_beta_min_loop self alpha rest board value beta
      else
        match self (board.set i j 'o') alpha beta 1 with
        | none => none
        | some (temp, board) =>
          let board := board.set i j '_'
          let value := if temp < value then temp else value
          let beta := if value < beta then value else beta
          if alpha ≥ beta then some (value, board)
          else alpha_beta_min_loop self alpha rest board value beta

/-- The function `alpha_beta_routine`; returns the score and the board as the call leaves it. -/
def alpha_beta_routine : Nat → Board → Int → Int → Int → Option (Int × Board)
  | 0, _, _, _, _ => none
  | fuel + 1, board, alpha, beta, is_maximizer =>
    if is_victorious board 'x' ≠ 0 then some (1, board)
    else if is_victorious board 'o' ≠ 0 then some (-1, board)
    else if is_draw board ≠ 0 then some (0, board)
    else if is_maximizer ≠ 0 then
      alpha_beta_max_loop (alpha_beta_routine fuel) beta cells board ARBITRARILY_LOW_VALUE alpha
    else
      alpha_beta_min_loop (alpha_beta_routine fuel) alpha cells board ARBITRARILY_HIGH_VALUE beta

/-- The double loop of `computer_choose`.  State: board, `best_value`, `*row_choice`,
`*col_choice`. -/
def computer_choose_loop (fuel : Nat) :
    List (Int × Int) → Board → Int → Int → Int → Option (Board × Int × Int × Int)
  | [], board, best_value, row_choice, col_choice => some (board, best_value, row_choice, col_choice)
  | (i, j) :: rest, board, best_value, row_choice, col_choice =>
    match is_legal board i j with
    | none => none
    | some legal =>
      if legal = 0 then computer_choose_loop fuel rest board best_value row_choice col_choice
      else
        match alpha_beta_routine fuel (board.set i j 'x')
            ARBITRARILY_LOW_VALUE ARBITRARILY_HIGH_VALUE 0 with
        | none => none
        | some (value, board) =>
          if value > best_value then
            computer_choose_loop fuel rest (board.set i j '_') value i j
          else
            computer_choose_loop fuel rest (board.set i j '_') best_value row_choice col_choice

/-- The function `computer_choose` (the computer is `x`, the maximizer).  `row_choice` and
`col_choice` are the values of `*row_choice`, `*col_choice` on entry; the result is the board
as the call leaves it and the values of `*row_choice`, `*col_choice` on return. -/
def computer_choose (fuel : Nat) (board : Board) (row_choice col_choice : Int) :
    Option (Board × Int × Int) :=
  match computer_choose_loop fuel cells board ARBITRARILY_LOW_VALUE row_choice col_choice with
  | none => none
  | some (board, _, row_choice, col_choice) => some (board, row_choice, col_choice)

/-- One pass through the body of the `while (1)` loop of `main`: the computer (`x`) plays what
`computer_choose` stored; the player (`o`) enters any pair that `is_legal` accepts. -/
inductive main_step : GameState → GameState → Prop
  | computer (s : GameState) (fuel : Nat) (board : Board) (row col : Int) :
      s.running = true → s.is_maximizer = 1 →
      computer_choose fuel s.board s.row_choice s.col_choice = some (board, row, col) →
      main_step s (after_move (board.set row col 'x') 'x' row col s.is_maximizer 0)
  | player (s : GameState) (row col : Int) :
      s.running = true → s.is_maximizer ≠ 1 → is_legal s.board row col = some 1 →
      main_step s (after_move (s.board.set row col 'o') 'o' row col s.is_maximizer 1)

/-- The states `main` can be in at the head of its loop (or after leaving it). -/
inductive main_reach : GameState → Prop
  | start (row_choice col_choice : Int) : main_reach ⟨emptyBoard, 1, row_choice, col_choice, true⟩
  | step (s t : GameState) : main_reach s → main_step s t → main_reach t

end AlphaBeta

/-! ## Depth-limited search with a heuristic
(`using_a_simple_evaluation_function_with_2_ply_search`) -/

namespace DepthLimited

/-- The flag `ok` after the inner loop of `num_of_three_rows` over one line: `1` unless some
cell differs from `player`. -/
def ok (board : Board) (player : Char) (line : List (Int × Int)) : Int :=
  if line.all (fun ij => decide (board.get ij.1 ij.2 = player)) then 1 else 0

/-- The function `num_of_three_rows`. -/
def num_of_three_rows (board : Board) (player : Char) : Int :=
  (lines.map (ok board player)).sum

/-- The counter `num_of_player_symbols` after the inner loop over one line. -/
def num_of_player_symbols (board : Board) (player : Char) (line : List (Int × Int)) : Int :=
  line.countP (fun ij => decide (board.get ij.1 ij.2 = player))

/-- The counter `num_of_empty_spaces` after the inner loop over one line. -/
def num_of_empty_spaces (board : Board) (line : List (Int × Int)) : Int :=
  line.countP (fun ij => decide (board.get ij.1 ij.2 = '_'))

/-- The function `num_of_two_rows`. -/
def num_of_two_rows (board : Board) (player : Char) : Int :=
  (lines.map (fun line =>
    if num_of_empty_spaces board line = 1 ∧ num_of_player_symbols board player line = 2
    then (1 : Int) else 0)).sum

/-- The function `num_of_one_rows`. -/
def num_of_one_rows (board : Board) (player : Char) : Int :=
  (lines.map (fun line =>
    if num_of_empty_spaces board line = 2 ∧ num_of_player_symbols board player line = 1
    then (1 : Int) else 0)).sum

/-- The function `evaluation_function`; `n1` and `c1` are computed and not used. -/
def evaluation_function (board : Board) : Int :=
  let c3 := num_of_three_rows board 'x'
  let n2 := num_of_two_rows board 'o'
  let c2 := num_of_two_rows board 'x'
  1230 * c3 - 63 * n2 + 31 * c2

/-- The double loop of `search`; `self` is the recursive call.  State: board, `best_value`.
The `int` expressions `1 - is_maximizer` and `depth + 1` passed to the recursive call wrap
around at 32 bits. -/
def search_loop (self : Board → Int → Int → Int → Option (Int × Board))
    (is_maximizer depth max_depth : Int) :
    List (Int × Int) → Board → Int → Option (Int × Board)
  | [], board, best_value => some (best_value, board)
  | (i, j) :: rest, board, best_value =>
    match is_legal board i j with
    | none => none
    | some legal =>
      if legal = 0 then search_loop self is_maximizer depth max_depth rest board best_value
      else
        let board := if is_maximizer ≠ 0 then board.set i j 'x' else board.set i j 'o'
        match (if depth = max_depth then some (evaluation_function board, board)
               else self board (int_wrap (1 - is_maximizer)) (int_wrap (depth + 1))
                 max_depth) with
        | none => none
        | some (value, board) =>
          let board := board.set i j '_'
          let best_value :=
            if is_maximizer = 1 then (if best_value < value then value else best_value)
            else (if best_value > value then value else best_value)
          search_loop self is_maximizer depth max_depth rest board best_value

/-- The function `search`; returns the score and the board as the call leaves it. -/
def search : Nat → Board → Int → Int → Int → Option (Int × Board)
  | 0, _, _, _, _ => none
  | fuel + 1, board, is_maximizer, depth, max_depth =>
    if is_victorious board 'x' ≠ 0 then some (ARBITRARILY_HIGH_VALUE, board)
    else if is_victorious board 'o' ≠ 0 then some (ARBITRARILY_LOW_VALUE, board)
    else if is_draw board ≠ 0 then some (0, board)
    else
      search_loop (search fuel) is_maximizer depth max_depth cells board
        (if is_maximizer = 1 then ARBITRARILY_LOW_VALUE else ARBITRARILY_HIGH_VALUE)

/-- The double loop of `computer_choose`.  State: board, `best_value`, `*row_choice`,
`*col_choice`. -/
def computer_choose_loop (fuel : Nat) :
    List (Int × Int) → Board → Int → Int → Int → Option (Board × Int × Int × Int)
  | [], board, best_value, row_choice, col_choice => some (board, best_value, row_choice, col_choice)
  | (i, j) :: rest, board, best_value, row_choice, col_choice =>
    match is_legal board i j with
    | none => none
    | some legal =>
      if legal = 0 then computer_choose_loop fuel rest board best_value row_choice col_choice
      else
        match search fuel (board.set i j 'x') 0 0 2 with
        | none => none
        | some (value, board) =>
          if value > best_value then
            computer_choose_loop fuel rest (board.set i j '_') value i j
          else
            computer_choose_loop fuel rest (board.set i j '_') best_value row_choice col_choice

/-- The function `computer_choose`.  `row_choice` and `col_choice` are the values of
`*row_choice`, `*col_choice` on entry; the result is the board as the call leaves it and the
values of `*row_choice`, `*col_choice` on return. -/
def computer_choose (fuel : Nat) (board : Board) (row_choice col_choice : Int) :
    Option (Board × Int × Int) :=
  match computer_choose_loop fuel cells board ARBITRARILY_LOW_VALUE row_choice col_choice with
  | none => none
  | some (board, _, row_choice, col_choice) => some (board, row_choice, col_choice)

end DepthLimited

/-! ## Pure views of the searches

The functions below compute the same scores as the searches above without threading the
board; the theorems of the next part show that the searches return exactly these scores and
leave the board as it was. -/

/-- The empty cells of the board in scan order: the moves the double loops try. -/
def moves (b : Board) : List (Int × Int) :=
  cells.filter (fun ij => decide (b.get ij.1 ij.2 = '_'))

/-- Score returned by `Exhaustive.min_max`. -/
def mmv : Nat → Board → Int → Int
  | 0, _, _ => 0
  | n + 1, b, m =>
    if is_victorious b 'o' ≠ 0 then -10
    else if is_victorious b 'x' ≠ 0 then 10
    else if is_draw b ≠ 0 then 0
    else if m ≠ 0 then
      if moves b = [] then 0
      else ((moves b).map (fun ij => mmv n (b.set ij.1 ij.2 'x') 0)).foldl max
        ARBITRARILY_LOW_VALUE
    else
      if moves b = [] then 0
      else ((moves b).map (fun ij => mmv n (b.set ij.1 ij.2 'o') 1)).foldl min
        ARBITRARILY_HIGH_VALUE

/-- The maximizer loop of `alpha_beta_routine` over the moves still to try; `child ij a` is the
score of the recursive call after move `ij` with lower bound `a`. -/
def abv_max (child : Int × Int → Int → Int) (beta : Int) : List (Int × Int) → Int → Int → Int
  | [], value, _ => value
  | ij :: rest, value, alpha =>
    let value := max value (child ij alpha)
    let alpha := max alpha value
    if alpha ≥ beta then value else abv_max child beta rest value alpha

/-- The minimizer loop of `alpha_beta_routine` over the moves still to try. -/
def abv_min (child : Int × Int → Int → Int) (alpha : Int) : List (Int × Int) → Int → Int → Int
  | [], value, _ => value
  | ij :: rest, value, beta =>
    let value := min value (child ij beta)
    let beta := min beta value
    if alpha ≥ beta then value else abv_min child alpha rest value beta

/-- Score returned by `AlphaBeta.alpha_beta_routine`. -/
def abv : Nat → Board → Int → Int → Int → Int
  | 0, _, _, _, _ => 0
  | n + 1, b, alpha, beta, m =>
    if is_victorious b 'x' ≠ 0 then 1
    else if is_victorious b 'o' ≠ 0 then -1
    else if is_draw b ≠ 0 then 0
    else if m ≠ 0 then
      abv_max (fun ij a => abv n (b.set ij.1 ij.2 'x') a beta 0) beta (moves b)
        ARBITRARILY_LOW_VALUE alpha
    else
      abv_min (fun ij c => abv n (b.set ij.1 ij.2 'o') alpha c 1) alpha (moves b)
        ARBITRARILY_HIGH_VALUE beta

/-- The game value on the scale +1 / 0 / -1, by plain minimax without pruning: `1` if `x` has a
line, else `-1` if `o` has one, else `0` on a full board, else the best child for the side to
move (`x` when `m ≠ 0`). -/
def gval : Nat → Board → Int → Int
  | 0, _, _ => 0
  | n + 1, b, m =>
    if is_victorious b 'x' ≠ 0 then 1
    else if is_victorious b 'o' ≠ 0 then -1
    else if is_draw b ≠ 0 then 0
    else if m ≠ 0 then
      ((moves b).map (fun ij => gval n (b.set ij.1 ij.2 'x') 0)).foldl max ARBITRARILY_LOW_VALUE
    else
      ((moves b).map (fun ij => gval n (b.set ij.1 ij.2 'o') 1)).foldl min ARBITRARILY_HIGH_VALUE

/-- The loop of a `computer_choose` that keeps the first move of strictly largest score:
state `best_value` and the pair stored last. -/
def choose_max (score : Int × Int → Int) :
    List (Int × Int) → Int → Option (Int × Int) → Int × Option (Int × Int)
  | [], best, rc => (best, rc)
  | ij :: rest, best, rc =>
    if score ij > best then choose_max score rest (score ij) (some ij)
    else choose_max score rest best rc

/-- The loop of a `computer_choose` that keeps the first move of strictly smallest score. -/
def choose_min (score : Int × Int → Int) :
    List (Int × Int) → Int → Option (Int × Int) → Int × Option (Int × Int)
  | [], best, rc => (best, rc)
  | ij :: rest, best, rc =>
    if score ij < best then choose_min score rest (score ij) (some ij)
    else choose_min score rest best rc

/-- Player `p` has one of the eight lines. -/
def has_line (b : Board) (p : Char) : Prop :=
  (b.c00 = p ∧ b.c01 = p ∧ b.c02 = p) ∨ (b.c10 = p ∧ b.c11 = p ∧ b.c12 = p) ∨
  (b.c20 = p ∧ b.c21 = p ∧ b.c22 = p) ∨ (b.c00 = p ∧ b.c10 = p ∧ b.c20 = p) ∨
  (b.c01 = p ∧ b.c11 = p ∧ b.c21 = p) ∨ (b.c02 = p ∧ b.c12 = p ∧ b.c22 = p) ∨
  (b.c00 = p ∧ b.c11 = p ∧ b.c22 = p) ∨ (b.c02 = p ∧ b.c11 = p ∧ b.c20 = p)

instance (b : Board) (p : Char) : Decidable (has_line b p) := by
  unfold has_line; infer_instance

/-- The relation between the score `r` of a search with window `(α, β)` and the true value `v`:
exact inside the window, and on the same side of the window outside it. -/
def Win (α β r v : Int) : Prop :=
  (v ≤ α ∧ r ≤ α) ∨ (α < v ∧ v < β ∧ r = v) ∨ (β ≤ v ∧ β ≤ r)

/-- Score returned by `DepthLimited.search`. -/
def sv : Nat → Board → Int → Int → Int → Int
  | 0, _, _, _, _ => 0
  | n + 1, b, m, depth, max_depth =>
    if is_victorious b 'x' ≠ 0 then ARBITRARILY_HIGH_VALUE
    else if is_victorious b 'o' ≠ 0 then ARBITRARILY_LOW_VALUE
    else if is_draw b ≠ 0 then 0
    else
      ((moves b).map (fun ij =>
        if depth = max_depth then
          DepthLimited.evaluation_function (b.set ij.1 ij.2 (if m ≠ 0 then 'x' else 'o'))
        else sv n (b.set ij.1 ij.2 (if m ≠ 0 then 'x' else 'o')) (int_wrap (1 - m))
          (int_wrap (depth + 1)) max_depth)).foldl
        (fun best value =>
          if m = 1 then (if best < value then value else best)
          else (if best > value then value else best))
        (if m = 1 then ARBITRARILY_LOW_VALUE else ARBITRARILY_HIGH_VALUE)

/-- A board with its cells coded as numbers: `0` for `'_'`, `1` for `'x'`, `2` for `'o'`, `3` for
any other character. -/
structure NB where
  n00 : Nat
  n01 : Nat
  n02 : Nat
  n10 : Nat
  n11 : Nat
  n12 : Nat
  n20 : Nat
  n21 : Nat
  n22 : Nat

/-- Code `p` fills one of the eight lines. -/
def NB.win (b : NB) (p : Nat) : Bool :=
  (b.n00 == p && b.n01 == p && b.n02 == p) || (b.n10 == p && b.n11 == p && b.n12 == p) ||
  (b.n20 == p && b.n21 == p && b.n22 == p) || (b.n00 == p && b.n10 == p && b.n20 == p) ||
  (b.n01 == p && b.n11 == p && b.n21 == p) || (b.n02 == p && b.n12 == p && b.n22 == p) ||
  (b.n00 == p && b.n11 == p && b.n22 == p) || (b.n02 == p && b.n11 == p && b.n20 == p)

/-- No cell is coded `0`. -/
def NB.full (b : NB) : Bool :=
  b.n00 != 0 && b.n01 != 0 && b.n02 != 0 && b.n10 != 0 && b.n11 != 0 && b.n12 != 0 &&
  b.n20 != 0 && b.n21 != 0 && b.n22 != 0

/-- The test `f` holds after every way of filling one empty cell with `c`. -/
def NB.each (b : NB) (c : Nat) (f : NB → Bool) : Bool :=
  (b.n00 != 0 || f { b with n00 := c }) &&
  (b.n01 != 0 || f { b with n01 := c }) &&
  (b.n02 != 0 || f { b with n02 := c }) &&
  (b.n10 != 0 || f { b with n10 := c }) &&
  (b.n11 != 0 || f { b with n11 := c }) &&
  (b.n12 != 0 || f { b with n12 := c }) &&
  (b.n20 != 0 || f { b with n20 := c }) &&
  (b.n21 != 0 || f { b with n21 := c }) &&
  (b.n22 != 0 || f { b with n22 := c })

/-- The test `f` holds after some way of filling one empty cell with `c`; the cells are tried in
an order that suits `x`. -/
def NB.some_x (b : NB) (c : Nat) (f : NB → Bool) : Bool :=
  (b.n22 == 0 && f { b with n22 := c }) ||
  (b.n02 == 0 && f { b with n02 := c }) ||
  (b.n12 == 0 && f { b with n12 := c }) ||
  (b.n11 == 0 && f { b with n11 := c }) ||
  (b.n00 == 0 && f { b with n00 := c }) ||
  (b.n20 == 0 && f { b with n20 := c }) ||
  (b.n10 == 0 && f { b with n10 := c }) ||
  (b.n21 == 0 && f { b with n21 := c }) ||
  (b.n01 == 0 && f { b with n01 := c })

/-- The test `f` holds after some way of filling one empty cell with `c`; the cells are tried in
an order that suits `o`. -/
def NB.some_o (b : NB) (c : Nat) (f : NB → Bool) : Bool :=
  (b.n11 == 0 && f { b with n11 := c }) ||
  (b.n20 == 0 && f { b with n20 := c }) ||
  (b.n02 == 0 && f { b with n02 := c }) ||
  (b.n22 == 0 && f { b with n22 := c }) ||
  (b.n01 == 0 && f { b with n01 := c }) ||
  (b.n21 == 0 && f { b with n21 := c }) ||
  (b.n10 == 0 && f { b with n10 := c }) ||
  (b.n12 == 0 && f { b with n12 := c }) ||
  (b.n00 == 0 && f { b with n00 := c })

/-- A search certificate on coded boards: `true` only if `x` has a way never to let `o` complete
a line, with `x` to move when `xturn`.  Every reply of `o` is checked. -/
def x_safe : Nat → NB → Bool → Bool
  | 0, _, _ => false
  | n + 1, b, xturn =>
    if b.win 1 then true
    else if b.win 2 then false
    else if b.full then true
    else if xturn then b.some_x 1 (fun b1 => x_safe n b1 false)
    else b.each 2 (fun b1 => x_safe n b1 true)

/-- A search certificate on coded boards: `true` only if `o` has a way never to let `x` complete
a line, with `x` to move when `xturn`.  Every move of `x` is checked. -/
def o_safe : Nat → NB → Bool → Bool
  | 0, _, _ => false
  | n + 1, b, xturn =>
    if b.win 1 then false
    else if b.win 2 then true
    else if b.full then true
    else if xturn then b.each 1 (fun b1 => o_safe n b1 false)
    else b.some_o 2 (fun b1 => o_safe n b1 true)

/-- The code of a cell. -/
def code (c : Char) : Nat :=
  if c = '_' then 0 else if c = 'x' then 1 else if c = 'o' then 2 else 3

/-- The coded board. -/
def enc (b : Board) : NB :=
  ⟨code b.c00, code b.c01, code b.c02, code b.c10, code b.c11, code b.c12,
   code b.c20, code b.c21, code b.c22⟩

/-- Row-major order on index pairs: `a` is visited before `b` by the double loop. -/
def earlier (a b : Int × Int) : Prop :=
  a.1 < b.1 ∨ (a.1 = b.1 ∧ a.2 < b.2)

instance (a b : Int × Int) : Decidable (earlier a b) := by
  unfold earlier; infer_instance

/-- The invariant of the `main` loop of the alpha-beta variant: `o` has no line, and while the
game runs `x` has no line either, a cell is empty, and the side to move cannot force a win of
`o` (the game value is at least `0`). -/
def x_not_losing (s : GameState) : Prop :=
  ¬ has_line s.board 'o' ∧
  (s.running = true → ¬ has_line s.board 'x' ∧ is_draw s.board = 0 ∧
    (s.is_maximizer = 0 ∨ s.is_maximizer = 1) ∧ 0 ≤ gval 10 s.board s.is_maximizer)

/-- The invariant of the `main` loop of the exhaustive variant: `x` has no line, and while the
game runs `o` has no line either, a cell is empty, and the side to move cannot force a win of
`x` (the game value is at most `0`). -/
def o_not_losing (s : GameState) : Prop :=
  ¬ has_line s.board 'x' ∧
  (s.running = true → ¬ has_line s.board 'o' ∧ is_draw s.board = 0 ∧
    (s.is_maximizer = 0 ∨ s.is_maximizer = 1) ∧ gval 10 s.board s.is_maximizer ≤ 0)

/-- The positions of legal alternating play from the empty board, `x` first, with the side to
move next: a move fills an empty cell, and no move is made once a line is complete. -/
inductive legal_play : Board → Char → Prop
  | start : legal_play emptyBoard 'x'
  | move_x (b : Board) (ij : Int × Int) : legal_play b 'x' →
      is_victorious b 'x' = 0 → is_victorious b 'o' = 0 → ij ∈ moves b →
      legal_play (b.set ij.1 ij.2 'x') 'o'
  | move_o (b : Board) (ij : Int × Int) : legal_play b 'o' →
      is_victorious b 'x' = 0 → is_victorious b 'o' = 0 → ij ∈ moves b →
      legal_play (b.set ij.1 ij.2 'o') 'x'

/-- The position after `x` (0,0), `o` (1,0), `x` (0,1), `o` (1,1), `x` (0,2): `x` has the top
row. -/
def x_top_row : Board :=
  ⟨'x', 'x', 'x', 'o', 'o', '_', '_', '_', '_'⟩

/-- A position with `x` to move in which every move of `x` lets `o` complete a line at once:
`o x x / _ _ x / o _ o`. -/
def o_three_threats : Board :=
  ⟨'o', 'x', 'x', '_', '_', 'x', 'o', '_', 'o'⟩

/-- A position with three empty cells: `x o x / o o x / _ _ _`. -/
def three_left : Board :=
  ⟨'x', 'o', 'x', 'o', 'o', 'x', '_', '_', '_'⟩

/-- The position with a single `x`, in the corner (0,0). -/
def x_corner : Board :=
  ⟨'x', '_', '_', '_', '_', '_', '_', '_', '_'⟩

/-- The position `x _ _ / _ x _ / _ _ o` of the evaluator scenario. -/
def x_diag_o : Board :=
  ⟨'x', '_', '_', '_', 'x', '_', '_', '_', 'o'⟩

/-- A board that no game reaches, with a line of each player: `x x x / o o o / _ _ _`. -/
def both_lines : Board :=
  ⟨'x', 'x', 'x', 'o', 'o', 'o', '_', '_', '_'⟩

/-- The board with rows and columns swapped: `transpose(b)[i][j] = b[j][i]`. -/
def transpose (b : Board) : Board :=
  ⟨b.c00, b.c10, b.c20, b.c01, b.c11, b.c21, b.c02, b.c12, b.c22⟩

/-- The number of lines among the 8 of `lines` that hold exactly `k` cells equal to `p` and
`3 - k` cells equal to `'_'`: the meaning of "a `k`-row of `p`" in the header of the
depth-limited variant. -/
def num_of_k_rows (b : Board) (p : Char) (k : Nat) : Nat :=
  lines.countP (fun line => decide
    (line.countP (fun ij => decide (b.get ij.1 ij.2 = p)) = k ∧
     line.countP (fun ij => decide (b.get ij.1 ij.2 = '_')) = 3 - k))

/-- A position with `x` to move in which `o` threatens both diagonals and the last three empty
cells form the bottom row: `o x o / x o x / _ _ _`. -/
def bottom_row_left : Board :=
  ⟨'o', 'x', 'o', 'x', 'o', 'x', '_', '_', '_'⟩

/-- A state of the alpha-beta variant in mid-game, after `x` (0,0), `o` (1,1), `x` (0,1),
`o` (0,2), `x` (2,0), `o` (1,0): the board is `x x o / o o _ / x _ _`, `o` threatens (1,2) and
the computer is to move. -/
def alpha_beta_game_mid : GameState :=
  ⟨⟨'x', 'x', 'o', 'o', 'o', '_', 'x', '_', '_'⟩, 1, 1, 0, true⟩

/-- The state in which that game ends, after `x` (1,2), `o` (2,1), `x` (2,2): the board
`x x o / o o x / x o x` is full and `main` has left its loop. -/
def alpha_beta_game_end : GameState :=
  ⟨⟨'x', 'x', 'o', 'o', 'o', 'x', 'x', 'o', 'x'⟩, 1, 2, 2, false⟩

/-- A state of the exhaustive variant in mid-game, after `x` (1,1), `o` (0,0), `x` (0,1),
`o` (2,1), `x` (1,0): the board is `o x _ / x x _ / _ o _`, `x` threatens (1,2) and the computer
is to move. -/
def min_max_game_mid : GameState :=
  ⟨⟨'o', 'x', '_', 'x', 'x', '_', '_', 'o', '_'⟩, 0, 1, 0, true⟩

/-- The state in which that game ends, after `o` (1,2), `x` (0,2), `o` (2,0), `x` (2,2): the
board `o x x / x x o / o o x` is full and `main` has left its loop. -/
def min_max_game_end : GameState :=
  ⟨⟨'o', 'x', 'x', 'x', 'x', 'o', 'o', 'o', 'x'⟩, 1, 2, 2, false⟩

/-! ## The board and the shared functions -/

theorem cells_cases {P : Int × Int → Prop} {ij : Int × Int} (h : ij ∈ cells)
    (h00 : P (0, 0)) (h01 : P (0, 1)) (h02 : P (0, 2)) (h10 : P (1, 0)) (h11 : P (1, 1))
    (h12 : P (1, 2)) (h20 : P (2, 0)) (h21 : P (2, 1)) (h22 : P (2, 2)) : P ij := by
  simp only [cells, List.mem_cons, List.mem_singleton, List.not_mem_nil, or_false] at h
  rcases h with h | h | h | h | h | h | h | h | h <;> subst h <;> assumption

theorem get_cells (b : Board) :
    b.get 0 0 = b.c00 ∧ b.get 0 1 = b.c01 ∧ b.get 0 2 = b.c02 ∧
    b.get 1 0 = b.c10 ∧ b.get 1 1 = b.c11 ∧ b.get 1 2 = b.c12 ∧
    b.get 2 0 = b.c20 ∧ b.get 2 1 = b.c21 ∧ b.get 2 2 = b.c22 := by
  simp [Board.get, Board.read]

theorem set_cells (b : Board) (v : Char) :
    b.set 0 0 v = { b with c00 := v } ∧ b.set 0 1 v = { b with c01 := v } ∧
    b.set 0 2 v = { b with c02 := v } ∧ b.set 1 0 v = { b with c10 := v } ∧
    b.set 1 1 v = { b with c11 := v } ∧ b.set 1 2 v = { b with c12 := v } ∧
    b.set 2 0 v = { b with c20 := v } ∧ b.set 2 1 v = { b with c21 := v } ∧
    b.set 2 2 v = { b with c22 := v } := by
  simp [Board.set, Board.write]

theorem is_legal_cell (b : Board) {ij : Int × Int} (h : ij ∈ cells) :
    is_legal b ij.1 ij.2 = some (if b.get ij.1 ij.2 = '_' then 1 else 0) := by
  refine cells_cases (P := fun ij =>
    is_legal b ij.1 ij.2 = some (if b.get ij.1 ij.2 = '_' then 1 else 0)) h ?_ ?_ ?_ ?_ ?_ ?_ ?_ ?_ ?_ <;>
    simp [is_legal, Board.get, Board.read] <;> split <;> simp_all

theorem set_restore (b : Board) (v : Char) {ij : Int × Int} (h : ij ∈ cells)
    (he : b.get ij.1 ij.2 = '_') : (b.set ij.1 ij.2 v).set ij.1 ij.2 '_' = b := by
  revert he
  refine cells_cases (P := fun ij =>
    b.get ij.1 ij.2 = '_' → (b.set ij.1 ij.2 v).set ij.1 ij.2 '_' = b) h ?_ ?_ ?_ ?_ ?_ ?_ ?_ ?_ ?_ <;>
    (intro he; cases b; simp_all [Board.set, Board.write, Board.get, Board.read])

theorem num_of_empty_pos_eq (b : Board) :
    num_of_empty_pos b =
      (if b.c00 = '_' then 1 else 0) + (if b.c01 = '_' then 1 else 0) +
      (if b.c02 = '_' then 1 else 0) + (if b.c10 = '_' then 1 else 0) +
      (if b.c11 = '_' then 1 else 0) + (if b.c12 = '_' then 1 else 0) +
      (if b.c20 = '_' then 1 else 0) + (if b.c21 = '_' then 1 else 0) +
      (if b.c22 = '_' then 1 else 0) := by
  obtain ⟨h0, h1, h2, h3, h4, h5, h6, h7, h8⟩ := get_cells b
  simp only [num_of_empty_pos, cells, List.countP_cons, List.countP_nil, h0, h1, h2, h3, h4, h5,
    h6, h7, h8, decide_eq_true_eq]
  omega

theorem empties_set (b : Board) (v : Char) (hv : v ≠ '_') {ij : Int × Int} (h : ij ∈ cells)
    (he : b.get ij.1 ij.2 = '_') :
    num_of_empty_pos (b.set ij.1 ij.2 v) + 1 = num_of_empty_pos b := by
  revert he
  obtain ⟨h0, h1, h2, h3, h4, h5, h6, h7, h8⟩ := get_cells b
  obtain ⟨s0, s1, s2, s3, s4, s5, s6, s7, s8⟩ := set_cells b v
  refine cells_cases (P := fun ij => b.get ij.1 ij.2 = '_' →
    num_of_empty_pos (b.set ij.1 ij.2 v) + 1 = num_of_empty_pos b) h ?_ ?_ ?_ ?_ ?_ ?_ ?_ ?_ ?_ <;>
    (intro he
     simp only [h0, h1, h2, h3, h4, h5, h6, h7, h8, s0, s1, s2, s3, s4, s5, s6, s7, s8] at he ⊢
     simp only [num_of_empty_pos_eq, he, hv, if_true, if_false] <;> omega)

theorem num_of_empty_pos_le (b : Board) : num_of_empty_pos b ≤ 9 := by
  rw [num_of_empty_pos_eq]
  repeat' split
  all_goals omega

theorem mem_moves {b : Board} {ij : Int × Int} :
    ij ∈ moves b ↔ ij ∈ cells ∧ b.get ij.1 ij.2 = '_' := by
  simp [moves, List.mem_filter]

theorem moves_ne_nil {b : Board} (h : is_draw b = 0) : moves b ≠ [] := by
  intro hm
  have h0 : num_of_empty_pos b = 0 := by
    simp only [num_of_empty_pos, List.countP_eq_length_filter]
    have : moves b = cells.filter (fun ij => decide (b.get ij.1 ij.2 = '_')) := rfl
    rw [← this, hm]; rfl
  simp [is_draw, h0] at h

/-! ## The searches compute their pure views and restore the board -/

section
open Exhaustive AlphaBeta

theorem ite_gt_eq_max (v best : Int) : (if v > best then v else best) = max best v := by
  rcases le_total best v with h | h
  · rw [max_eq_right h]; split <;> omega
  · rw [max_eq_left h]; split <;> omega

theorem ite_lt_eq_min (v best : Int) : (if v < best then v else best) = min best v := by
  rcases le_total best v with h | h
  · rw [min_eq_left h]; split <;> omega
  · rw [min_eq_right h]; split <;> omega

theorem min_max_max_loop_eq (self : Board → Int → Option (Int × Board)) (f : Board → Int)
    (B : Board) (l : List (Int × Int)) (hl : ∀ ij ∈ l, ij ∈ cells)
    (hself : ∀ ij ∈ l, B.get ij.1 ij.2 = '_' →
      self (B.set ij.1 ij.2 'x') 0 = some (f (B.set ij.1 ij.2 'x'), B.set ij.1 ij.2 'x'))
    (best nlm : Int) :
    min_max_max_loop self l B best nlm =
      some (B, ((l.filter (fun ij => decide (B.get ij.1 ij.2 = '_'))).map
          (fun ij => f (B.set ij.1 ij.2 'x'))).foldl max best,
        if l.filter (fun ij => decide (B.get ij.1 ij.2 = '_')) = [] then nlm else 0) := by
  induction l generalizing best nlm with
  | nil => simp [min_max_max_loop]
  | cons ij rest ih =>
    obtain ⟨i, j⟩ := ij
    have hc : (i, j) ∈ cells := hl _ (List.mem_cons_self _ _)
    have ih' := ih (fun x hx => hl x (List.mem_cons_of_mem _ hx))
      (fun x hx => hself x (List.mem_cons_of_mem _ hx))
    have hleg := is_legal_cell B hc
    simp only at hleg
    by_cases he : B.get i j = '_'
    · have hs := hself _ (List.mem_cons_self _ _) he
      have hr := set_restore B 'x' hc he
      simp only at hs hr
      simp [min_max_max_loop, hleg, he, hs, hr, ih', ite_gt_eq_max]
    · have hf : List.filter (fun ij => decide (B.get ij.1 ij.2 = '_')) ((i, j) :: rest) =
          List.filter (fun ij => decide (B.get ij.1 ij.2 = '_')) rest := by
        simp [List.filter_cons, he]
      rw [hf]
      simp [min_max_max_loop, hleg, he, ih']

theorem filter_cons_empty (B : Board) {i j : Int} (rest : List (Int × Int))
    (he : B.get i j = '_') :
    List.filter (fun ij => decide (B.get ij.1 ij.2 = '_')) ((i, j) :: rest) =
      (i, j) :: List.filter (fun ij => decide (B.get ij.1 ij.2 = '_')) rest := by
  simp [List.filter_cons, he]

theorem filter_cons_full (B : Board) {i j : Int} (rest : List (Int × Int))
    (he : ¬ B.get i j = '_') :
    List.filter (fun ij => decide (B.get ij.1 ij.2 = '_')) ((i, j) :: rest) =
      List.filter (fun ij => decide (B.get ij.1 ij.2 = '_')) rest := by
  simp [List.filter_cons, he]

theorem min_max_min_loop_eq (self : Board → Int → Option (Int × Board)) (f : Board → Int)
    (B : Board) (l : List (Int × Int)) (hl : ∀ ij ∈ l, ij ∈ cells)
    (hself : ∀ ij ∈ l, B.get ij.1 ij.2 = '_' →
      self (B.set ij.1 ij.2 'o') 1 = some (f (B.set ij.1 ij.2 'o'), B.set ij.1 ij.2 'o'))
    (best nlm : Int) :
    min_max_min_loop self l B best nlm =
      some (B, ((l.filter (fun ij => decide (B.get ij.1 ij.2 = '_'))).map
          (fun ij => f (B.set ij.1 ij.2 'o'))).foldl min best,
        if l.filter (fun ij => decide (B.get ij.1 ij.2 = '_')) = [] then nlm else 0) := by
  induction l generalizing best nlm with
  | nil => simp [min_max_min_loop]
  | cons ij rest ih =>
    obtain ⟨i, j⟩ := ij
    have hc : (i, j) ∈ cells := hl _ (List.mem_cons_self _ _)
    have ih' := ih (fun x hx => hl x (List.mem_cons_of_mem _ hx))
      (fun x hx => hself x (List.mem_cons_of_mem _ hx))
    have hleg := is_legal_cell B hc
    simp only at hleg
    by_cases he : B.get i j = '_'
    · have hs := hself _ (List.mem_cons_self _ _) he
      have hr := set_restore B 'o' hc he
      simp only at hs hr
      simp [min_max_min_loop, hleg, he, hs, hr, ih', ite_lt_eq_min]
    · rw [filter_cons_full B rest he]
      simp [min_max_min_loop, hleg, he, ih']

theorem mem_cells_of_mem_moves {b : Board} : ∀ ij ∈ moves b, ij ∈ cells :=
  fun _ h => (mem_moves.1 h).1

theorem min_max_eq (n : Nat) : ∀ (b : Board) (m : Int), num_of_empty_pos b < n →
    min_max n b m = some (mmv n b m, b) := by
  induction n with
  | zero => intro b m h; omega
  | succ n ih =>
    intro b m h
    have hx : ∀ ij ∈ cells, b.get ij.1 ij.2 = '_' →
        min_max n (b.set ij.1 ij.2 'x') 0 =
          some (mmv n (b.set ij.1 ij.2 'x') 0, b.set ij.1 ij.2 'x') := by
      intro ij hij he
      apply ih
      have := empties_set b 'x' (by decide) hij he
      omega
    have ho : ∀ ij ∈ cells, b.get ij.1 ij.2 = '_' →
        min_max n (b.set ij.1 ij.2 'o') 1 =
          some (mmv n (b.set ij.1 ij.2 'o') 1, b.set ij.1 ij.2 'o') := by
      intro ij hij he
      apply ih
      have := empties_set b 'o' (by decide) hij he
      omega
    have e1 := min_max_max_loop_eq (min_max n) (fun b' => mmv n b' 0) b cells (fun _ h => h) hx
      ARBITRARILY_LOW_VALUE 1
    have e2 := min_max_min_loop_eq (min_max n) (fun b' => mmv n b' 1) b cells (fun _ h => h) ho
      ARBITRARILY_HIGH_VALUE 1
    have hm : cells.filter (fun ij => decide (b.get ij.1 ij.2 = '_')) = moves b := rfl
    rw [hm] at e1 e2
    unfold min_max mmv
    by_cases h1 : is_victorious b 'o' ≠ 0
    · simp only [if_pos h1]
    simp only [if_neg h1]
    by_cases h2 : is_victorious b 'x' ≠ 0
    · simp only [if_pos h2]
    simp only [if_neg h2]
    by_cases h3 : is_draw b ≠ 0
    · simp only [if_pos h3]
    simp only [if_neg h3]
    by_cases h4 : m ≠ 0
    · simp only [if_pos h4, e1]
      by_cases h5 : moves b = []
      · simp [h5]
      · simp [h5]
    · simp only [if_neg h4, e2]
      by_cases h5 : moves b = []
      · simp [h5]
      · simp [h5]

open AlphaBeta in
theorem alpha_beta_max_loop_eq (self : Board → Int → Int → Int → Option (Int × Board))
    (f : Board → Int → Int) (beta : Int)
    (B : Board) (l : List (Int × Int)) (hl : ∀ ij ∈ l, ij ∈ cells)
    (hself : ∀ ij ∈ l, B.get ij.1 ij.2 = '_' → ∀ a,
      self (B.set ij.1 ij.2 'x') a beta 0 = some (f (B.set ij.1 ij.2 'x') a, B.set ij.1 ij.2 'x'))
    (value alpha : Int) :
    alpha_beta_max_loop self beta l B value alpha =
      some (abv_max (fun ij a => f (B.set ij.1 ij.2 'x') a) beta
        (l.filter (fun ij => decide (B.get ij.1 ij.2 = '_'))) value alpha, B) := by
  induction l generalizing value alpha with
  | nil => simp [alpha_beta_max_loop, abv_max]
  | cons ij rest ih =>
    obtain ⟨i, j⟩ := ij
    have hc : (i, j) ∈ cells := hl _ (List.mem_cons_self _ _)
    have ih' := ih (fun x hx => hl x (List.mem_cons_of_mem _ hx))
      (fun x hx => hself x (List.mem_cons_of_mem _ hx))
    have hleg := is_legal_cell B hc
    simp only at hleg
    by_cases he : B.get i j = '_'
    · have hs := hself _ (List.mem_cons_self _ _) he alpha
      have hr := set_restore B 'x' hc he
      simp only at hs hr
      rw [filter_cons_empty B rest he]
      simp only [alpha_beta_max_loop, hleg, he, if_true, one_ne_zero, if_false, hs, hr, abv_max, ite_gt_eq_max, ih']
      split <;> rfl
    · rw [filter_cons_full B rest he]
      simp [alpha_beta_max_loop, hleg, he, ih']

open AlphaBeta in
theorem alpha_beta_min_loop_eq (self : Board → Int → Int → Int → Option (Int × Board))
    (f : Board → Int → Int) (alpha : Int)
    (B : Board) (l : List (Int × Int)) (hl : ∀ ij ∈ l, ij ∈ cells)
    (hself : ∀ ij ∈ l, B.get ij.1 ij.2 = '_' → ∀ c,
      self (B.set ij.1 ij.2 'o') alpha c 1 = some (f (B.set ij.1 ij.2 'o') c, B.set ij.1 ij.2 'o'))
    (value beta : Int) :
    alpha_beta_min_loop self alpha l B value beta =
      some (abv_min (fun ij c => f (B.set ij.1 ij.2 'o') c) alpha
        (l.filter (fun ij => decide (B.get ij.1 ij.2 = '_'))) value beta, B) := by
  induction l generalizing value beta with
  | nil => simp [alpha_beta_min_loop, abv_min]
  | cons ij rest ih =>
    obtain ⟨i, j⟩ := ij
    have hc : (i, j) ∈ cells := hl _ (List.mem_cons_self _ _)
    have ih' := ih (fun x hx => hl x (List.mem_cons_of_mem _ hx))
      (fun x hx => hself x (List.mem_cons_of_mem _ hx))
    have hleg := is_legal_cell B hc
    simp only at hleg
    by_cases he : B.get i j = '_'
    · have hs := hself _ (List.mem_cons_self _ _) he beta
      have hr := set_restore B 'o' hc he
      simp only at hs hr
      rw [filter_cons_empty B rest he]
      simp only [alpha_beta_min_loop, hleg, he, if_true, one_ne_zero, if_false, hs, hr, abv_min, ite_lt_eq_min, ih']
      split <;> rfl
    · rw [filter_cons_full B rest he]
      simp [alpha_beta_min_loop, hleg, he, ih']

open AlphaBeta in
theorem alpha_beta_routine_eq (n : Nat) : ∀ (b : Board) (alpha beta m : Int),
    num_of_empty_pos b < n →
    alpha_beta_routine n b alpha beta m = some (abv n b alpha beta m, b) := by
  induction n with
  | zero => intro b _ _ _ h; omega
  | succ n ih =>
    intro b alpha beta m h
    have hx : ∀ ij ∈ cells, b.get ij.1 ij.2 = '_' → ∀ a,
        alpha_beta_routine n (b.set ij.1 ij.2 'x') a beta 0 =
          some (abv n (b.set ij.1 ij.2 'x') a beta 0, b.set ij.1 ij.2 'x') := by
      intro ij hij he a
      apply ih
      have := empties_set b 'x' (by decide) hij he
      omega
    have ho : ∀ ij ∈ cells, b.get ij.1 ij.2 = '_' → ∀ c,
        alpha_beta_routine n (b.set ij.1 ij.2 'o') alpha c 1 =
          some (abv n (b.set ij.1 ij.2 'o') alpha c 1, b.set ij.1 ij.2 'o') := by
      intro ij hij he c
      apply ih
      have := empties_set b 'o' (by decide) hij he
      omega
    have e1 := alpha_beta_max_loop_eq (alpha_beta_routine n) (fun b' a => abv n b' a beta 0) beta
      b cells (fun _ h => h) hx ARBITRARILY_LOW_VALUE alpha
    have e2 := alpha_beta_min_loop_eq (alpha_beta_routine n) (fun b' c => abv n b' alpha c 1) alpha
      b cells (fun _ h => h) ho ARBITRARILY_HIGH_VALUE beta
    have hm : cells.filter (fun ij => decide (b.get ij.1 ij.2 = '_')) = moves b := rfl
    rw [hm] at e1 e2
    unfold alpha_beta_routine abv
    by_cases h1 : is_victorious b 'x' ≠ 0
    · simp only [if_pos h1]
    simp only [if_neg h1]
    by_cases h2 : is_victorious b 'o' ≠ 0
    · simp only [if_pos h2]
    simp only [if_neg h2]
    by_cases h3 : is_draw b ≠ 0
    · simp only [if_pos h3]
    simp only [if_neg h3]
    by_cases h4 : m ≠ 0
    · simp only [if_pos h4, e1]
    · simp only [if_neg h4, e2]

end

/-! ## Alpha-beta against plain minimax -/

theorem win_step_max {α0 β value V alpha t v : Int} (h0 : α0 < β) (hP : Win α0 β value V)
    (ha1 : α0 ≤ alpha) (ha2 : alpha ≤ max α0 value) (hab : alpha < β) (hc : Win alpha β t v) :
    Win α0 β (max value t) (max V v) ∧ α0 ≤ max alpha (max value t) ∧
      max alpha (max value t) ≤ max α0 (max value t) := by
  unfold Win at *
  omega

theorem win_step_min {α β0 value V beta t v : Int} (hP : Win α β0 value V)
    (hb1 : beta ≤ β0) (hb2 : min β0 value ≤ beta) (hab : α < beta) (hc : Win α beta t v) :
    Win α β0 (min value t) (min V v) ∧ min beta (min value t) ≤ β0 ∧
      min β0 (min value t) ≤ min beta (min value t) := by
  unfold Win at *
  omega

theorem init_le_foldl_max (l : List Int) (init : Int) : init ≤ l.foldl max init := by
  induction l generalizing init with
  | nil => simp
  | cons a t ih => simp only [List.foldl_cons]; exact le_trans (le_max_left _ _) (ih _)

theorem foldl_min_le_init (l : List Int) (init : Int) : l.foldl min init ≤ init := by
  induction l generalizing init with
  | nil => simp
  | cons a t ih => simp only [List.foldl_cons]; exact le_trans (ih _) (min_le_left _ _)

theorem abv_max_win (child : Int × Int → Int → Int) (tv : Int × Int → Int) (α0 β : Int)
    (h0 : α0 < β) (l : List (Int × Int))
    (hchild : ∀ ij ∈ l, ∀ a, a < β → Win a β (child ij a) (tv ij))
    (value alpha V : Int) (hP : Win α0 β value V) (ha1 : α0 ≤ alpha)
    (ha2 : alpha ≤ max α0 value) (hab : alpha < β) :
    Win α0 β (abv_max child β l value alpha) ((l.map tv).foldl max V) := by
  induction l generalizing value alpha V with
  | nil => simpa [abv_max] using hP
  | cons ij rest ih =>
    have hc := hchild ij (List.mem_cons_self _ _) alpha hab
    obtain ⟨s1, s2, s3⟩ := win_step_max h0 hP ha1 ha2 hab hc
    simp only [abv_max, List.map_cons, List.foldl_cons]
    split
    · rename_i hcut
      have hF := init_le_foldl_max (rest.map tv) (max V (tv ij))
      unfold Win at s1 ⊢
      omega
    · rename_i hcut
      exact ih (fun x hx => hchild x (List.mem_cons_of_mem _ hx)) _ _ _ s1 s2 s3 (by omega)

theorem abv_min_win (child : Int × Int → Int → Int) (tv : Int × Int → Int) (α β0 : Int)
    (h0 : α < β0) (l : List (Int × Int))
    (hchild : ∀ ij ∈ l, ∀ c, α < c → Win α c (child ij c) (tv ij))
    (value beta V : Int) (hP : Win α β0 value V) (hb1 : beta ≤ β0)
    (hb2 : min β0 value ≤ beta) (hab : α < beta) :
    Win α β0 (abv_min child α l value beta) ((l.map tv).foldl min V) := by
  induction l generalizing value beta V with
  | nil => simpa [abv_min] using hP
  | cons ij rest ih =>
    have hc := hchild ij (List.mem_cons_self _ _) beta hab
    obtain ⟨s1, s2, s3⟩ := win_step_min hP hb1 hb2 hab hc
    simp only [abv_min, List.map_cons, List.foldl_cons]
    split
    · rename_i hcut
      have hF := foldl_min_le_init (rest.map tv) (min V (tv ij))
      unfold Win at s1 ⊢
      omega
    · rename_i hcut
      exact ih (fun x hx => hchild x (List.mem_cons_of_mem _ hx)) _ _ _ s1 s2 s3 (by omega)

theorem abv_win (n : Nat) : ∀ (b : Board) (alpha beta m : Int), alpha < beta →
    num_of_empty_pos b < n → Win alpha beta (abv n b alpha beta m) (gval n b m) := by
  induction n with
  | zero => intro b _ _ _ _ h; omega
  | succ n ih =>
    intro b alpha beta m hab h
    unfold abv gval
    by_cases h1 : is_victorious b 'x' ≠ 0
    · simp only [if_pos h1]; unfold Win; omega
    simp only [if_neg h1]
    by_cases h2 : is_victorious b 'o' ≠ 0
    · simp only [if_pos h2]; unfold Win; omega
    simp only [if_neg h2]
    by_cases h3 : is_draw b ≠ 0
    · simp only [if_pos h3]; unfold Win; omega
    simp only [if_neg h3]
    by_cases h4 : m ≠ 0
    · simp only [if_pos h4]
      apply abv_max_win _ _ alpha beta hab
      · intro ij hij a ha
        obtain ⟨hc, he⟩ := mem_moves.1 hij
        apply ih _ _ _ _ ha
        have := empties_set b 'x' (by decide) hc he
        omega
      · unfold Win; omega
      · exact le_refl _
      · exact le_max_left _ _
      · exact hab
    · simp only [if_neg h4]
      apply abv_min_win _ _ alpha beta hab
      · intro ij hij c hc'
        obtain ⟨hc, he⟩ := mem_moves.1 hij
        apply ih _ _ _ _ hc'
        have := empties_set b 'o' (by decide) hc he
        omega
      · unfold Win; omega
      · exact le_refl _
      · exact min_le_left _ _
      · exact hab

theorem is_victorious_eq (b : Board) (p : Char) [Decidable (has_line b p)] :
    is_victorious b p = if has_line b p then 1 else 0 := by
  obtain ⟨h0, h1, h2, h3, h4, h5, h6, h7, h8⟩ := get_cells b
  unfold is_victorious has_line
  simp only [List.any_cons, List.any_nil, h0, h1, h2, h3, h4, h5, h6, h7, h8, Bool.or_false,
    Bool.or_eq_true, decide_eq_true_eq]
  by_cases r0 : (b.c00 = p ∧ b.c01 = p ∧ b.c02 = p)
  · simp [r0]
  by_cases r1 : (b.c10 = p ∧ b.c11 = p ∧ b.c12 = p)
  · simp [r1]
  by_cases r2 : (b.c20 = p ∧ b.c21 = p ∧ b.c22 = p)
  · simp [r2]
  by_cases r3 : (b.c00 = p ∧ b.c10 = p ∧ b.c20 = p)
  · simp [r3]
  by_cases r4 : (b.c01 = p ∧ b.c11 = p ∧ b.c21 = p)
  · simp [r4]
  by_cases r5 : (b.c02 = p ∧ b.c12 = p ∧ b.c22 = p)
  · simp [r5]
  by_cases r6 : (b.c00 = p ∧ b.c11 = p ∧ b.c22 = p)
  · simp [r6]
  by_cases r7 : (b.c02 = p ∧ b.c11 = p ∧ b.c20 = p)
  · simp [r7]
  simp only [r0, r1, r2, r3, r4, r5, r6, r7, or_self, if_false]

theorem is_victorious_ne_zero (b : Board) (p : Char) :
    is_victorious b p ≠ 0 ↔ has_line b p := by
  rw [is_victorious_eq]; split <;> simp_all

theorem has_line_set_other (b : Board) {s p : Char} (hsp : s ≠ p) {ij : Int × Int}
    (h : ij ∈ cells) : has_line (b.set ij.1 ij.2 s) p → has_line b p := by
  obtain ⟨s0, s1, s2, s3, s4, s5, s6, s7, s8⟩ := set_cells b s
  refine cells_cases (P := fun ij => has_line (b.set ij.1 ij.2 s) p → has_line b p)
    h ?_ ?_ ?_ ?_ ?_ ?_ ?_ ?_ ?_ <;>
    (simp only [s0, s1, s2, s3, s4, s5, s6, s7, s8, has_line]
     rintro (⟨h1, h2, h3⟩ | ⟨h1, h2, h3⟩ | ⟨h1, h2, h3⟩ | ⟨h1, h2, h3⟩ | ⟨h1, h2, h3⟩ |
       ⟨h1, h2, h3⟩ | ⟨h1, h2, h3⟩ | ⟨h1, h2, h3⟩) <;>
     first
       | exact absurd h1 hsp
       | exact absurd h2 hsp
       | exact absurd h3 hsp
       | exact Or.inl ⟨h1, h2, h3⟩
       | exact Or.inr (Or.inl ⟨h1, h2, h3⟩)
       | exact Or.inr (Or.inr (Or.inl ⟨h1, h2, h3⟩))
       | exact Or.inr (Or.inr (Or.inr (Or.inl ⟨h1, h2, h3⟩)))
       | exact Or.inr (Or.inr (Or.inr (Or.inr (Or.inl ⟨h1, h2, h3⟩))))
       | exact Or.inr (Or.inr (Or.inr (Or.inr (Or.inr (Or.inl ⟨h1, h2, h3⟩)))))
       | exact Or.inr (Or.inr (Or.inr (Or.inr (Or.inr (Or.inr (Or.inl ⟨h1, h2, h3⟩))))))
       | exact Or.inr (Or.inr (Or.inr (Or.inr (Or.inr (Or.inr (Or.inr ⟨h1, h2, h3⟩)))))))

theorem le_foldl_max {l : List Int} {x : Int} (hx : x ∈ l) (init : Int) :
    x ≤ l.foldl max init := by
  induction l generalizing init with
  | nil => simp at hx
  | cons a t ih =>
    simp only [List.foldl_cons]
    rcases List.mem_cons.1 hx with rfl | h
    · exact le_trans (le_max_right _ _) (init_le_foldl_max _ _)
    · exact ih h _

theorem foldl_min_le {l : List Int} {x : Int} (hx : x ∈ l) (init : Int) :
    l.foldl min init ≤ x := by
  induction l generalizing init with
  | nil => simp at hx
  | cons a t ih =>
    simp only [List.foldl_cons]
    rcases List.mem_cons.1 hx with rfl | h
    · exact le_trans (foldl_min_le_init _ _) (min_le_right _ _)
    · exact ih h _

theorem foldl_max_le {l : List Int} {hi : Int} (h : ∀ x ∈ l, x ≤ hi) (init : Int)
    (hinit : init ≤ hi) : l.foldl max init ≤ hi := by
  induction l generalizing init with
  | nil => simpa using hinit
  | cons a t ih =>
    simp only [List.foldl_cons]
    exact ih (fun x hx => h x (List.mem_cons_of_mem _ hx)) _
      (max_le hinit (h a (List.mem_cons_self _ _)))

theorem le_foldl_min {l : List Int} {lo : Int} (h : ∀ x ∈ l, lo ≤ x) (init : Int)
    (hinit : lo ≤ init) : lo ≤ l.foldl min init := by
  induction l generalizing init with
  | nil => simpa using hinit
  | cons a t ih =>
    simp only [List.foldl_cons]
    exact ih (fun x hx => h x (List.mem_cons_of_mem _ hx)) _
      (le_min hinit (h a (List.mem_cons_self _ _)))

theorem not_ne_zero {x : Int} (h : ¬ x ≠ 0) : x = 0 := by omega

theorem gval_bounds (n : Nat) : ∀ (b : Board) (m : Int), -1 ≤ gval n b m ∧ gval n b m ≤ 1 := by
  induction n with
  | zero => intro b m; simp [gval]
  | succ n ih =>
    intro b m
    unfold gval
    by_cases h1 : is_victorious b 'x' ≠ 0
    · simp only [if_pos h1]; omega
    simp only [if_neg h1]
    by_cases h2 : is_victorious b 'o' ≠ 0
    · simp only [if_pos h2]; omega
    simp only [if_neg h2]
    by_cases h3 : is_draw b ≠ 0
    · simp only [if_pos h3]; omega
    simp only [if_neg h3]
    have hne := moves_ne_nil (not_ne_zero h3)
    obtain ⟨a, t, hat⟩ := List.exists_cons_of_ne_nil hne
    have ha : a ∈ moves b := by rw [hat]; exact List.mem_cons_self _ _
    by_cases h4 : m ≠ 0
    · simp only [if_pos h4]
      constructor
      · exact le_trans (ih (b.set a.1 a.2 'x') 0).1
          (le_foldl_max (List.mem_map.2 ⟨a, ha, rfl⟩) _)
      · apply foldl_max_le _ _ (by decide)
        intro x hx
        obtain ⟨ij, _, rfl⟩ := List.mem_map.1 hx
        exact (ih _ _).2
    · simp only [if_neg h4]
      constructor
      · apply le_foldl_min _ _ (by decide)
        intro x hx
        obtain ⟨ij, _, rfl⟩ := List.mem_map.1 hx
        exact (ih _ _).1
      · exact le_trans (foldl_min_le (List.mem_map.2 ⟨a, ha, rfl⟩) _)
          (ih (b.set a.1 a.2 'o') 1).2

theorem gval_fuel (n : Nat) : ∀ (n' : Nat) (b : Board) (m : Int), num_of_empty_pos b < n →
    num_of_empty_pos b < n' → gval n b m = gval n' b m := by
  induction n with
  | zero => intro _ b _ h; omega
  | succ n ih =>
    intro n' b m h h'
    cases n' with
    | zero => omega
    | succ n' =>
      unfold gval
      have hx : ∀ ij ∈ moves b, gval n (b.set ij.1 ij.2 'x') 0 = gval n' (b.set ij.1 ij.2 'x') 0 := by
        intro ij hij
        obtain ⟨hc, he⟩ := mem_moves.1 hij
        have := empties_set b 'x' (by decide) hc he
        exact ih _ _ _ (by omega) (by omega)
      have ho : ∀ ij ∈ moves b, gval n (b.set ij.1 ij.2 'o') 1 = gval n' (b.set ij.1 ij.2 'o') 1 := by
        intro ij hij
        obtain ⟨hc, he⟩ := mem_moves.1 hij
        have := empties_set b 'o' (by decide) hc he
        exact ih _ _ _ (by omega) (by omega)
      rw [List.map_congr_left hx, List.map_congr_left ho]

theorem abv_full (n : Nat) (b : Board) (m : Int) (h : num_of_empty_pos b < n) :
    abv n b ARBITRARILY_LOW_VALUE ARBITRARILY_HIGH_VALUE m = gval n b m := by
  have hw := abv_win n b ARBITRARILY_LOW_VALUE ARBITRARILY_HIGH_VALUE m (by decide) h
  have hb := gval_bounds n b m
  unfold Win at hw
  simp only [ARBITRARILY_LOW_VALUE, ARBITRARILY_HIGH_VALUE] at hw ⊢
  omega

theorem foldl_max_scale (l : List Int) (c : Int) :
    (l.map (fun x => 10 * x)).foldl max (10 * c) = 10 * l.foldl max c := by
  induction l generalizing c with
  | nil => simp
  | cons a t ih =>
    simp only [List.map_cons, List.foldl_cons]
    have : max (10 * c) (10 * a) = 10 * max c a := by omega
    rw [this, ih]

theorem foldl_min_scale (l : List Int) (c : Int) :
    (l.map (fun x => 10 * x)).foldl min (10 * c) = 10 * l.foldl min c := by
  induction l generalizing c with
  | nil => simp
  | cons a t ih =>
    simp only [List.map_cons, List.foldl_cons]
    have : min (10 * c) (10 * a) = 10 * min c a := by omega
    rw [this, ih]

theorem foldl_max_scale_low {l : List Int} (hne : l ≠ []) (hl : ∀ x ∈ l, -1 ≤ x) :
    (l.map (fun x => 10 * x)).foldl max ARBITRARILY_LOW_VALUE =
      10 * l.foldl max ARBITRARILY_LOW_VALUE := by
  obtain ⟨a, t, rfl⟩ := List.exists_cons_of_ne_nil hne
  have ha := hl a (List.mem_cons_self _ _)
  simp only [List.map_cons, List.foldl_cons]
  have e1 : max ARBITRARILY_LOW_VALUE (10 * a) = 10 * a := by
    simp only [ARBITRARILY_LOW_VALUE]; omega
  have e2 : max ARBITRARILY_LOW_VALUE a = a := by
    simp only [ARBITRARILY_LOW_VALUE]; omega
  rw [e1, e2, foldl_max_scale]

theorem foldl_min_scale_high {l : List Int} (hne : l ≠ []) (hl : ∀ x ∈ l, x ≤ 1) :
    (l.map (fun x => 10 * x)).foldl min ARBITRARILY_HIGH_VALUE =
      10 * l.foldl min ARBITRARILY_HIGH_VALUE := by
  obtain ⟨a, t, rfl⟩ := List.exists_cons_of_ne_nil hne
  have ha := hl a (List.mem_cons_self _ _)
  simp only [List.map_cons, List.foldl_cons]
  have e1 : min ARBITRARILY_HIGH_VALUE (10 * a) = 10 * a := by
    simp only [ARBITRARILY_HIGH_VALUE]; omega
  have e2 : min ARBITRARILY_HIGH_VALUE a = a := by
    simp only [ARBITRARILY_HIGH_VALUE]; omega
  rw [e1, e2, foldl_min_scale]

theorem mmv_eq_gval (n : Nat) : ∀ (b : Board) (m : Int), num_of_empty_pos b < n →
    ¬ (has_line b 'x' ∧ has_line b 'o') → mmv n b m = 10 * gval n b m := by
  induction n with
  | zero => intro b _ h; omega
  | succ n ih =>
    intro b m h hnb
    unfold mmv gval
    by_cases h1 : is_victorious b 'o' ≠ 0
    · have h2 : ¬ is_victorious b 'x' ≠ 0 := by
        rw [is_victorious_ne_zero] at h1 ⊢
        exact fun hx => hnb ⟨hx, h1⟩
      simp only [if_pos h1, if_neg h2]; rfl
    simp only [if_neg h1]
    by_cases h2 : is_victorious b 'x' ≠ 0
    · simp only [if_pos h2]; rfl
    simp only [if_neg h2]
    by_cases h3 : is_draw b ≠ 0
    · simp only [if_pos h3]; rfl
    simp only [if_neg h3]
    have hne := moves_ne_nil (not_ne_zero h3)
    rw [is_victorious_ne_zero] at h1 h2
    have hx : ∀ ij ∈ moves b,
        mmv n (b.set ij.1 ij.2 'x') 0 = 10 * gval n (b.set ij.1 ij.2 'x') 0 := by
      intro ij hij
      obtain ⟨hc, he⟩ := mem_moves.1 hij
      have := empties_set b 'x' (by decide) hc he
      exact ih _ _ (by omega)
        (fun hh => h1 (has_line_set_other b (by decide) hc hh.2))
    have ho : ∀ ij ∈ moves b,
        mmv n (b.set ij.1 ij.2 'o') 1 = 10 * gval n (b.set ij.1 ij.2 'o') 1 := by
      intro ij hij
      obtain ⟨hc, he⟩ := mem_moves.1 hij
      have := empties_set b 'o' (by decide) hc he
      exact ih _ _ (by omega)
        (fun hh => h2 (has_line_set_other b (by decide) hc hh.1))
    simp only [if_neg hne]
    rw [List.map_congr_left hx, List.map_congr_left ho]
    have hmapx : (moves b).map (fun ij => 10 * gval n (b.set ij.1 ij.2 'x') 0) =
        ((moves b).map (fun ij => gval n (b.set ij.1 ij.2 'x') 0)).map (fun x => 10 * x) := by
      rw [List.map_map]; rfl
    have hmapo : (moves b).map (fun ij => 10 * gval n (b.set ij.1 ij.2 'o') 1) =
        ((moves b).map (fun ij => gval n (b.set ij.1 ij.2 'o') 1)).map (fun x => 10 * x) := by
      rw [List.map_map]; rfl
    rw [hmapx, hmapo]
    have nex : (moves b).map (fun ij => gval n (b.set ij.1 ij.2 'x') 0) ≠ [] := by
      simpa using hne
    have neo : (moves b).map (fun ij => gval n (b.set ij.1 ij.2 'o') 1) ≠ [] := by
      simpa using hne
    rw [foldl_max_scale_low nex, foldl_min_scale_high neo]
    · split <;> rfl
    · intro x hx'
      obtain ⟨ij, _, rfl⟩ := List.mem_map.1 hx'
      exact (gval_bounds _ _ _).2
    · intro x hx'
      obtain ⟨ij, _, rfl⟩ := List.mem_map.1 hx'
      exact (gval_bounds _ _ _).1

/-! ## Fuel: more never changes a result -/

section
open Exhaustive

theorem min_max_max_loop_mono (self self' : Board → Int → Option (Int × Board))
    (h : ∀ b m r, self b m = some r → self' b m = some r) :
    ∀ (l : List (Int × Int)) (B : Board) (best nlm : Int) (r : Board × Int × Int),
      min_max_max_loop self l B best nlm = some r →
      min_max_max_loop self' l B best nlm = some r := by
  intro l
  induction l with
  | nil => intro B best nlm r hr; simpa [min_max_max_loop] using hr
  | cons ij rest ih =>
    obtain ⟨i, j⟩ := ij
    intro B best nlm r hr
    simp only [min_max_max_loop] at hr ⊢
    cases hleg : is_legal B i j with
    | none => simp [hleg] at hr
    | some legal =>
      simp only [hleg] at hr ⊢
      by_cases h0 : legal = 0
      · simp only [if_pos h0] at hr ⊢
        exact ih _ _ _ _ hr
      · simp only [if_neg h0] at hr ⊢
        cases hs : self (B.set i j 'x') 0 with
        | none => simp [hs] at hr
        | some vb =>
          simp only [hs] at hr
          simp only [h _ _ _ hs]
          exact ih _ _ _ _ hr

theorem min_max_min_loop_mono (self self' : Board → Int → Option (Int × Board))
    (h : ∀ b m r, self b m = some r → self' b m = some r) :
    ∀ (l : List (Int × Int)) (B : Board) (best nlm : Int) (r : Board × Int × Int),
      min_max_min_loop self l B best nlm = some r →
      min_max_min_loop self' l B best nlm = some r := by
  intro l
  induction l with
  | nil => intro B best nlm r hr; simpa [min_max_min_loop] using hr
  | cons ij rest ih =>
    obtain ⟨i, j⟩ := ij
    intro B best nlm r hr
    simp only [min_max_min_loop] at hr ⊢
    cases hleg : is_legal B i j with
    | none => simp [hleg] at hr
    | some legal =>
      simp only [hleg] at hr ⊢
      by_cases h0 : legal = 0
      · simp only [if_pos h0] at hr ⊢
        exact ih _ _ _ _ hr
      · simp only [if_neg h0] at hr ⊢
        cases hs : self (B.set i j 'o') 1 with
        | none => simp [hs] at hr
        | some vb =>
          simp only [hs] at hr
          simp only [h _ _ _ hs]
          exact ih _ _ _ _ hr

theorem min_max_mono_succ (n : Nat) : ∀ (b : Board) (m : Int) (r : Int × Board),
    min_max n b m = some r → min_max (n + 1) b m = some r := by
  induction n with
  | zero => intro b m r hr; simp [min_max] at hr
  | succ n ih =>
    intro b m r hr
    unfold min_max at hr ⊢
    by_cases h1 : is_victorious b 'o' ≠ 0
    · simpa only [if_pos h1] using hr
    simp only [if_neg h1] at hr ⊢
    by_cases h2 : is_victorious b 'x' ≠ 0
    · simpa only [if_pos h2] using hr
    simp only [if_neg h2] at hr ⊢
    by_cases h3 : is_draw b ≠ 0
    · simpa only [if_pos h3] using hr
    simp only [if_neg h3] at hr ⊢
    by_cases h4 : m ≠ 0
    · simp only [if_pos h4] at hr ⊢
      cases hl : min_max_max_loop (min_max n) cells b ARBITRARILY_LOW_VALUE 1 with
      | none => simp [hl] at hr
      | some st =>
        rw [min_max_max_loop_mono _ _ ih _ _ _ _ _ hl]
        simpa only [hl] using hr
    · simp only [if_neg h4] at hr ⊢
      cases hl : min_max_min_loop (min_max n) cells b ARBITRARILY_HIGH_VALUE 1 with
      | none => simp [hl] at hr
      | some st =>
        rw [min_max_min_loop_mono _ _ ih _ _ _ _ _ hl]
        simpa only [hl] using hr

theorem min_max_mono {n n' : Nat} (hn : n ≤ n') {b : Board} {m : Int} {r : Int × Board}
    (h : min_max n b m = some r) : min_max n' b m = some r := by
  induction hn with
  | refl => exact h
  | step _ ih => exact min_max_mono_succ _ _ _ _ ih

/-- Whatever fuel makes `min_max` return, it returns the score `mmv` and the board it was
given. -/
theorem min_max_some {n : Nat} {b : Board} {m : Int} {r : Int × Board}
    (h : min_max n b m = some r) : r = (mmv (n + 10) b m, b) := by
  have h1 := min_max_mono (Nat.le_add_right n 10) h
  have h2 := min_max_eq (n + 10) b m (by have := num_of_empty_pos_le b; omega)
  rw [h1] at h2
  exact Option.some.inj h2

end

section
open AlphaBeta

theorem alpha_beta_max_loop_mono (self self' : Board → Int → Int → Int → Option (Int × Board))
    (h : ∀ b a c m r, self b a c m = some r → self' b a c m = some r) (beta : Int) :
    ∀ (l : List (Int × Int)) (B : Board) (value alpha : Int) (r : Int × Board),
      alpha_beta_max_loop self beta l B value alpha = some r →
      alpha_beta_max_loop self' beta l B value alpha = some r := by
  intro l
  induction l with
  | nil => intro B value alpha r hr; simpa [alpha_beta_max_loop] using hr
  | cons ij rest ih =>
    obtain ⟨i, j⟩ := ij
    intro B value alpha r hr
    simp only [alpha_beta_max_loop] at hr ⊢
    cases hleg : is_legal B i j with
    | none => simp [hleg] at hr
    | some legal =>
      simp only [hleg] at hr ⊢
      by_cases h0 : legal = 0
      · simp only [if_pos h0] at hr ⊢
        exact ih _ _ _ _ hr
      · simp only [if_neg h0] at hr ⊢
        cases hs : self (B.set i j 'x') alpha beta 0 with
        | none => simp [hs] at hr
        | some vb =>
          simp only [hs] at hr
          simp only [h _ _ _ _ _ hs]
          split_ifs at hr ⊢ <;> first | exact hr | exact ih _ _ _ _ hr

theorem alpha_beta_min_loop_mono (self self' : Board → Int → Int → Int → Option (Int × Board))
    (h : ∀ b a c m r, self b a c m = some r → self' b a c m = some r) (alpha : Int) :
    ∀ (l : List (Int × Int)) (B : Board) (value beta : Int) (r : Int × Board),
      alpha_beta_min_loop self alpha l B value beta = some r →
      alpha_beta_min_loop self' alpha l B value beta = some r := by
  intro l
  induction l with
  | nil => intro B value beta r hr; simpa [alpha_beta_min_loop] using hr
  | cons ij rest ih =>
    obtain ⟨i, j⟩ := ij
    intro B value beta r hr
    simp only [alpha_beta_min_loop] at hr ⊢
    cases hleg : is_legal B i j with
    | none => simp [hleg] at hr
    | some legal =>
      simp only [hleg] at hr ⊢
      by_cases h0 : legal = 0
      · simp only [if_pos h0] at hr ⊢
        exact ih _ _ _ _ hr
      · simp only [if_neg h0] at hr ⊢
        cases hs : self (B.set i j 'o') alpha beta 1 with
        | none => simp [hs] at hr
        | some vb =>
          simp only [hs] at hr
          simp only [h _ _ _ _ _ hs]
          split_ifs at hr ⊢ <;> first | exact hr | exact ih _ _ _ _ hr

theorem alpha_beta_routine_mono_succ (n : Nat) :
    ∀ (b : Board) (alpha beta m : Int) (r : Int × Board),
    alpha_beta_routine n b alpha beta m = some r →
    alpha_beta_routine (n + 1) b alpha beta m = some r := by
  induction n with
  | zero => intro b alpha beta m r hr; simp [alpha_beta_routine] at hr
  | succ n ih =>
    intro b alpha beta m r hr
    unfold alpha_beta_routine at hr ⊢
    by_cases h1 : is_victorious b 'x' ≠ 0
    · simpa only [if_pos h1] using hr
    simp only [if_neg h1] at hr ⊢
    by_cases h2 : is_victorious b 'o' ≠ 0
    · simpa only [if_pos h2] using hr
    simp only [if_neg h2] at hr ⊢
    by_cases h3 : is_draw b ≠ 0
    · simpa only [if_pos h3] using hr
    simp only [if_neg h3] at hr ⊢
    by_cases h4 : m ≠ 0
    · simp only [if_pos h4] at hr ⊢
      exact alpha_beta_max_loop_mono _ _ ih _ _ _ _ _ _ hr
    · simp only [if_neg h4] at hr ⊢
      exact alpha_beta_min_loop_mono _ _ ih _ _ _ _ _ _ hr

theorem alpha_beta_routine_mono {n n' : Nat} (hn : n ≤ n') {b : Board} {alpha beta m : Int}
    {r : Int × Board} (h : alpha_beta_routine n b alpha beta m = some r) :
    alpha_beta_routine n' b alpha beta m = some r := by
  induction hn with
  | refl => exact h
  | step _ ih => exact alpha_beta_routine_mono_succ _ _ _ _ _ _ ih

/-- Whatever fuel makes `alpha_beta_routine` return, it returns the score `abv` and the board
it was given. -/
theorem alpha_beta_routine_some {n : Nat} {b : Board} {alpha beta m : Int} {r : Int × Board}
    (h : alpha_beta_routine n b alpha beta m = some r) :
    r = (abv (n + 10) b alpha beta m, b) := by
  have h1 := alpha_beta_routine_mono (Nat.le_add_right n 10) h
  have h2 := alpha_beta_routine_eq (n + 10) b alpha beta m
    (by have := num_of_empty_pos_le b; omega)
  rw [h1] at h2
  exact Option.some.inj h2

end

section
open DepthLimited

theorem search_loop_eq (self : Board → Int → Int → Int → Option (Int × Board))
    (f : Board → Int) (m depth max_depth : Int)
    (B : Board) (l : List (Int × Int)) (hl : ∀ ij ∈ l, ij ∈ cells)
    (hself : depth ≠ max_depth → ∀ ij ∈ l, B.get ij.1 ij.2 = '_' →
      self (B.set ij.1 ij.2 (if m ≠ 0 then 'x' else 'o')) (int_wrap (1 - m)) (int_wrap (depth + 1)) max_depth =
        some (f (B.set ij.1 ij.2 (if m ≠ 0 then 'x' else 'o')),
          B.set ij.1 ij.2 (if m ≠ 0 then 'x' else 'o')))
    (best : Int) :
    search_loop self m depth max_depth l B best =
      some (((l.filter (fun ij => decide (B.get ij.1 ij.2 = '_'))).map (fun ij =>
          if depth = max_depth then
            evaluation_function (B.set ij.1 ij.2 (if m ≠ 0 then 'x' else 'o'))
          else f (B.set ij.1 ij.2 (if m ≠ 0 then 'x' else 'o')))).foldl
        (fun best value =>
          if m = 1 then (if best < value then value else best)
          else (if best > value then value else best)) best, B) := by
  induction l generalizing best with
  | nil => simp [search_loop]
  | cons ij rest ih =>
    obtain ⟨i, j⟩ := ij
    have hc : (i, j) ∈ cells := hl _ (List.mem_cons_self _ _)
    have ih' := ih (fun x hx => hl x (List.mem_cons_of_mem _ hx))
      (fun hd x hx => hself hd x (List.mem_cons_of_mem _ hx))
    have hleg := is_legal_cell B hc
    simp only at hleg
    by_cases he : B.get i j = '_'
    · have hb : (if m ≠ 0 then B.set i j 'x' else B.set i j 'o') =
          B.set i j (if m ≠ 0 then 'x' else 'o') := by split <;> rfl
      have hr := set_restore B (if m ≠ 0 then 'x' else 'o') hc he
      simp only at hr
      rw [filter_cons_empty B rest he]
      simp only [search_loop, hleg, he, if_true, one_ne_zero, if_false, hb, List.map_cons,
        List.foldl_cons]
      by_cases hd : depth = max_depth
      · simp only [if_pos hd, hr, ih']
      · have hs := hself hd _ (List.mem_cons_self _ _) he
        simp only at hs
        simp only [if_neg hd, hs, hr, ih']
    · rw [filter_cons_full B rest he]
      simp [search_loop, hleg, he, ih']

theorem search_eq (n : Nat) : ∀ (b : Board) (m depth max_depth : Int),
    num_of_empty_pos b < n →
    search n b m depth max_depth = some (sv n b m depth max_depth, b) := by
  induction n with
  | zero => intro b _ _ _ h; omega
  | succ n ih =>
    intro b m depth max_depth h
    have hs : depth ≠ max_depth → ∀ ij ∈ cells, b.get ij.1 ij.2 = '_' →
        search n (b.set ij.1 ij.2 (if m ≠ 0 then 'x' else 'o')) (int_wrap (1 - m)) (int_wrap (depth + 1)) max_depth =
          some (sv n (b.set ij.1 ij.2 (if m ≠ 0 then 'x' else 'o')) (int_wrap (1 - m)) (int_wrap (depth + 1))
            max_depth, b.set ij.1 ij.2 (if m ≠ 0 then 'x' else 'o')) := by
      intro _ ij hij he
      apply ih
      have := empties_set b (if m ≠ 0 then 'x' else 'o') (by split <;> decide) hij he
      omega
    have e1 := search_loop_eq (search n) (fun b' => sv n b' (int_wrap (1 - m)) (int_wrap (depth + 1)) max_depth)
      m depth max_depth b cells (fun _ h => h) hs
      (if m = 1 then ARBITRARILY_LOW_VALUE else ARBITRARILY_HIGH_VALUE)
    have hm : cells.filter (fun ij => decide (b.get ij.1 ij.2 = '_')) = moves b := rfl
    rw [hm] at e1
    unfold search sv
    by_cases h1 : is_victorious b 'x' ≠ 0
    · simp only [if_pos h1]
    simp only [if_neg h1]
    by_cases h2 : is_victorious b 'o' ≠ 0
    · simp only [if_pos h2]
    simp only [if_neg h2]
    by_cases h3 : is_draw b ≠ 0
    · simp only [if_pos h3]
    simp only [if_neg h3]
    exact e1

theorem search_loop_mono (self self' : Board → Int → Int → Int → Option (Int × Board))
    (h : ∀ b a c m r, self b a c m = some r → self' b a c m = some r)
    (m depth max_depth : Int) :
    ∀ (l : List (Int × Int)) (B : Board) (best : Int) (r : Int × Board),
      search_loop self m depth max_depth l B best = some r →
      search_loop self' m depth max_depth l B best = some r := by
  intro l
  induction l with
  | nil => intro B best r hr; simpa [search_loop] using hr
  | cons ij rest ih =>
    obtain ⟨i, j⟩ := ij
    intro B best r hr
    simp only [search_loop] at hr ⊢
    cases hleg : is_legal B i j with
    | none => simp [hleg] at hr
    | some legal =>
      simp only [hleg] at hr ⊢
      by_cases h0 : legal = 0
      · simp only [if_pos h0] at hr ⊢
        exact ih _ _ _ hr
      · simp only [if_neg h0] at hr ⊢
        generalize (if m ≠ 0 then B.set i j 'x' else B.set i j 'o') = B1 at hr ⊢
        by_cases hd : depth = max_depth
        · simp only [if_pos hd] at hr ⊢
          exact ih _ _ _ hr
        · simp only [if_neg hd] at hr ⊢
          cases hs : self B1 (int_wrap (1 - m)) (int_wrap (depth + 1)) max_depth with
          | none => simp [hs] at hr
          | some vb =>
            simp only [hs] at hr
            simp only [h _ _ _ _ _ hs]
            exact ih _ _ _ hr

theorem search_mono_succ (n : Nat) :
    ∀ (b : Board) (m depth max_depth : Int) (r : Int × Board),
    search n b m depth max_depth = some r → search (n + 1) b m depth max_depth = some r := by
  induction n with
  | zero => intro b m depth max_depth r hr; simp [search] at hr
  | succ n ih =>
    intro b m depth max_depth r hr
    unfold search at hr ⊢
    by_cases h1 : is_victorious b 'x' ≠ 0
    · simpa only [if_pos h1] using hr
    simp only [if_neg h1] at hr ⊢
    by_cases h2 : is_victorious b 'o' ≠ 0
    · simpa only [if_pos h2] using hr
    simp only [if_neg h2] at hr ⊢
    by_cases h3 : is_draw b ≠ 0
    · simpa only [if_pos h3] using hr
    simp only [if_neg h3] at hr ⊢
    exact search_loop_mono _ _ ih _ _ _ _ _ _ _ hr

theorem search_mono {n n' : Nat} (hn : n ≤ n') {b : Board} {m depth max_depth : Int}
    {r : Int × Board} (h : search n b m depth max_depth = some r) :
    search n' b m depth max_depth = some r := by
  induction hn with
  | refl => exact h
  | step _ ih => exact search_mono_succ _ _ _ _ _ _ ih

/-- Whatever fuel makes `search` return, it returns the score `sv` and the board it was
given. -/
theorem search_some {n : Nat} {b : Board} {m depth max_depth : Int} {r : Int × Board}
    (h : search n b m depth max_depth = some r) :
    r = (sv (n + 10) b m depth max_depth, b) := by
  have h1 := search_mono (Nat.le_add_right n 10) h
  have h2 := search_eq (n + 10) b m depth max_depth
    (by have := num_of_empty_pos_le b; omega)
  rw [h1] at h2
  exact Option.some.inj h2

end

/-! ## The loops of `computer_choose` -/

theorem alpha_beta_choose_loop_eq (fuel : Nat) (B : Board) (hf : num_of_empty_pos B ≤ fuel)
    (l : List (Int × Int)) (hl : ∀ ij ∈ l, ij ∈ cells) (best : Int) (rc : Option (Int × Int))
    (r c : Int) :
    AlphaBeta.computer_choose_loop fuel l B best (rc.getD (r, c)).1 (rc.getD (r, c)).2 =
      some (B,
        (choose_max (fun ij => abv fuel (B.set ij.1 ij.2 'x') ARBITRARILY_LOW_VALUE
            ARBITRARILY_HIGH_VALUE 0)
          (l.filter (fun ij => decide (B.get ij.1 ij.2 = '_'))) best rc).1,
        ((choose_max (fun ij => abv fuel (B.set ij.1 ij.2 'x') ARBITRARILY_LOW_VALUE
            ARBITRARILY_HIGH_VALUE 0)
          (l.filter (fun ij => decide (B.get ij.1 ij.2 = '_'))) best rc).2.getD (r, c)).1,
        ((choose_max (fun ij => abv fuel (B.set ij.1 ij.2 'x') ARBITRARILY_LOW_VALUE
            ARBITRARILY_HIGH_VALUE 0)
          (l.filter (fun ij => decide (B.get ij.1 ij.2 = '_'))) best rc).2.getD (r, c)).2) := by
  induction l generalizing best rc with
  | nil => simp [AlphaBeta.computer_choose_loop, choose_max]
  | cons ij rest ih =>
    obtain ⟨i, j⟩ := ij
    have hc : (i, j) ∈ cells := hl _ (List.mem_cons_self _ _)
    have ih' := ih (fun x hx => hl x (List.mem_cons_of_mem _ hx))
    have hleg := is_legal_cell B hc
    simp only at hleg
    by_cases he : B.get i j = '_'
    · have hr := set_restore B 'x' hc he
      have hs := alpha_beta_routine_eq fuel (B.set i j 'x') ARBITRARILY_LOW_VALUE
        ARBITRARILY_HIGH_VALUE 0 (by have := empties_set B 'x' (by decide) hc he; simp only at this; omega)
      simp only at hr
      rw [filter_cons_empty B rest he]
      simp only [AlphaBeta.computer_choose_loop, hleg, he, if_true, one_ne_zero, if_false, hs, hr,
        choose_max]
      split
      · exact ih' _ (some (i, j))
      · exact ih' _ rc
    · rw [filter_cons_full B rest he]
      simp only [AlphaBeta.computer_choose_loop, hleg, he, if_false, if_true]
      exact ih' _ rc

theorem alpha_beta_choose_loop_mono {fuel fuel' : Nat} (hn : fuel ≤ fuel') :
    ∀ (l : List (Int × Int)) (B : Board) (best r c : Int) (res : Board × Int × Int × Int),
      AlphaBeta.computer_choose_loop fuel l B best r c = some res →
      AlphaBeta.computer_choose_loop fuel' l B best r c = some res := by
  intro l
  induction l with
  | nil => intro B best r c res hr; simpa [AlphaBeta.computer_choose_loop] using hr
  | cons ij rest ih =>
    obtain ⟨i, j⟩ := ij
    intro B best r c res hr
    simp only [AlphaBeta.computer_choose_loop] at hr ⊢
    cases hleg : is_legal B i j with
    | none => simp [hleg] at hr
    | some legal =>
      simp only [hleg] at hr ⊢
      by_cases h0 : legal = 0
      · simp only [if_pos h0] at hr ⊢
        exact ih _ _ _ _ _ hr
      · simp only [if_neg h0] at hr ⊢
        cases hs : AlphaBeta.alpha_beta_routine fuel (B.set i j 'x') ARBITRARILY_LOW_VALUE
            ARBITRARILY_HIGH_VALUE 0 with
        | none => simp [hs] at hr
        | some vb =>
          simp only [hs] at hr
          simp only [alpha_beta_routine_mono hn hs]
          split_ifs at hr ⊢ <;> exact ih _ _ _ _ _ hr

theorem depth_choose_loop_eq (fuel : Nat) (B : Board) (hf : num_of_empty_pos B ≤ fuel)
    (l : List (Int × Int)) (hl : ∀ ij ∈ l, ij ∈ cells) (best : Int) (rc : Option (Int × Int))
    (r c : Int) :
    DepthLimited.computer_choose_loop fuel l B best (rc.getD (r, c)).1 (rc.getD (r, c)).2 =
      some (B,
        (choose_max (fun ij => sv fuel (B.set ij.1 ij.2 'x') 0 0 2)
          (l.filter (fun ij => decide (B.get ij.1 ij.2 = '_'))) best rc).1,
        ((choose_max (fun ij => sv fuel (B.set ij.1 ij.2 'x') 0 0 2)
          (l.filter (fun ij => decide (B.get ij.1 ij.2 = '_'))) best rc).2.getD (r, c)).1,
        ((choose_max (fun ij => sv fuel (B.set ij.1 ij.2 'x') 0 0 2)
          (l.filter (fun ij => decide (B.get ij.1 ij.2 = '_'))) best rc).2.getD (r, c)).2) := by
  induction l generalizing best rc with
  | nil => simp [DepthLimited.computer_choose_loop, choose_max]
  | cons ij rest ih =>
    obtain ⟨i, j⟩ := ij
    have hc : (i, j) ∈ cells := hl _ (List.mem_cons_self _ _)
    have ih' := ih (fun x hx => hl x (List.mem_cons_of_mem _ hx))
    have hleg := is_legal_cell B hc
    simp only at hleg
    by_cases he : B.get i j = '_'
    · have hr := set_restore B 'x' hc he
      have hs := search_eq fuel (B.set i j 'x') 0 0 2 (by have := empties_set B 'x' (by decide) hc he; simp only at this; omega)
      simp only at hr
      rw [filter_cons_empty B rest he]
      simp only [DepthLimited.computer_choose_loop, hleg, he, if_true, one_ne_zero, if_false, hs, hr,
        choose_max]
      split
      · exact ih' _ (some (i, j))
      · exact ih' _ rc
    · rw [filter_cons_full B rest he]
      simp only [DepthLimited.computer_choose_loop, hleg, he, if_false, if_true]
      exact ih' _ rc

theorem depth_choose_loop_mono {fuel fuel' : Nat} (hn : fuel ≤ fuel') :
    ∀ (l : List (Int × Int)) (B : Board) (best r c : Int) (res : Board × Int × Int × Int),
      DepthLimited.computer_choose_loop fuel l B best r c = some res →
      DepthLimited.computer_choose_loop fuel' l B best r c = some res := by
  intro l
  induction l with
  | nil => intro B best r c res hr; simpa [DepthLimited.computer_choose_loop] using hr
  | cons ij rest ih =>
    obtain ⟨i, j⟩ := ij
    intro B best r c res hr
    simp only [DepthLimited.computer_choose_loop] at hr ⊢
    cases hleg : is_legal B i j with
    | none => simp [hleg] at hr
    | some legal =>
      simp only [hleg] at hr ⊢
      by_cases h0 : legal = 0
      · simp only [if_pos h0] at hr ⊢
        exact ih _ _ _ _ _ hr
      · simp only [if_neg h0] at hr ⊢
        cases hs : DepthLimited.search fuel (B.set i j 'x') 0 0 2 with
        | none => simp [hs] at hr
        | some vb =>
          simp only [hs] at hr
          simp only [search_mono hn hs]
          split_ifs at hr ⊢ <;> exact ih _ _ _ _ _ hr

theorem min_max_choose_loop_eq (fuel : Nat) (B : Board) (hf : num_of_empty_pos B ≤ fuel)
    (l : List (Int × Int)) (hl : ∀ ij ∈ l, ij ∈ cells) (best : Int) (rc : Option (Int × Int)) :
    Exhaustive.computer_choose_loop fuel l B best rc =
      some (B,
        (choose_min (fun ij => mmv fuel (B.set ij.1 ij.2 'o') 1)
          (l.filter (fun ij => decide (B.get ij.1 ij.2 = '_'))) best rc).1,
        (choose_min (fun ij => mmv fuel (B.set ij.1 ij.2 'o') 1)
          (l.filter (fun ij => decide (B.get ij.1 ij.2 = '_'))) best rc).2) := by
  induction l generalizing best rc with
  | nil => simp [Exhaustive.computer_choose_loop, choose_min]
  | cons ij rest ih =>
    obtain ⟨i, j⟩ := ij
    have hc : (i, j) ∈ cells := hl _ (List.mem_cons_self _ _)
    have ih' := ih (fun x hx => hl x (List.mem_cons_of_mem _ hx))
    have hleg := is_legal_cell B hc
    simp only at hleg
    by_cases he : B.get i j = '_'
    · have hr := set_restore B 'o' hc he
      have hs := min_max_eq fuel (B.set i j 'o') 1
        (by have := empties_set B 'o' (by decide) hc he; simp only at this; omega)
      simp only at hr
      rw [filter_cons_empty B rest he]
      simp only [Exhaustive.computer_choose_loop, hleg, he, if_true, one_ne_zero, if_false, hs, hr,
        choose_min]
      split
      · exact ih' _ (some (i, j))
      · exact ih' _ rc
    · rw [filter_cons_full B rest he]
      simp only [Exhaustive.computer_choose_loop, hleg, he, if_false, if_true]
      exact ih' _ rc

theorem min_max_choose_loop_mono {fuel fuel' : Nat} (hn : fuel ≤ fuel') :
    ∀ (l : List (Int × Int)) (B : Board) (best : Int) (rc : Option (Int × Int))
      (res : Board × Int × Option (Int × Int)),
      Exhaustive.computer_choose_loop fuel l B best rc = some res →
      Exhaustive.computer_choose_loop fuel' l B best rc = some res := by
  intro l
  induction l with
  | nil => intro B best rc res hr; simpa [Exhaustive.computer_choose_loop] using hr
  | cons ij rest ih =>
    obtain ⟨i, j⟩ := ij
    intro B best rc res hr
    simp only [Exhaustive.computer_choose_loop] at hr ⊢
    cases hleg : is_legal B i j with
    | none => simp [hleg] at hr
    | some legal =>
      simp only [hleg] at hr ⊢
      by_cases h0 : legal = 0
      · simp only [if_pos h0] at hr ⊢
        exact ih _ _ _ _ hr
      · simp only [if_neg h0] at hr ⊢
        cases hs : Exhaustive.min_max fuel (B.set i j 'o') 1 with
        | none => simp [hs] at hr
        | some vb =>
          simp only [hs] at hr
          simp only [min_max_mono hn hs]
          split_ifs at hr ⊢ <;> exact ih _ _ _ _ hr

/-! ## Best play from the empty board is a draw -/

theorem code_eq_zero (c : Char) : code c = 0 ↔ c = '_' := by
  unfold code; split_ifs <;> simp_all

theorem code_eq_one (c : Char) : code c = 1 ↔ c = 'x' := by
  unfold code; split_ifs <;> simp_all

theorem code_eq_two (c : Char) : code c = 2 ↔ c = 'o' := by
  unfold code; split_ifs <;> simp_all

theorem enc_win_x (b : Board) : (enc b).win 1 = true ↔ has_line b 'x' := by
  simp only [NB.win, enc, has_line, Bool.or_eq_true, Bool.and_eq_true, beq_iff_eq, code_eq_one,
    and_assoc, or_assoc]

theorem enc_win_o (b : Board) : (enc b).win 2 = true ↔ has_line b 'o' := by
  simp only [NB.win, enc, has_line, Bool.or_eq_true, Bool.and_eq_true, beq_iff_eq, code_eq_two,
    and_assoc, or_assoc]

theorem is_draw_ne_zero (b : Board) : is_draw b ≠ 0 ↔ num_of_empty_pos b = 0 := by
  unfold is_draw; split <;> simp_all

theorem enc_full (b : Board) : (enc b).full = true ↔ is_draw b ≠ 0 := by
  rw [is_draw_ne_zero, num_of_empty_pos_eq]
  simp only [NB.full, enc, Bool.and_eq_true, bne_iff_ne, ne_eq, code_eq_zero, and_assoc]
  constructor
  · rintro ⟨h0, h1, h2, h3, h4, h5, h6, h7, h8⟩
    simp [h0, h1, h2, h3, h4, h5, h6, h7, h8]
  · intro h
    refine ⟨?_, ?_, ?_, ?_, ?_, ?_, ?_, ?_, ?_⟩ <;>
      (intro hc; simp only [hc, if_true] at h; omega)

theorem each_enc (b : Board) (s : Char) (f : NB → Bool)
    (h : (enc b).each (code s) f = true) :
    ∀ ij ∈ moves b, f (enc (b.set ij.1 ij.2 s)) = true := by
  intro ij hij
  obtain ⟨hc, he⟩ := mem_moves.1 hij
  revert he
  obtain ⟨g0, g1, g2, g3, g4, g5, g6, g7, g8⟩ := get_cells b
  obtain ⟨s0, s1, s2, s3, s4, s5, s6, s7, s8⟩ := set_cells b s
  simp only [NB.each, Bool.and_eq_true, Bool.or_eq_true, bne_iff_ne, ne_eq] at h
  obtain ⟨⟨⟨⟨⟨⟨⟨⟨h0, h1⟩, h2⟩, h3⟩, h4⟩, h5⟩, h6⟩, h7⟩, h8⟩ := h
  refine cells_cases (P := fun ij => b.get ij.1 ij.2 = '_' →
    f (enc (b.set ij.1 ij.2 s)) = true) hc ?_ ?_ ?_ ?_ ?_ ?_ ?_ ?_ ?_ <;>
    (simp only [g0, g1, g2, g3, g4, g5, g6, g7, g8, s0, s1, s2, s3, s4, s5, s6, s7, s8]
     intro he)
  · exact h0.resolve_left (fun hn => hn ((code_eq_zero _).2 he))
  · exact h1.resolve_left (fun hn => hn ((code_eq_zero _).2 he))
  · exact h2.resolve_left (fun hn => hn ((code_eq_zero _).2 he))
  · exact h3.resolve_left (fun hn => hn ((code_eq_zero _).2 he))
  · exact h4.resolve_left (fun hn => hn ((code_eq_zero _).2 he))
  · exact h5.resolve_left (fun hn => hn ((code_eq_zero _).2 he))
  · exact h6.resolve_left (fun hn => hn ((code_eq_zero _).2 he))
  · exact h7.resolve_left (fun hn => hn ((code_eq_zero _).2 he))
  · exact h8.resolve_left (fun hn => hn ((code_eq_zero _).2 he))

theorem some_enc_aux (b : Board) (s : Char) (f : NB → Bool) (ij : Int × Int) (hc : ij ∈ cells)
    (he : b.get ij.1 ij.2 = '_') (hf : f (enc (b.set ij.1 ij.2 s)) = true) :
    ∃ ij ∈ moves b, f (enc (b.set ij.1 ij.2 s)) = true :=
  ⟨ij, mem_moves.2 ⟨hc, he⟩, hf⟩

theorem some_x_enc (b : Board) (s : Char) (f : NB → Bool)
    (h : (enc b).some_x (code s) f = true) :
    ∃ ij ∈ moves b, f (enc (b.set ij.1 ij.2 s)) = true := by
  obtain ⟨g0, g1, g2, g3, g4, g5, g6, g7, g8⟩ := get_cells b
  obtain ⟨s0, s1, s2, s3, s4, s5, s6, s7, s8⟩ := set_cells b s
  simp only [NB.some_x, Bool.and_eq_true, Bool.or_eq_true, beq_iff_eq] at h
  rcases h with (((((((⟨he, hf⟩ | ⟨he, hf⟩) | ⟨he, hf⟩) | ⟨he, hf⟩) | ⟨he, hf⟩) | ⟨he, hf⟩) |
    ⟨he, hf⟩) | ⟨he, hf⟩) | ⟨he, hf⟩
  · exact some_enc_aux b s f (2, 2) (by decide) (by rw [g8]; exact (code_eq_zero _).1 he)
      (by rw [s8]; exact hf)
  · exact some_enc_aux b s f (0, 2) (by decide) (by rw [g2]; exact (code_eq_zero _).1 he)
      (by rw [s2]; exact hf)
  · exact some_enc_aux b s f (1, 2) (by decide) (by rw [g5]; exact (code_eq_zero _).1 he)
      (by rw [s5]; exact hf)
  · exact some_enc_aux b s f (1, 1) (by decide) (by rw [g4]; exact (code_eq_zero _).1 he)
      (by rw [s4]; exact hf)
  · exact some_enc_aux b s f (0, 0) (by decide) (by rw [g0]; exact (code_eq_zero _).1 he)
      (by rw [s0]; exact hf)
  · exact some_enc_aux b s f (2, 0) (by decide) (by rw [g6]; exact (code_eq_zero _).1 he)
      (by rw [s6]; exact hf)
  · exact some_enc_aux b s f (1, 0) (by decide) (by rw [g3]; exact (code_eq_zero _).1 he)
      (by rw [s3]; exact hf)
  · exact some_enc_aux b s f (2, 1) (by decide) (by rw [g7]; exact (code_eq_zero _).1 he)
      (by rw [s7]; exact hf)
  · exact some_enc_aux b s f (0, 1) (by decide) (by rw [g1]; exact (code_eq_zero _).1 he)
      (by rw [s1]; exact hf)

theorem some_o_enc (b : Board) (s : Char) (f : NB → Bool)
    (h : (enc b).some_o (code s) f = true) :
    ∃ ij ∈ moves b, f (enc (b.set ij.1 ij.2 s)) = true := by
  obtain ⟨g0, g1, g2, g3, g4, g5, g6, g7, g8⟩ := get_cells b
  obtain ⟨s0, s1, s2, s3, s4, s5, s6, s7, s8⟩ := set_cells b s
  simp only [NB.some_o, Bool.and_eq_true, Bool.or_eq_true, beq_iff_eq] at h
  rcases h with (((((((⟨he, hf⟩ | ⟨he, hf⟩) | ⟨he, hf⟩) | ⟨he, hf⟩) | ⟨he, hf⟩) | ⟨he, hf⟩) |
    ⟨he, hf⟩) | ⟨he, hf⟩) | ⟨he, hf⟩
  · exact some_enc_aux b s f (1, 1) (by decide) (by rw [g4]; exact (code_eq_zero _).1 he)
      (by rw [s4]; exact hf)
  · exact some_enc_aux b s f (2, 0) (by decide) (by rw [g6]; exact (code_eq_zero _).1 he)
      (by rw [s6]; exact hf)
  · exact some_enc_aux b s f (0, 2) (by decide) (by rw [g2]; exact (code_eq_zero _).1 he)
      (by rw [s2]; exact hf)
  · exact some_enc_aux b s f (2, 2) (by decide) (by rw [g8]; exact (code_eq_zero _).1 he)
      (by rw [s8]; exact hf)
  · exact some_enc_aux b s f (0, 1) (by decide) (by rw [g1]; exact (code_eq_zero _).1 he)
      (by rw [s1]; exact hf)
  · exact some_enc_aux b s f (2, 1) (by decide) (by rw [g7]; exact (code_eq_zero _).1 he)
      (by rw [s7]; exact hf)
  · exact some_enc_aux b s f (1, 0) (by decide) (by rw [g3]; exact (code_eq_zero _).1 he)
      (by rw [s3]; exact hf)
  · exact some_enc_aux b s f (1, 2) (by decide) (by rw [g5]; exact (code_eq_zero _).1 he)
      (by rw [s5]; exact hf)
  · exact some_enc_aux b s f (0, 0) (by decide) (by rw [g0]; exact (code_eq_zero _).1 he)
      (by rw [s0]; exact hf)

theorem x_safe_gval (n : Nat) : ∀ (b : Board) (m : Int),
    x_safe n (enc b) (decide (m ≠ 0)) = true → 0 ≤ gval n b m := by
  induction n with
  | zero => intro b m h; simp [x_safe] at h
  | succ n ih =>
    intro b m h
    unfold x_safe at h
    unfold gval
    by_cases h1 : is_victorious b 'x' ≠ 0
    · simp only [if_pos h1]; omega
    have e1 : (enc b).win 1 = false := by
      rw [is_victorious_ne_zero, ← enc_win_x] at h1; simpa using h1
    simp only [if_neg h1]
    by_cases h2 : is_victorious b 'o' ≠ 0
    · have e2 : (enc b).win 2 = true := by
        rw [is_victorious_ne_zero, ← enc_win_o] at h2; exact h2
      simp [e1, e2] at h
    have e2 : (enc b).win 2 = false := by
      rw [is_victorious_ne_zero, ← enc_win_o] at h2; simpa using h2
    simp only [if_neg h2]
    by_cases h3 : is_draw b ≠ 0
    · simp only [if_pos h3]; omega
    have e3 : (enc b).full = false := by
      rw [← enc_full] at h3; simpa using h3
    simp only [if_neg h3]
    simp only [e1, e2, e3, Bool.false_eq_true, if_false] at h
    by_cases h4 : m ≠ 0
    · simp only [if_pos h4]
      have hd : decide (m ≠ 0) = true := decide_eq_true h4
      rw [hd] at h
      simp only [if_true] at h
      obtain ⟨ij, hij, hs⟩ := some_x_enc b 'x' _ h
      have := ih (b.set ij.1 ij.2 'x') 0 (by simpa using hs)
      exact le_trans this (le_foldl_max (List.mem_map.2 ⟨ij, hij, rfl⟩) _)
    · simp only [if_neg h4]
      have hm : m = 0 := not_ne_zero h4
      subst hm
      have hd : decide ((0 : Int) ≠ 0) = false := by decide
      rw [hd] at h
      simp only [Bool.false_eq_true, if_false] at h
      have ha := each_enc b 'o' _ h
      apply le_foldl_min _ _ (by decide)
      intro x hx
      obtain ⟨ij, hij, rfl⟩ := List.mem_map.1 hx
      exact ih (b.set ij.1 ij.2 'o') 1 (by simpa using ha ij hij)

theorem o_safe_gval (n : Nat) : ∀ (b : Board) (m : Int),
    o_safe n (enc b) (decide (m ≠ 0)) = true → gval n b m ≤ 0 := by
  induction n with
  | zero => intro b m h; simp [o_safe] at h
  | succ n ih =>
    intro b m h
    unfold o_safe at h
    unfold gval
    by_cases h1 : is_victorious b 'x' ≠ 0
    · have e1 : (enc b).win 1 = true := by
        rw [is_victorious_ne_zero, ← enc_win_x] at h1; exact h1
      simp [e1] at h
    have e1 : (enc b).win 1 = false := by
      rw [is_victorious_ne_zero, ← enc_win_x] at h1; simpa using h1
    simp only [if_neg h1]
    by_cases h2 : is_victorious b 'o' ≠ 0
    · simp only [if_pos h2]; omega
    have e2 : (enc b).win 2 = false := by
      rw [is_victorious_ne_zero, ← enc_win_o] at h2; simpa using h2
    simp only [if_neg h2]
    by_cases h3 : is_draw b ≠ 0
    · simp only [if_pos h3]; omega
    have e3 : (enc b).full = false := by
      rw [← enc_full] at h3; simpa using h3
    simp only [if_neg h3]
    simp only [e1, e2, e3, Bool.false_eq_true, if_false] at h
    by_cases h4 : m ≠ 0
    · simp only [if_pos h4]
      have hd : decide (m ≠ 0) = true := decide_eq_true h4
      rw [hd] at h
      simp only [if_true] at h
      have ha := each_enc b 'x' _ h
      apply foldl_max_le _ _ (by decide)
      intro x hx
      obtain ⟨ij, hij, rfl⟩ := List.mem_map.1 hx
      exact ih (b.set ij.1 ij.2 'x') 0 (by simpa using ha ij hij)
    · simp only [if_neg h4]
      have hm : m = 0 := not_ne_zero h4
      subst hm
      have hd : decide ((0 : Int) ≠ 0) = false := by decide
      rw [hd] at h
      simp only [Bool.false_eq_true, if_false] at h
      obtain ⟨ij, hij, hs⟩ := some_o_enc b 'o' _ h
      have := ih (b.set ij.1 ij.2 'o') 1 (by simpa using hs)
      exact le_trans (foldl_min_le (List.mem_map.2 ⟨ij, hij, rfl⟩) _) this

set_option maxRecDepth 100000 in
theorem x_safe_empty : x_safe 10 (enc emptyBoard) true = true := by decide!

set_option maxRecDepth 100000 in
theorem o_safe_empty : o_safe 10 (enc emptyBoard) true = true := by decide!

/-- The empty board is a draw under best play: its game value is `0`. -/
theorem gval_empty : gval 10 emptyBoard 1 = 0 := by
  have h1 := x_safe_gval 10 emptyBoard 1 x_safe_empty
  have h2 := o_safe_gval 10 emptyBoard 1 o_safe_empty
  omega

/-! ## What `computer_choose` returns -/

theorem choose_max_spec (score : Int × Int → Int) :
    ∀ (l : List (Int × Int)) (best : Int) (rc : Option (Int × Int)),
      (∀ x ∈ l, score x ≤ (choose_max score l best rc).1) ∧
      best ≤ (choose_max score l best rc).1 ∧
      (((choose_max score l best rc) = (best, rc)) ∨
        ∃ pre ij post, l = pre ++ ij :: post ∧ (choose_max score l best rc) = (score ij, some ij) ∧
          best < score ij ∧ (∀ x ∈ pre, score x < score ij) ∧ ∀ x ∈ post, score x ≤ score ij) := by
  intro l
  induction l with
  | nil => intro best rc; simp [choose_max]
  | cons a t ih =>
    intro best rc
    simp only [choose_max]
    split
    · rename_i hgt
      obtain ⟨h1, h2, h3⟩ := ih (score a) (some a)
      refine ⟨?_, by omega, Or.inr ?_⟩
      · intro x hx
        rcases List.mem_cons.1 hx with rfl | hx
        · exact h2
        · exact h1 x hx
      · rcases h3 with h3 | ⟨pre, ij, post, e, hr, hlt, hpre, hpost⟩
        · refine ⟨[], a, t, rfl, h3, hgt, by simp, ?_⟩
          intro x hx
          have := h1 x hx
          rw [h3] at this
          exact this
        · refine ⟨a :: pre, ij, post, by rw [e]; rfl, hr, by omega, ?_, hpost⟩
          intro x hx
          rcases List.mem_cons.1 hx with rfl | hx
          · exact hlt
          · exact hpre x hx
    · rename_i hle
      obtain ⟨h1, h2, h3⟩ := ih best rc
      refine ⟨?_, h2, ?_⟩
      · intro x hx
        rcases List.mem_cons.1 hx with rfl | hx
        · omega
        · exact h1 x hx
      · rcases h3 with h3 | ⟨pre, ij, post, e, hr, hlt, hpre, hpost⟩
        · exact Or.inl h3
        · refine Or.inr ⟨a :: pre, ij, post, by rw [e]; rfl, hr, hlt, ?_, hpost⟩
          intro x hx
          rcases List.mem_cons.1 hx with rfl | hx
          · omega
          · exact hpre x hx

theorem choose_min_spec (score : Int × Int → Int) :
    ∀ (l : List (Int × Int)) (best : Int) (rc : Option (Int × Int)),
      (∀ x ∈ l, (choose_min score l best rc).1 ≤ score x) ∧
      (choose_min score l best rc).1 ≤ best ∧
      (((choose_min score l best rc) = (best, rc)) ∨
        ∃ pre ij post, l = pre ++ ij :: post ∧ (choose_min score l best rc) = (score ij, some ij) ∧
          score ij < best ∧ (∀ x ∈ pre, score ij < score x) ∧ ∀ x ∈ post, score ij ≤ score x) := by
  intro l
  induction l with
  | nil => intro best rc; simp [choose_min]
  | cons a t ih =>
    intro best rc
    simp only [choose_min]
    split
    · rename_i hgt
      obtain ⟨h1, h2, h3⟩ := ih (score a) (some a)
      refine ⟨?_, by omega, Or.inr ?_⟩
      · intro x hx
        rcases List.mem_cons.1 hx with rfl | hx
        · exact h2
        · exact h1 x hx
      · rcases h3 with h3 | ⟨pre, ij, post, e, hr, hlt, hpre, hpost⟩
        · refine ⟨[], a, t, rfl, h3, hgt, by simp, ?_⟩
          intro x hx
          have := h1 x hx
          rw [h3] at this
          exact this
        · refine ⟨a :: pre, ij, post, by rw [e]; rfl, hr, by omega, ?_, hpost⟩
          intro x hx
          rcases List.mem_cons.1 hx with rfl | hx
          · exact hlt
          · exact hpre x hx
    · rename_i hle
      obtain ⟨h1, h2, h3⟩ := ih best rc
      refine ⟨?_, h2, ?_⟩
      · intro x hx
        rcases List.mem_cons.1 hx with rfl | hx
        · omega
        · exact h1 x hx
      · rcases h3 with h3 | ⟨pre, ij, post, e, hr, hlt, hpre, hpost⟩
        · exact Or.inl h3
        · refine Or.inr ⟨a :: pre, ij, post, by rw [e]; rfl, hr, hlt, ?_, hpost⟩
          intro x hx
          rcases List.mem_cons.1 hx with rfl | hx
          · omega
          · exact hpre x hx

theorem cells_pairwise : cells.Pairwise earlier := by decide

theorem moves_pairwise (b : Board) : (moves b).Pairwise earlier :=
  cells_pairwise.filter _

theorem mem_pre_of_earlier {l pre post : List (Int × Int)} {ij x : Int × Int}
    (hp : l.Pairwise earlier) (e : l = pre ++ ij :: post) (hx : x ∈ l) (hlt : earlier x ij) :
    x ∈ pre := by
  subst e
  rcases List.mem_append.1 hx with h | h
  · exact h
  · have hp2 := (List.pairwise_append.1 hp).2.1
    rcases List.mem_cons.1 h with rfl | h
    · unfold earlier at hlt; omega
    · have := (List.pairwise_cons.1 hp2).1 x h
      unfold earlier at hlt this; omega

theorem choose_max_congr (s s' : Int × Int → Int) :
    ∀ (l : List (Int × Int)) (best : Int) (rc : Option (Int × Int)),
      (∀ x ∈ l, s x = s' x) → choose_max s l best rc = choose_max s' l best rc := by
  intro l
  induction l with
  | nil => intro best rc _; rfl
  | cons a t ih =>
    intro best rc h
    simp only [choose_max, h a (List.mem_cons_self _ _)]
    split <;> exact ih _ _ (fun x hx => h x (List.mem_cons_of_mem _ hx))

theorem choose_min_congr (s s' : Int × Int → Int) :
    ∀ (l : List (Int × Int)) (best : Int) (rc : Option (Int × Int)),
      (∀ x ∈ l, s x = s' x) → choose_min s l best rc = choose_min s' l best rc := by
  intro l
  induction l with
  | nil => intro best rc _; rfl
  | cons a t ih =>
    intro best rc h
    simp only [choose_min, h a (List.mem_cons_self _ _)]
    split <;> exact ih _ _ (fun x hx => h x (List.mem_cons_of_mem _ hx))

theorem mmv_bounds (n : Nat) : ∀ (b : Board) (m : Int), -10 ≤ mmv n b m ∧ mmv n b m ≤ 10 := by
  induction n with
  | zero => intro b m; simp [mmv]
  | succ n ih =>
    intro b m
    unfold mmv
    by_cases h1 : is_victorious b 'o' ≠ 0
    · simp only [if_pos h1]; omega
    simp only [if_neg h1]
    by_cases h2 : is_victorious b 'x' ≠ 0
    · simp only [if_pos h2]; omega
    simp only [if_neg h2]
    by_cases h3 : is_draw b ≠ 0
    · simp only [if_pos h3]; omega
    simp only [if_neg h3]
    have hne := moves_ne_nil (not_ne_zero h3)
    obtain ⟨a, t, hat⟩ := List.exists_cons_of_ne_nil hne
    have ha : a ∈ moves b := by rw [hat]; exact List.mem_cons_self _ _
    simp only [if_neg hne]
    by_cases h4 : m ≠ 0
    · simp only [if_pos h4]
      constructor
      · exact le_trans (ih (b.set a.1 a.2 'x') 0).1
          (le_foldl_max (List.mem_map.2 ⟨a, ha, rfl⟩) _)
      · apply foldl_max_le _ _ (by decide)
        intro x hx
        obtain ⟨ij, _, rfl⟩ := List.mem_map.1 hx
        exact (ih _ _).2
    · simp only [if_neg h4]
      constructor
      · apply le_foldl_min _ _ (by decide)
        intro x hx
        obtain ⟨ij, _, rfl⟩ := List.mem_map.1 hx
        exact (ih _ _).1
      · exact le_trans (foldl_min_le (List.mem_map.2 ⟨a, ha, rfl⟩) _)
          (ih (b.set a.1 a.2 'o') 1).2

/-- What `computer_choose` of the alpha-beta variant returns on a board with an empty cell: the
board unchanged and the first move of largest game value. -/
theorem alpha_beta_choose_spec (fuel : Nat) (hf : 9 ≤ fuel) (b : Board) (hd : is_draw b = 0)
    (r0 c0 : Int) :
    ∃ pre ij post, moves b = pre ++ ij :: post ∧
      AlphaBeta.computer_choose fuel b r0 c0 = some (b, ij.1, ij.2) ∧
      (∀ x ∈ pre, gval fuel (b.set x.1 x.2 'x') 0 < gval fuel (b.set ij.1 ij.2 'x') 0) ∧
      (∀ x ∈ post, gval fuel (b.set x.1 x.2 'x') 0 ≤ gval fuel (b.set ij.1 ij.2 'x') 0) := by
  have hb := num_of_empty_pos_le b
  have hloop := alpha_beta_choose_loop_eq fuel b (by omega) cells (fun _ h => h)
    ARBITRARILY_LOW_VALUE none r0 c0
  have hm : cells.filter (fun ij => decide (b.get ij.1 ij.2 = '_')) = moves b := rfl
  have hcongr := choose_max_congr (fun ij => abv fuel (b.set ij.1 ij.2 'x')
      ARBITRARILY_LOW_VALUE ARBITRARILY_HIGH_VALUE 0)
    (fun ij => gval fuel (b.set ij.1 ij.2 'x') 0) (moves b) ARBITRARILY_LOW_VALUE none
    (by
      intro x hx
      obtain ⟨hc, he⟩ := mem_moves.1 hx
      have := empties_set b 'x' (by decide) hc he
      exact abv_full fuel _ 0 (by omega))
  rw [hm, hcongr] at hloop
  simp only [Option.getD_none] at hloop
  obtain ⟨h1, _, h3⟩ := choose_max_spec (fun ij => gval fuel (b.set ij.1 ij.2 'x') 0) (moves b)
    ARBITRARILY_LOW_VALUE none
  rcases h3 with h3 | ⟨pre, ij, post, e, hr, _, hpre, hpost⟩
  · exfalso
    obtain ⟨a, t, hat⟩ := List.exists_cons_of_ne_nil (moves_ne_nil hd)
    have ha : a ∈ moves b := by rw [hat]; exact List.mem_cons_self _ _
    have := h1 a ha
    rw [h3] at this
    have hb := (gval_bounds fuel (b.set a.1 a.2 'x') 0).1
    simp only [ARBITRARILY_LOW_VALUE] at this
    omega
  · refine ⟨pre, ij, post, e, ?_, hpre, hpost⟩
    unfold AlphaBeta.computer_choose
    rw [hloop, hr]
    rfl

/-- What `computer_choose` of the exhaustive variant returns on a board with an empty cell: the
board unchanged and the first move of smallest `min_max` score. -/
theorem min_max_choose_spec (fuel : Nat) (hf : 9 ≤ fuel) (b : Board) (hd : is_draw b = 0) :
    ∃ pre ij post, moves b = pre ++ ij :: post ∧
      Exhaustive.computer_choose fuel b = some (b, some ij) ∧
      (∀ x ∈ pre, mmv fuel (b.set ij.1 ij.2 'o') 1 < mmv fuel (b.set x.1 x.2 'o') 1) ∧
      (∀ x ∈ post, mmv fuel (b.set ij.1 ij.2 'o') 1 ≤ mmv fuel (b.set x.1 x.2 'o') 1) := by
  have hb := num_of_empty_pos_le b
  have hloop := min_max_choose_loop_eq fuel b (by omega) cells (fun _ h => h)
    ARBITRARILY_HIGH_VALUE none
  have hm : cells.filter (fun ij => decide (b.get ij.1 ij.2 = '_')) = moves b := rfl
  rw [hm] at hloop
  obtain ⟨h1, _, h3⟩ := choose_min_spec (fun ij => mmv fuel (b.set ij.1 ij.2 'o') 1) (moves b)
    ARBITRARILY_HIGH_VALUE none
  rcases h3 with h3 | ⟨pre, ij, post, e, hr, _, hpre, hpost⟩
  · exfalso
    obtain ⟨a, t, hat⟩ := List.exists_cons_of_ne_nil (moves_ne_nil hd)
    have ha : a ∈ moves b := by rw [hat]; exact List.mem_cons_self _ _
    have := h1 a ha
    rw [h3] at this
    have hb := (mmv_bounds fuel (b.set a.1 a.2 'o') 1).2
    simp only [ARBITRARILY_HIGH_VALUE] at this
    omega
  · refine ⟨pre, ij, post, e, ?_, hpre, hpost⟩
    unfold Exhaustive.computer_choose
    rw [hloop, hr]

/-! ## The game loops -/

theorem read_some_range {b : Board} {k : Int} {ch : Char} (h : b.read k = some ch) :
    0 ≤ k ∧ k ≤ 8 := by
  unfold Board.read at h
  split_ifs at h <;> omega

theorem cell_of_offset {k : Int} (h0 : 0 ≤ k) (h8 : k ≤ 8) :
    ∃ ij ∈ cells, 3 * ij.1 + ij.2 = k := by
  have : k = 0 ∨ k = 1 ∨ k = 2 ∨ k = 3 ∨ k = 4 ∨ k = 5 ∨ k = 6 ∨ k = 7 ∨ k = 8 := by omega
  rcases this with rfl | rfl | rfl | rfl | rfl | rfl | rfl | rfl | rfl
  · exact ⟨(0, 0), by decide, by decide⟩
  · exact ⟨(0, 1), by decide, by decide⟩
  · exact ⟨(0, 2), by decide, by decide⟩
  · exact ⟨(1, 0), by decide, by decide⟩
  · exact ⟨(1, 1), by decide, by decide⟩
  · exact ⟨(1, 2), by decide, by decide⟩
  · exact ⟨(2, 0), by decide, by decide⟩
  · exact ⟨(2, 1), by decide, by decide⟩
  · exact ⟨(2, 2), by decide, by decide⟩

/-- A pair accepted by `is_legal` addresses an empty cell of the board, also when the column
is 3 (the cell is then the first of the next row). -/
theorem is_legal_one {b : Board} {row col : Int} (h : is_legal b row col = some 1) :
    ∃ ij ∈ moves b, ∀ v, b.set row col v = b.set ij.1 ij.2 v := by
  unfold is_legal at h
  split at h
  · simp at h
  · cases hr : b.read (3 * row + col) with
    | none => simp [hr] at h
    | some ch =>
      simp only [hr] at h
      have hch : ch = '_' := by
        by_contra hne
        simp [hne] at h
      subst hch
      obtain ⟨h0, h8⟩ := read_some_range hr
      obtain ⟨ij, hc, hk⟩ := cell_of_offset h0 h8
      refine ⟨ij, mem_moves.2 ⟨hc, ?_⟩, ?_⟩
      · unfold Board.get; rw [hk, hr]; rfl
      · intro v; unfold Board.set; rw [hk]

theorem gval_x_line {n : Nat} {b : Board} {m : Int} (h : has_line b 'x') :
    gval (n + 1) b m = 1 := by
  unfold gval
  rw [if_pos ((is_victorious_ne_zero b 'x').2 h)]

theorem gval_o_line {n : Nat} {b : Board} {m : Int} (hx : ¬ has_line b 'x') (h : has_line b 'o') :
    gval (n + 1) b m = -1 := by
  unfold gval
  rw [if_neg (fun hv => hx ((is_victorious_ne_zero b 'x').1 hv)),
    if_pos ((is_victorious_ne_zero b 'o').2 h)]

theorem gval_max {n : Nat} {b : Board} {m : Int} (hx : ¬ has_line b 'x')
    (ho : ¬ has_line b 'o') (hd : is_draw b = 0) (hm : m ≠ 0) :
    gval (n + 1) b m =
      ((moves b).map (fun ij => gval n (b.set ij.1 ij.2 'x') 0)).foldl max
        ARBITRARILY_LOW_VALUE := by
  rw [gval]
  rw [if_neg (fun hv => hx ((is_victorious_ne_zero b 'x').1 hv)),
    if_neg (fun hv => ho ((is_victorious_ne_zero b 'o').1 hv)), if_neg (by simp [hd]),
    if_pos hm]

theorem gval_min {n : Nat} {b : Board} (hx : ¬ has_line b 'x')
    (ho : ¬ has_line b 'o') (hd : is_draw b = 0) :
    gval (n + 1) b 0 =
      ((moves b).map (fun ij => gval n (b.set ij.1 ij.2 'o') 1)).foldl min
        ARBITRARILY_HIGH_VALUE := by
  rw [gval]
  rw [if_neg (fun hv => hx ((is_victorious_ne_zero b 'x').1 hv)),
    if_neg (fun hv => ho ((is_victorious_ne_zero b 'o').1 hv)), if_neg (by simp [hd]),
    if_neg (by simp)]

theorem gval_child_fuel (n n' : Nat) (hn : 9 ≤ n) (hn' : 9 ≤ n') (b : Board) (s : Char)
    (hs : s ≠ '_') {ij : Int × Int} (hij : ij ∈ moves b) (m : Int) :
    gval n (b.set ij.1 ij.2 s) m = gval n' (b.set ij.1 ij.2 s) m := by
  obtain ⟨hc, he⟩ := mem_moves.1 hij
  have := empties_set b s hs hc he
  have := num_of_empty_pos_le b
  exact gval_fuel _ _ _ _ (by omega) (by omega)

theorem alpha_beta_choose_mono {fuel fuel' : Nat} (hn : fuel ≤ fuel') {b : Board} {r0 c0 : Int}
    {res : Board × Int × Int} (h : AlphaBeta.computer_choose fuel b r0 c0 = some res) :
    AlphaBeta.computer_choose fuel' b r0 c0 = some res := by
  unfold AlphaBeta.computer_choose at h ⊢
  cases hl : AlphaBeta.computer_choose_loop fuel cells b ARBITRARILY_LOW_VALUE r0 c0 with
  | none => simp [hl] at h
  | some st =>
    rw [alpha_beta_choose_loop_mono hn _ _ _ _ _ _ hl]
    simpa only [hl] using h

theorem min_max_choose_mono {fuel fuel' : Nat} (hn : fuel ≤ fuel') {b : Board}
    {res : Board × Option (Int × Int)} (h : Exhaustive.computer_choose fuel b = some res) :
    Exhaustive.computer_choose fuel' b = some res := by
  unfold Exhaustive.computer_choose at h ⊢
  cases hl : Exhaustive.computer_choose_loop fuel cells b ARBITRARILY_HIGH_VALUE none with
  | none => simp [hl] at h
  | some st =>
    rw [min_max_choose_loop_mono hn _ _ _ _ _ hl]
    simpa only [hl] using h

theorem depth_choose_mono {fuel fuel' : Nat} (hn : fuel ≤ fuel') {b : Board} {r0 c0 : Int}
    {res : Board × Int × Int} (h : DepthLimited.computer_choose fuel b r0 c0 = some res) :
    DepthLimited.computer_choose fuel' b r0 c0 = some res := by
  unfold DepthLimited.computer_choose at h ⊢
  cases hl : DepthLimited.computer_choose_loop fuel cells b ARBITRARILY_LOW_VALUE r0 c0 with
  | none => simp [hl] at h
  | some st =>
    rw [depth_choose_loop_mono hn _ _ _ _ _ _ hl]
    simpa only [hl] using h

theorem has_line_of_victorious {b : Board} {p : Char} (h : ¬ is_victorious b p ≠ 0) :
    ¬ has_line b p := fun hl => h ((is_victorious_ne_zero b p).2 hl)

theorem x_not_losing_after_x (b : Board) (row col cur : Int) (ho : ¬ has_line b 'o')
    (hg : 0 ≤ gval 10 b 0) : x_not_losing (after_move b 'x' row col cur 0) := by
  unfold after_move
  split
  · exact ⟨ho, fun h => by simp at h⟩
  · rename_i hv
    split
    · exact ⟨ho, fun h => by simp at h⟩
    · rename_i hd
      exact ⟨ho, fun _ => ⟨has_line_of_victorious hv, not_ne_zero hd, Or.inl rfl, hg⟩⟩

theorem x_not_losing_after_o (b : Board) (row col cur : Int) (ho : ¬ has_line b 'o')
    (hx : ¬ has_line b 'x') (hg : 0 ≤ gval 10 b 1) :
    x_not_losing (after_move b 'o' row col cur 1) := by
  unfold after_move
  split
  · exact ⟨ho, fun h => by simp at h⟩
  · split
    · exact ⟨ho, fun h => by simp at h⟩
    · rename_i hd
      exact ⟨ho, fun _ => ⟨hx, not_ne_zero hd, Or.inr rfl, hg⟩⟩

theorem o_not_losing_after_o (b : Board) (row col cur : Int) (hx : ¬ has_line b 'x')
    (hg : gval 10 b 1 ≤ 0) : o_not_losing (after_move b 'o' row col cur 1) := by
  unfold after_move
  split
  · exact ⟨hx, fun h => by simp at h⟩
  · rename_i hv
    split
    · exact ⟨hx, fun h => by simp at h⟩
    · rename_i hd
      exact ⟨hx, fun _ => ⟨has_line_of_victorious hv, not_ne_zero hd, Or.inr rfl, hg⟩⟩

theorem o_not_losing_after_x (b : Board) (row col cur : Int) (hx : ¬ has_line b 'x')
    (ho : ¬ has_line b 'o') (hg : gval 10 b 0 ≤ 0) :
    o_not_losing (after_move b 'x' row col cur 0) := by
  unfold after_move
  split
  · exact ⟨hx, fun h => by simp at h⟩
  · split
    · exact ⟨hx, fun h => by simp at h⟩
    · rename_i hd
      exact ⟨hx, fun _ => ⟨ho, not_ne_zero hd, Or.inl rfl, hg⟩⟩

theorem x_not_losing_step {s t : GameState} (hs : x_not_losing s)
    (hstep : AlphaBeta.main_step s t) : x_not_losing t := by
  obtain ⟨hno, hrun⟩ := hs
  cases hstep with
  | computer fuel board row col hr hm hcc =>
    obtain ⟨hnx, hd, _, hg⟩ := hrun hr
    rw [hm] at hg
    have hcc' := alpha_beta_choose_mono (Nat.le_add_right fuel 10) hcc
    obtain ⟨pre, ij, post, e, hspec, hpre, hpost⟩ :=
      alpha_beta_choose_spec (fuel + 10) (by omega) s.board hd s.row_choice s.col_choice
    rw [hspec] at hcc'
    have hres := Option.some.inj hcc'
    simp only [Prod.mk.injEq] at hres
    obtain ⟨hb, hrow, hcol⟩ := hres
    subst hb hrow hcol
    have hij : ij ∈ moves s.board := by rw [e]; simp
    obtain ⟨hc, _⟩ := mem_moves.1 hij
    apply x_not_losing_after_x
    · exact fun hl => hno (has_line_set_other s.board (by decide) hc hl)
    · rw [gval_max hnx hno hd (by decide)] at hg
      refine le_trans hg (foldl_max_le ?_ _ ?_)
      · intro v hv
        obtain ⟨x, hx, rfl⟩ := List.mem_map.1 hv
        rw [gval_child_fuel 9 (fuel + 10) (le_refl _) (by omega) s.board 'x' (by decide) hx,
          gval_child_fuel 10 (fuel + 10) (by omega) (by omega) s.board 'x' (by decide) hij]
        rw [e] at hx
        rcases List.mem_append.1 hx with h | h
        · exact le_of_lt (hpre x h)
        · rcases List.mem_cons.1 h with rfl | h
          · exact le_refl _
          · exact hpost x h
      · have := (gval_bounds 10 (s.board.set ij.1 ij.2 'x') 0).1
        simp only [ARBITRARILY_LOW_VALUE]; omega
  | player row col hr hm hleg =>
    obtain ⟨hnx, hd, h01, hg⟩ := hrun hr
    have hm0 : s.is_maximizer = 0 := by
      rcases h01 with h | h
      · exact h
      · exact absurd h hm
    rw [hm0] at hg
    obtain ⟨ij, hij, hset⟩ := is_legal_one hleg
    rw [hset]
    obtain ⟨hc, _⟩ := mem_moves.1 hij
    have hg' : 0 ≤ gval 10 (s.board.set ij.1 ij.2 'o') 1 := by
      rw [gval_min hnx hno hd] at hg
      rw [← gval_child_fuel 9 10 (le_refl _) (by omega) s.board 'o' (by decide) hij]
      exact le_trans hg (foldl_min_le (List.mem_map.2 ⟨ij, hij, rfl⟩) _)
    have hnx' : ¬ has_line (s.board.set ij.1 ij.2 'o') 'x' :=
      fun hl => hnx (has_line_set_other s.board (by decide) hc hl)
    have hno' : ¬ has_line (s.board.set ij.1 ij.2 'o') 'o' := by
      intro hl
      rw [gval_o_line hnx' hl] at hg'
      omega
    exact x_not_losing_after_o _ _ _ _ hno' hnx' hg'

theorem x_not_losing_reach {s : GameState} (h : AlphaBeta.main_reach s) : x_not_losing s := by
  induction h with
  | start r c =>
    refine ⟨(by decide : ¬ has_line emptyBoard 'o'),
      fun _ => ⟨(by decide : ¬ has_line emptyBoard 'x'), (by decide : is_draw emptyBoard = 0),
        Or.inr rfl, ?_⟩⟩
    show 0 ≤ gval 10 emptyBoard 1
    rw [gval_empty]
  | step s t _ hstep ih => exact x_not_losing_step ih hstep

theorem o_not_losing_step {s t : GameState} (hs : o_not_losing s)
    (hstep : Exhaustive.main_step s t) : o_not_losing t := by
  obtain ⟨hnx, hrun⟩ := hs
  cases hstep with
  | player row col hr hm hleg =>
    obtain ⟨hno, hd, h01, hg⟩ := hrun hr
    have hm1 : s.is_maximizer = 1 := by
      rcases h01 with h | h
      · exact absurd h hm
      · exact h
    rw [hm1] at hg
    obtain ⟨ij, hij, hset⟩ := is_legal_one hleg
    rw [hset]
    obtain ⟨hc, _⟩ := mem_moves.1 hij
    have hg' : gval 10 (s.board.set ij.1 ij.2 'x') 0 ≤ 0 := by
      rw [gval_max hnx hno hd (by decide)] at hg
      rw [← gval_child_fuel 9 10 (le_refl _) (by omega) s.board 'x' (by decide) hij]
      exact le_trans (le_foldl_max (List.mem_map.2 ⟨ij, hij, rfl⟩) _) hg
    have hno' : ¬ has_line (s.board.set ij.1 ij.2 'x') 'o' :=
      fun hl => hno (has_line_set_other s.board (by decide) hc hl)
    have hnx' : ¬ has_line (s.board.set ij.1 ij.2 'x') 'x' := by
      intro hl
      rw [gval_x_line hl] at hg'
      omega
    exact o_not_losing_after_x _ _ _ _ hnx' hno' hg'
  | computer fuel board row col hr hm hcc =>
    obtain ⟨hno, hd, _, hg⟩ := hrun hr
    rw [hm] at hg
    have hcc' := min_max_choose_mono (Nat.le_add_right fuel 10) hcc
    obtain ⟨pre, ij, post, e, hspec, hpre, hpost⟩ :=
      min_max_choose_spec (fuel + 10) (by omega) s.board hd
    rw [hspec] at hcc'
    have hres := Option.some.inj hcc'
    simp only [Prod.mk.injEq, Option.some.injEq] at hres
    obtain ⟨hb, hrc⟩ := hres
    subst hb
    have hrow : ij.1 = row := congrArg Prod.fst hrc
    have hcol : ij.2 = col := congrArg Prod.snd hrc
    subst hrow hcol
    have hij : ij ∈ moves s.board := by rw [e]; simp
    obtain ⟨hc, _⟩ := mem_moves.1 hij
    have hscore : ∀ x ∈ moves s.board,
        mmv (fuel + 10) (s.board.set x.1 x.2 'o') 1 =
          10 * gval (fuel + 10) (s.board.set x.1 x.2 'o') 1 := by
      intro x hx
      obtain ⟨hcx, hex⟩ := mem_moves.1 hx
      have := empties_set s.board 'o' (by decide) hcx hex
      have := num_of_empty_pos_le s.board
      exact mmv_eq_gval _ _ _ (by omega)
        (fun hh => hnx (has_line_set_other s.board (by decide) hcx hh.1))
    apply o_not_losing_after_o
    · exact fun hl => hnx (has_line_set_other s.board (by decide) hc hl)
    · rw [gval_min hnx hno hd] at hg
      refine le_trans (le_foldl_min ?_ _ ?_) hg
      · intro v hv
        obtain ⟨x, hx, rfl⟩ := List.mem_map.1 hv
        rw [gval_child_fuel 9 (fuel + 10) (le_refl _) (by omega) s.board 'o' (by decide) hx,
          gval_child_fuel 10 (fuel + 10) (by omega) (by omega) s.board 'o' (by decide) hij]
        have h1 := hscore x hx
        have h2 := hscore ij hij
        rw [e] at hx
        rcases List.mem_append.1 hx with h | h
        · have := hpre x h; omega
        · rcases List.mem_cons.1 h with rfl | h
          · exact le_refl _
          · have := hpost x h; omega
      · have := (gval_bounds 10 (s.board.set ij.1 ij.2 'o') 1).2
        simp only [ARBITRARILY_HIGH_VALUE]; omega

theorem o_not_losing_reach {s : GameState} (h : Exhaustive.main_reach s) : o_not_losing s := by
  induction h with
  | start r c =>
    refine ⟨(by decide : ¬ has_line emptyBoard 'x'),
      fun _ => ⟨(by decide : ¬ has_line emptyBoard 'o'), (by decide : is_draw emptyBoard = 0),
        Or.inr rfl, ?_⟩⟩
    show gval 10 emptyBoard 1 ≤ 0
    rw [gval_empty]
  | step s t _ hstep ih => exact o_not_losing_step ih hstep

/-! ## Two games played by the programs -/

set_option maxRecDepth 100000 in
theorem x_safe_x_corner : x_safe 10 (enc x_corner) false = true := by decide!

set_option maxRecDepth 100000 in
theorem o_safe_x_corner : o_safe 10 (enc x_corner) false = true := by decide!

/-- After `x` in the corner, with `o` to move, best play draws. -/
theorem gval_x_corner : gval 10 x_corner 0 = 0 := by
  have h1 := x_safe_gval 10 x_corner 0 x_safe_x_corner
  have h2 := o_safe_gval 10 x_corner 0 o_safe_x_corner
  omega

/-- If the first empty cell is a move after which `x` cannot lose, and `o` cannot lose from the
board itself, `computer_choose` of the alpha-beta variant stores that cell. -/
theorem alpha_beta_choose_first (b : Board) (ij : Int × Int)
    (hm : (moves b).head? = some ij) (hx : ¬ has_line b 'x') (ho : ¬ has_line b 'o')
    (hd : is_draw b = 0) (hup : o_safe 10 (enc b) true = true)
    (hlo : x_safe 10 (enc (b.set ij.1 ij.2 'x')) false = true) (r0 c0 : Int) :
    AlphaBeta.computer_choose 10 b r0 c0 = some (b, ij.1, ij.2) := by
  obtain ⟨pre, kl, post, e, hspec, hpre, _⟩ :=
    alpha_beta_choose_spec 10 (by omega) b hd r0 c0
  have hg : gval 10 b 1 ≤ 0 := o_safe_gval 10 b 1 hup
  have hl : 0 ≤ gval 10 (b.set ij.1 ij.2 'x') 0 := x_safe_gval 10 _ 0 hlo
  have hkl : kl ∈ moves b := by rw [e]; simp
  have hle : gval 10 (b.set kl.1 kl.2 'x') 0 ≤ 0 := by
    rw [gval_max hx ho hd one_ne_zero] at hg
    rw [← gval_child_fuel 9 10 (le_refl _) (by omega) b 'x' (by decide) hkl]
    exact le_trans (le_foldl_max (List.mem_map.2 ⟨kl, hkl, rfl⟩) _) hg
  rw [e] at hm
  cases pre with
  | nil =>
    have : kl = ij := by simpa using hm
    rw [hspec, this]
  | cons p pre' =>
    have hp : p = ij := by simpa using hm
    have := hpre p (List.mem_cons_self _ _)
    rw [hp] at this
    omega

/-- If the first empty cell is a move after which `o` cannot lose, and `x` cannot lose from the
board itself, `computer_choose` of the exhaustive variant stores that cell. -/
theorem min_max_choose_first (b : Board) (ij : Int × Int)
    (hm : (moves b).head? = some ij) (hx : ¬ has_line b 'x') (ho : ¬ has_line b 'o')
    (hd : is_draw b = 0) (hlo : x_safe 10 (enc b) false = true)
    (hup : o_safe 10 (enc (b.set ij.1 ij.2 'o')) true = true) :
    Exhaustive.computer_choose 10 b = some (b, some ij) := by
  obtain ⟨pre, kl, post, e, hspec, hpre, _⟩ := min_max_choose_spec 10 (by omega) b hd
  have hg : 0 ≤ gval 10 b 0 := x_safe_gval 10 b 0 hlo
  have hu : gval 10 (b.set ij.1 ij.2 'o') 1 ≤ 0 := o_safe_gval 10 _ 1 hup
  have hscore : ∀ x ∈ moves b,
      mmv 10 (b.set x.1 x.2 'o') 1 = 10 * gval 10 (b.set x.1 x.2 'o') 1 := by
    intro x hx'
    obtain ⟨hcx, hex⟩ := mem_moves.1 hx'
    have := empties_set b 'o' (by decide) hcx hex
    have := num_of_empty_pos_le b
    exact mmv_eq_gval _ _ _ (by omega)
      (fun hh => hx (has_line_set_other b (by decide) hcx hh.1))
  have hkl : kl ∈ moves b := by rw [e]; simp
  have hge : 0 ≤ gval 10 (b.set kl.1 kl.2 'o') 1 := by
    rw [gval_min hx ho hd] at hg
    rw [← gval_child_fuel 9 10 (le_refl _) (by omega) b 'o' (by decide) hkl]
    exact le_trans hg (foldl_min_le (List.mem_map.2 ⟨kl, hkl, rfl⟩) _)
  rw [e] at hm
  cases pre with
  | nil =>
    have : kl = ij := by simpa using hm
    rw [hspec, this]
  | cons p pre' =>
    have hp : p = ij := by simpa using hm
    have hij : ij ∈ moves b := by rw [e, ← hp]; simp
    have := hpre p (List.mem_cons_self _ _)
    rw [hp, hscore ij hij, hscore kl hkl] at this
    omega

theorem alpha_beta_reach_computer {s : GameState} {row col : Int} {b' : Board}
    (hs : AlphaBeta.main_reach s) (hr : s.running = true) (hm : s.is_maximizer = 1)
    (hcc : AlphaBeta.computer_choose 10 s.board s.row_choice s.col_choice =
      some (s.board, row, col))
    (hb : s.board.set row col 'x' = b') (hv : is_victorious b' 'x' = 0) (hd : is_draw b' = 0) :
    AlphaBeta.main_reach ⟨b', 0, row, col, true⟩ := by
  have h := AlphaBeta.main_reach.step _ _ hs
    (AlphaBeta.main_step.computer s 10 s.board row col hr hm hcc)
  rw [hb] at h
  unfold after_move at h
  rw [if_neg (by rw [hv]; decide), if_neg (by rw [hd]; decide)] at h
  exact h

theorem alpha_beta_reach_player {s : GameState} {row col : Int} {b' : Board}
    (hs : AlphaBeta.main_reach s) (hr : s.running = true) (hm : s.is_maximizer ≠ 1)
    (hleg : is_legal s.board row col = some 1)
    (hb : s.board.set row col 'o' = b') (hv : is_victorious b' 'o' = 0) (hd : is_draw b' = 0) :
    AlphaBeta.main_reach ⟨b', 1, row, col, true⟩ := by
  have h := AlphaBeta.main_reach.step _ _ hs (AlphaBeta.main_step.player s row col hr hm hleg)
  rw [hb] at h
  unfold after_move at h
  rw [if_neg (by rw [hv]; decide), if_neg (by rw [hd]; decide)] at h
  exact h

theorem min_max_reach_player {s : GameState} {row col : Int} {b' : Board}
    (hs : Exhaustive.main_reach s) (hr : s.running = true) (hm : s.is_maximizer ≠ 0)
    (hleg : is_legal s.board row col = some 1)
    (hb : s.board.set row col 'x' = b') (hv : is_victorious b' 'x' = 0) (hd : is_draw b' = 0) :
    Exhaustive.main_reach ⟨b', 0, row, col, true⟩ := by
  have h := Exhaustive.main_reach.step _ _ hs (Exhaustive.main_step.player s row col hr hm hleg)
  rw [hb] at h
  unfold after_move at h
  rw [if_neg (by rw [hv]; decide), if_neg (by rw [hd]; decide)] at h
  exact h

theorem min_max_reach_computer {s : GameState} {row col : Int} {b' : Board}
    (hs : Exhaustive.main_reach s) (hr : s.running = true) (hm : s.is_maximizer = 0)
    (hcc : Exhaustive.computer_choose 10 s.board = some (s.board, some (row, col)))
    (hb : s.board.set row col 'o' = b') (hv : is_victorious b' 'o' = 0) (hd : is_draw b' = 0) :
    Exhaustive.main_reach ⟨b', 1, row, col, true⟩ := by
  have h := Exhaustive.main_reach.step _ _ hs
    (Exhaustive.main_step.computer s 10 s.board row col hr hm hcc)
  rw [hb] at h
  unfold after_move at h
  rw [if_neg (by rw [hv]; decide), if_neg (by rw [hd]; decide)] at h
  exact h

set_option maxRecDepth 100000 in
/-- A game of the alpha-beta variant: the computer opens in the corner, the player takes the
centre and then answers every threat with a threat; the computer blocks each of them and the
game ends in a draw on a full board. -/
theorem alpha_beta_game_reach :
    AlphaBeta.main_reach alpha_beta_game_mid ∧ AlphaBeta.main_reach alpha_beta_game_end := by
  have r0 : AlphaBeta.main_reach ⟨emptyBoard, 1, 0, 0, true⟩ := AlphaBeta.main_reach.start 0 0
  have r1 : AlphaBeta.main_reach ⟨x_corner, 0, 0, 0, true⟩ :=
    alpha_beta_reach_computer r0 rfl rfl
      (alpha_beta_choose_first emptyBoard (0, 0) (by decide) (by decide) (by decide)
        (by decide) o_safe_empty x_safe_x_corner 0 0)
      (by decide) (by decide) (by decide)
  have r2 : AlphaBeta.main_reach ⟨⟨'x', '_', '_', '_', 'o', '_', '_', '_', '_'⟩, 1, 1, 1, true⟩ :=
    alpha_beta_reach_player r1 rfl (by decide) (by decide) (by decide) (by decide) (by decide)
  have r3 : AlphaBeta.main_reach ⟨⟨'x', 'x', '_', '_', 'o', '_', '_', '_', '_'⟩, 0, 0, 1, true⟩ :=
    alpha_beta_reach_computer r2 rfl rfl
      (alpha_beta_choose_first ⟨'x', '_', '_', '_', 'o', '_', '_', '_', '_'⟩ (0, 1)
        (by decide) (by decide) (by decide) (by decide) (by decide!) (by decide!) 1 1)
      (by decide) (by decide) (by decide)
  have r4 : AlphaBeta.main_reach ⟨⟨'x', 'x', 'o', '_', 'o', '_', '_', '_', '_'⟩, 1, 0, 2, true⟩ :=
    alpha_beta_reach_player r3 rfl (by decide) (by decide) (by decide) (by decide) (by decide)
  have r5 : AlphaBeta.main_reach ⟨⟨'x', 'x', 'o', '_', 'o', '_', 'x', '_', '_'⟩, 0, 2, 0, true⟩ :=
    alpha_beta_reach_computer r4 rfl rfl (by decide!) (by decide) (by decide) (by decide)
  have r6 : AlphaBeta.main_reach alpha_beta_game_mid :=
    alpha_beta_reach_player r5 rfl (by decide) (by decide) (by decide) (by decide) (by decide)
  have r7 : AlphaBeta.main_reach ⟨⟨'x', 'x', 'o', 'o', 'o', 'x', 'x', '_', '_'⟩, 0, 1, 2, true⟩ :=
    alpha_beta_reach_computer r6 rfl rfl (by decide!) (by decide) (by decide) (by decide)
  have r8 : AlphaBeta.main_reach ⟨⟨'x', 'x', 'o', 'o', 'o', 'x', 'x', 'o', '_'⟩, 1, 2, 1, true⟩ :=
    alpha_beta_reach_player r7 rfl (by decide) (by decide) (by decide) (by decide) (by decide)
  have r9 := AlphaBeta.main_reach.step _ _ r8
    (AlphaBeta.main_step.computer _ 10 ⟨'x', 'x', 'o', 'o', 'o', 'x', 'x', 'o', '_'⟩ 2 2 rfl rfl
      (by decide!))
  exact ⟨r6, r9⟩

set_option maxRecDepth 100000 in
/-- A game of the exhaustive variant: the player opens in the centre and makes a threat with
each later move; the computer takes a corner, blocks each threat, and the game ends in a draw
on a full board. -/
theorem min_max_game_reach :
    Exhaustive.main_reach min_max_game_mid ∧ Exhaustive.main_reach min_max_game_end := by
  have r0 : Exhaustive.main_reach ⟨emptyBoard, 1, 0, 0, true⟩ := Exhaustive.main_reach.start 0 0
  have r1 : Exhaustive.main_reach ⟨⟨'_', '_', '_', '_', 'x', '_', '_', '_', '_'⟩, 0, 1, 1, true⟩ :=
    min_max_reach_player r0 rfl (by decide) (by decide) (by decide) (by decide) (by decide)
  have r2 : Exhaustive.main_reach ⟨⟨'o', '_', '_', '_', 'x', '_', '_', '_', '_'⟩, 1, 0, 0, true⟩ :=
    min_max_reach_computer r1 rfl rfl
      (min_max_choose_first ⟨'_', '_', '_', '_', 'x', '_', '_', '_', '_'⟩ (0, 0)
        (by decide) (by decide) (by decide) (by decide) (by decide!) (by decide!))
      (by decide) (by decide) (by decide)
  have r3 : Exhaustive.main_reach ⟨⟨'o', 'x', '_', '_', 'x', '_', '_', '_', '_'⟩, 0, 0, 1, true⟩ :=
    min_max_reach_player r2 rfl (by decide) (by decide) (by decide) (by decide) (by decide)
  have r4 : Exhaustive.main_reach ⟨⟨'o', 'x', '_', '_', 'x', '_', '_', 'o', '_'⟩, 1, 2, 1, true⟩ :=
    min_max_reach_computer r3 rfl rfl (by decide!) (by decide) (by decide) (by decide)
  have r5 : Exhaustive.main_reach min_max_game_mid :=
    min_max_reach_player r4 rfl (by decide) (by decide) (by decide) (by decide) (by decide)
  have r6 : Exhaustive.main_reach ⟨⟨'o', 'x', '_', 'x', 'x', 'o', '_', 'o', '_'⟩, 1, 1, 2, true⟩ :=
    min_max_reach_computer r5 rfl rfl (by decide!) (by decide) (by decide) (by decide)
  have r7 : Exhaustive.main_reach ⟨⟨'o', 'x', 'x', 'x', 'x', 'o', '_', 'o', '_'⟩, 0, 0, 2, true⟩ :=
    min_max_reach_player r6 rfl (by decide) (by decide) (by decide) (by decide) (by decide)
  have r8 : Exhaustive.main_reach ⟨⟨'o', 'x', 'x', 'x', 'x', 'o', 'o', 'o', '_'⟩, 1, 2, 0, true⟩ :=
    min_max_reach_computer r7 rfl rfl (by decide!) (by decide) (by decide) (by decide)
  have r9 := Exhaustive.main_reach.step _ _ r8
    (Exhaustive.main_step.player _ 2 2 rfl (by decide) (by decide))
  exact ⟨r5, r9⟩

/-! ## The claims -/

theorem is_victorious_values (b : Board) (p : Char) :
    is_victorious b p = 1 ∨ is_victorious b p = 0 := by
  rw [is_victorious_eq]; split <;> simp

theorem is_victorious_eq_one (b : Board) (p : Char) : is_victorious b p = 1 ↔ has_line b p := by
  rw [is_victorious_eq]; split <;> simp_all

theorem is_victorious_eq_zero (b : Board) (p : Char) :
    is_victorious b p = 0 ↔ ¬ has_line b p := by
  rw [is_victorious_eq]; split <;> simp_all

/-- The exhaustive search and the alpha-beta search with the full window agree up to the factor
10 of their score scales, whatever fuel (at least 10) each is given. -/
theorem min_max_alpha_beta (b : Board) (m : Int) (fa fm : Nat) (hfa : 10 ≤ fa) (hfm : 10 ≤ fm)
    (hnb : ¬ (has_line b 'x' ∧ has_line b 'o')) :
    AlphaBeta.alpha_beta_routine fa b ARBITRARILY_LOW_VALUE ARBITRARILY_HIGH_VALUE m =
        some (gval 10 b m, b) ∧
      Exhaustive.min_max fm b m = some (10 * gval 10 b m, b) := by
  have hb := num_of_empty_pos_le b
  constructor
  · rw [alpha_beta_routine_eq fa b _ _ m (by omega), abv_full fa b m (by omega),
      gval_fuel fa 10 b m (by omega) (by omega)]
  · rw [min_max_eq fm b m (by omega), mmv_eq_gval fm b m (by omega) hnb,
      gval_fuel fm 10 b m (by omega) (by omega)]

theorem legal_play_not_both {b : Board} {side : Char} (h : legal_play b side) :
    ¬ (has_line b 'x' ∧ has_line b 'o') := by
  induction h with
  | start => decide
  | move_x b ij _ _ ho hij _ =>
    rintro ⟨_, hl⟩
    exact (is_victorious_eq_zero b 'o').1 ho
      (has_line_set_other b (by decide) (mem_moves.1 hij).1 hl)
  | move_o b ij _ hx _ hij _ =>
    rintro ⟨hl, _⟩
    exact (is_victorious_eq_zero b 'x').1 hx
      (has_line_set_other b (by decide) (mem_moves.1 hij).1 hl)

theorem legal_play_x_top_row : legal_play x_top_row 'o' := by
  have h1 := legal_play.move_x emptyBoard (0, 0) legal_play.start (by decide) (by decide)
    (by decide)
  have h2 := legal_play.move_o _ (1, 0) h1 (by decide) (by decide) (by decide)
  have h3 := legal_play.move_x _ (0, 1) h2 (by decide) (by decide) (by decide)
  have h4 := legal_play.move_o _ (1, 1) h3 (by decide) (by decide) (by decide)
  have h5 := legal_play.move_x _ (0, 2) h4 (by decide) (by decide) (by decide)
  exact h5

/-- C1, as stated, fails: on the position `x_top_row`, reached by legal alternating play, the
alpha-beta search returns the score 1 and the exhaustive search returns the score 10. -/
theorem scores_differ_on_x_top_row :
    legal_play x_top_row 'o' ∧
      AlphaBeta.alpha_beta_routine 10 x_top_row ARBITRARILY_LOW_VALUE ARBITRARILY_HIGH_VALUE 1 =
        some (1, x_top_row) ∧
      Exhaustive.min_max 10 x_top_row 1 = some (10, x_top_row) ∧ (1 : Int) ≠ 10 :=
  ⟨legal_play_x_top_row, by decide, by decide, by decide⟩

/-- C1, amended: on every position reached from the empty board by legal alternating play
(`x` first, no move after a completed line), and for either value of `is_maximizer`, the score
of `min_max` is 10 times the score of `alpha_beta_routine` called with the window
`(-10000, 10000)`; both calls return (given fuel 10 or more) and leave the board as it was. -/
theorem min_max_eq_ten_alpha_beta_on_play (b : Board) (side : Char) (h : legal_play b side)
    (m : Int) (fa fm : Nat) (hfa : 10 ≤ fa) (hfm : 10 ≤ fm) :
    ∃ v : Int,
      AlphaBeta.alpha_beta_routine fa b ARBITRARILY_LOW_VALUE ARBITRARILY_HIGH_VALUE m =
        some (v, b) ∧
      Exhaustive.min_max fm b m = some (10 * v, b) :=
  ⟨gval 10 b m, min_max_alpha_beta b m fa fm hfa hfm (legal_play_not_both h)⟩

/-- The amended C1 at the position `x_top_row`. -/
theorem min_max_eq_ten_alpha_beta_on_play_witness :
    legal_play x_top_row 'o' ∧ 10 ≤ 10 ∧
    ∃ v : Int,
      AlphaBeta.alpha_beta_routine 10 x_top_row ARBITRARILY_LOW_VALUE ARBITRARILY_HIGH_VALUE 0 =
        some (v, x_top_row) ∧
      Exhaustive.min_max 10 x_top_row 0 = some (10 * v, x_top_row) :=
  ⟨legal_play_x_top_row, by decide,
    min_max_eq_ten_alpha_beta_on_play x_top_row 'o' legal_play_x_top_row 0 10 10 (by decide)
      (by decide)⟩

/-- C2: on every board on which `x` and `o` do not both have a completed line, and for every
`is_maximizer`, `min_max(board, is_maximizer)` equals
`10 * alpha_beta_routine(board, -10000, 10000, is_maximizer)`; both calls return (given fuel 10
or more) and leave the board as it was.  The restriction of the cells to `'_'`, `'x'`, `'o'` and
of `is_maximizer` to 0 and 1 is not needed. -/
theorem min_max_eq_ten_alpha_beta (b : Board) (m : Int) (fa fm : Nat) (hfa : 10 ≤ fa)
    (hfm : 10 ≤ fm) (hnb : ¬ (is_victorious b 'x' = 1 ∧ is_victorious b 'o' = 1)) :
    ∃ v : Int,
      AlphaBeta.alpha_beta_routine fa b ARBITRARILY_LOW_VALUE ARBITRARILY_HIGH_VALUE m =
        some (v, b) ∧
      Exhaustive.min_max fm b m = some (10 * v, b) := by
  rw [is_victorious_eq_one, is_victorious_eq_one] at hnb
  exact ⟨gval 10 b m, min_max_alpha_beta b m fa fm hfa hfm hnb⟩

/-- The theorem of C2 at the position `three_left`. -/
theorem min_max_eq_ten_alpha_beta_witness :
    10 ≤ 10 ∧ ¬ (is_victorious three_left 'x' = 1 ∧ is_victorious three_left 'o' = 1) ∧
    ∃ v : Int,
      AlphaBeta.alpha_beta_routine 10 three_left ARBITRARILY_LOW_VALUE ARBITRARILY_HIGH_VALUE 1 =
        some (v, three_left) ∧
      Exhaustive.min_max 10 three_left 1 = some (10 * v, three_left) :=
  ⟨by decide, by decide,
    min_max_eq_ten_alpha_beta three_left 1 10 10 (by decide) (by decide) (by decide)⟩

/-- C3: in the alpha-beta variant, no state of the game loop of `main` (the computer plays `x`
with `computer_choose`, the player answers with any pair that `is_legal` accepts, from the empty
board until a win or a full board) has a board on which `o` has a completed line.  The loop
does not get stuck on the computer's side: whenever it is the computer's turn, `computer_choose`
returns (given fuel 10 or more) with an empty cell of the unchanged board. -/
theorem alpha_beta_computer_never_loses (s : GameState) (h : AlphaBeta.main_reach s) :
    is_victorious s.board 'o' = 0 ∧
    (s.running = true → s.is_maximizer = 1 → ∀ fuel, 10 ≤ fuel → ∃ row col,
      AlphaBeta.computer_choose fuel s.board s.row_choice s.col_choice =
        some (s.board, row, col) ∧
      (row, col) ∈ cells ∧ s.board.get row col = '_') := by
  have hinv := x_not_losing_reach h
  refine ⟨(is_victorious_eq_zero s.board 'o').2 hinv.1, ?_⟩
  intro hr _ fuel hf
  obtain ⟨pre, ij, post, e, hspec, _, _⟩ :=
    alpha_beta_choose_spec fuel (by omega) s.board (hinv.2 hr).2.1 s.row_choice s.col_choice
  have hij : ij ∈ moves s.board := by rw [e]; simp
  exact ⟨ij.1, ij.2, hspec, (mem_moves.1 hij).1, (mem_moves.1 hij).2⟩

/-- The theorem of C3 on a game the program plays: at the state `alpha_beta_game_mid`, reached
through three moves of `computer_choose` and three replies of the player, where `o` threatens
(1,2) and the computer is to move, and at the state `alpha_beta_game_end` in which that game
ends. -/
theorem alpha_beta_computer_never_loses_witness :
    AlphaBeta.main_reach alpha_beta_game_mid ∧
      is_victorious alpha_beta_game_mid.board 'o' = 0 ∧
      (∃ row col,
        AlphaBeta.computer_choose 10 alpha_beta_game_mid.board alpha_beta_game_mid.row_choice
          alpha_beta_game_mid.col_choice = some (alpha_beta_game_mid.board, row, col) ∧
        (row, col) ∈ cells ∧ alpha_beta_game_mid.board.get row col = '_') ∧
    AlphaBeta.main_reach alpha_beta_game_end ∧
      is_victorious alpha_beta_game_end.board 'o' = 0 :=
  ⟨alpha_beta_game_reach.1,
    (alpha_beta_computer_never_loses _ alpha_beta_game_reach.1).1,
    (alpha_beta_computer_never_loses _ alpha_beta_game_reach.1).2 rfl rfl 10 (by decide),
    alpha_beta_game_reach.2,
    (alpha_beta_computer_never_loses _ alpha_beta_game_reach.2).1⟩

/-- C4: in the exhaustive-minimax variant, no state of the game loop of `main` (the player
plays `x` first with any pair that `is_legal` accepts, the computer answers as `o` with
`computer_choose`, from the empty board until a win or a full board) has a board on which `x`
has a completed line.  The loop does not get stuck on the computer's side: whenever it is the
computer's turn, `computer_choose` returns (given fuel 10 or more) with an empty cell of the
unchanged board. -/
theorem min_max_computer_never_loses (s : GameState) (h : Exhaustive.main_reach s) :
    is_victorious s.board 'x' = 0 ∧
    (s.running = true → s.is_maximizer = 0 → ∀ fuel, 10 ≤ fuel → ∃ row col,
      Exhaustive.computer_choose fuel s.board = some (s.board, some (row, col)) ∧
      (row, col) ∈ cells ∧ s.board.get row col = '_') := by
  have hinv := o_not_losing_reach h
  refine ⟨(is_victorious_eq_zero s.board 'x').2 hinv.1, ?_⟩
  intro hr _ fuel hf
  obtain ⟨pre, ij, post, e, hspec, _, _⟩ :=
    min_max_choose_spec fuel (by omega) s.board (hinv.2 hr).2.1
  have hij : ij ∈ moves s.board := by rw [e]; simp
  exact ⟨ij.1, ij.2, hspec, (mem_moves.1 hij).1, (mem_moves.1 hij).2⟩

/-- The theorem of C4 on a game the program plays: at the state `min_max_game_mid`, reached
through three moves of the player and two moves of `computer_choose`, where `x` threatens (1,2)
and the computer is to move, and at the state `min_max_game_end` in which that game ends. -/
theorem min_max_computer_never_loses_witness :
    Exhaustive.main_reach min_max_game_mid ∧
      is_victorious min_max_game_mid.board 'x' = 0 ∧
      (∃ row col,
        Exhaustive.computer_choose 10 min_max_game_mid.board =
          some (min_max_game_mid.board, some (row, col)) ∧
        (row, col) ∈ cells ∧ min_max_game_mid.board.get row col = '_') ∧
    Exhaustive.main_reach min_max_game_end ∧
      is_victorious min_max_game_end.board 'x' = 0 :=
  ⟨min_max_game_reach.1,
    (min_max_computer_never_loses _ min_max_game_reach.1).1,
    (min_max_computer_never_loses _ min_max_game_reach.1).2 rfl rfl 10 (by decide),
    min_max_game_reach.2,
    (min_max_computer_never_loses _ min_max_game_reach.2).1⟩

theorem is_draw_of_empties {b : Board} (h : num_of_empty_pos b ≠ 0) : is_draw b = 0 := by
  unfold is_draw; rw [if_neg h]

/-- C5: on every board with at least one empty cell (and with fuel 10 or more) both
`computer_choose` return, leave the board as it was, and store an empty cell `(row, col)` whose
search score `best` is extremal and first in row-major order.  Alpha-beta variant: `best` is the
score of `alpha_beta_routine(board with x at (row,col), -10000, 10000, 0)`, it is `≥` the score
`v` of every legal move and `>` the score of every legal move earlier in row-major order.
Exhaustive variant: the same with `min_max(board with o at (row,col), 1)`, `≤` and `<`. -/
theorem computer_choose_first_extremal (fuel : Nat) (hfuel : 10 ≤ fuel) (b : Board)
    (hne : num_of_empty_pos b ≠ 0) :
    (∀ r0 c0 : Int, ∃ row col best,
      AlphaBeta.computer_choose fuel b r0 c0 = some (b, row, col) ∧
      (row, col) ∈ cells ∧ b.get row col = '_' ∧
      AlphaBeta.alpha_beta_routine fuel (b.set row col 'x') ARBITRARILY_LOW_VALUE
        ARBITRARILY_HIGH_VALUE 0 = some (best, b.set row col 'x') ∧
      ∀ ij ∈ cells, b.get ij.1 ij.2 = '_' → ∃ v,
        AlphaBeta.alpha_beta_routine fuel (b.set ij.1 ij.2 'x') ARBITRARILY_LOW_VALUE
          ARBITRARILY_HIGH_VALUE 0 = some (v, b.set ij.1 ij.2 'x') ∧
        v ≤ best ∧ (earlier ij (row, col) → v < best)) ∧
    (∃ row col best,
      Exhaustive.computer_choose fuel b = some (b, some (row, col)) ∧
      (row, col) ∈ cells ∧ b.get row col = '_' ∧
      Exhaustive.min_max fuel (b.set row col 'o') 1 = some (best, b.set row col 'o') ∧
      ∀ ij ∈ cells, b.get ij.1 ij.2 = '_' → ∃ v,
        Exhaustive.min_max fuel (b.set ij.1 ij.2 'o') 1 = some (v, b.set ij.1 ij.2 'o') ∧
        best ≤ v ∧ (earlier ij (row, col) → best < v)) := by
  have hd := is_draw_of_empties hne
  have hb := num_of_empty_pos_le b
  constructor
  · intro r0 c0
    obtain ⟨pre, ij, post, e, hspec, hpre, hpost⟩ :=
      alpha_beta_choose_spec fuel (by omega) b hd r0 c0
    have hij : ij ∈ moves b := by rw [e]; simp
    have hrun : ∀ x ∈ moves b,
        AlphaBeta.alpha_beta_routine fuel (b.set x.1 x.2 'x') ARBITRARILY_LOW_VALUE
          ARBITRARILY_HIGH_VALUE 0 =
          some (gval fuel (b.set x.1 x.2 'x') 0, b.set x.1 x.2 'x') := by
      intro x hx
      obtain ⟨hc, he⟩ := mem_moves.1 hx
      have := empties_set b 'x' (by decide) hc he
      rw [alpha_beta_routine_eq fuel _ _ _ 0 (by omega), abv_full fuel _ 0 (by omega)]
    refine ⟨ij.1, ij.2, gval fuel (b.set ij.1 ij.2 'x') 0, hspec, (mem_moves.1 hij).1,
      (mem_moves.1 hij).2, hrun ij hij, ?_⟩
    intro x hc he
    have hx : x ∈ moves b := mem_moves.2 ⟨hc, he⟩
    refine ⟨_, hrun x hx, ?_, ?_⟩
    · have hx' := hx
      rw [e] at hx'
      rcases List.mem_append.1 hx' with h | h
      · exact le_of_lt (hpre x h)
      · rcases List.mem_cons.1 h with rfl | h
        · exact le_refl _
        · exact hpost x h
    · intro hlt
      exact hpre x (mem_pre_of_earlier (moves_pairwise b) e hx hlt)
  · obtain ⟨pre, ij, post, e, hspec, hpre, hpost⟩ := min_max_choose_spec fuel (by omega) b hd
    have hij : ij ∈ moves b := by rw [e]; simp
    have hrun : ∀ x ∈ moves b,
        Exhaustive.min_max fuel (b.set x.1 x.2 'o') 1 =
          some (mmv fuel (b.set x.1 x.2 'o') 1, b.set x.1 x.2 'o') := by
      intro x hx
      obtain ⟨hc, he⟩ := mem_moves.1 hx
      have := empties_set b 'o' (by decide) hc he
      rw [min_max_eq fuel _ 1 (by omega)]
    refine ⟨ij.1, ij.2, mmv fuel (b.set ij.1 ij.2 'o') 1, hspec, (mem_moves.1 hij).1,
      (mem_moves.1 hij).2, hrun ij hij, ?_⟩
    intro x hc he
    have hx : x ∈ moves b := mem_moves.2 ⟨hc, he⟩
    refine ⟨_, hrun x hx, ?_, ?_⟩
    · have hx' := hx
      rw [e] at hx'
      rcases List.mem_append.1 hx' with h | h
      · exact le_of_lt (hpre x h)
      · rcases List.mem_cons.1 h with rfl | h
        · exact le_refl _
        · exact hpost x h
    · intro hlt
      exact hpre x (mem_pre_of_earlier (moves_pairwise b) e hx hlt)

/-- The theorem of C5 at the position `three_left`, for the exhaustive variant. -/
theorem computer_choose_first_extremal_witness :
    10 ≤ 10 ∧ num_of_empty_pos three_left ≠ 0 ∧
    ∃ row col best,
      Exhaustive.computer_choose 10 three_left = some (three_left, some (row, col)) ∧
      (row, col) ∈ cells ∧ three_left.get row col = '_' ∧
      Exhaustive.min_max 10 (three_left.set row col 'o') 1 =
        some (best, three_left.set row col 'o') ∧
      ∀ ij ∈ cells, three_left.get ij.1 ij.2 = '_' → ∃ v,
        Exhaustive.min_max 10 (three_left.set ij.1 ij.2 'o') 1 =
          some (v, three_left.set ij.1 ij.2 'o') ∧
        best ≤ v ∧ (earlier ij (row, col) → best < v) :=
  ⟨by decide, by decide,
    (computer_choose_first_extremal 10 (by decide) three_left (by decide)).2⟩

/-- C6 fails on the code: on the board `o x x / _ _ x / o _ o` (three empty cells, `x` to move)
every move of `x` gets the score `ARBITRARILY_LOW_VALUE` from `search`, which is also the initial
`best_value`, so `computer_choose` of the depth-limited variant stores nothing: called with
`*row_choice = 0`, `*col_choice = 0` it returns `(0, 0)`, a cell that holds `'o'`. -/
theorem depth_limited_choose_keeps_stale_cell :
    num_of_empty_pos o_three_threats = 3 ∧
    DepthLimited.search 10 (o_three_threats.set 1 0 'x') 0 0 2 =
      some (ARBITRARILY_LOW_VALUE, o_three_threats.set 1 0 'x') ∧
    DepthLimited.search 10 (o_three_threats.set 1 1 'x') 0 0 2 =
      some (ARBITRARILY_LOW_VALUE, o_three_threats.set 1 1 'x') ∧
    DepthLimited.search 10 (o_three_threats.set 2 1 'x') 0 0 2 =
      some (ARBITRARILY_LOW_VALUE, o_three_threats.set 2 1 'x') ∧
    DepthLimited.computer_choose 10 o_three_threats 0 0 = some (o_three_threats, 0, 0) ∧
    o_three_threats.get 0 0 = 'o' := by
  refine ⟨by decide, ?_, ?_, ?_, ?_, by decide⟩ <;> decide!

theorem min_max_restores {fuel : Nat} {b : Board} {m : Int} {r : Int} {b' : Board}
    (h : Exhaustive.min_max fuel b m = some (r, b')) : b' = b :=
  (congrArg Prod.snd (min_max_some h) : _)

theorem alpha_beta_routine_restores {fuel : Nat} {b : Board} {alpha beta m : Int} {r : Int}
    {b' : Board} (h : AlphaBeta.alpha_beta_routine fuel b alpha beta m = some (r, b')) : b' = b :=
  (congrArg Prod.snd (alpha_beta_routine_some h) : _)

theorem search_restores {fuel : Nat} {b : Board} {m depth max_depth : Int} {r : Int}
    {b' : Board} (h : DepthLimited.search fuel b m depth max_depth = some (r, b')) : b' = b :=
  (congrArg Prod.snd (search_some h) : _)

theorem min_max_choose_returns (fuel : Nat) (b : Board) (hf : num_of_empty_pos b ≤ fuel) :
    ∃ rc, Exhaustive.computer_choose fuel b = some (b, rc) := by
  unfold Exhaustive.computer_choose
  rw [min_max_choose_loop_eq fuel b hf cells (fun _ h => h)]
  exact ⟨_, rfl⟩

theorem alpha_beta_choose_returns (fuel : Nat) (b : Board) (hf : num_of_empty_pos b ≤ fuel)
    (r0 c0 : Int) : ∃ r c, AlphaBeta.computer_choose fuel b r0 c0 = some (b, r, c) := by
  unfold AlphaBeta.computer_choose
  have := alpha_beta_choose_loop_eq fuel b hf cells (fun _ h => h) ARBITRARILY_LOW_VALUE none
    r0 c0
  simp only [Option.getD_none] at this
  rw [this]
  exact ⟨_, _, rfl⟩

theorem depth_choose_returns (fuel : Nat) (b : Board) (hf : num_of_empty_pos b ≤ fuel)
    (r0 c0 : Int) : ∃ r c, DepthLimited.computer_choose fuel b r0 c0 = some (b, r, c) := by
  unfold DepthLimited.computer_choose
  have := depth_choose_loop_eq fuel b hf cells (fun _ h => h) ARBITRARILY_LOW_VALUE none
    r0 c0
  simp only [Option.getD_none] at this
  rw [this]
  exact ⟨_, _, rfl⟩

theorem min_max_choose_restores {fuel : Nat} {b b' : Board} {rc : Option (Int × Int)}
    (h : Exhaustive.computer_choose fuel b = some (b', rc)) : b' = b := by
  have h1 := min_max_choose_mono (Nat.le_add_right fuel 10) h
  obtain ⟨rc', h2⟩ := min_max_choose_returns (fuel + 10) b
    (by have := num_of_empty_pos_le b; omega)
  rw [h1] at h2
  exact congrArg Prod.fst (Option.some.inj h2)

theorem alpha_beta_choose_restores {fuel : Nat} {b b' : Board} {r0 c0 r c : Int}
    (h : AlphaBeta.computer_choose fuel b r0 c0 = some (b', r, c)) : b' = b := by
  have h1 := alpha_beta_choose_mono (Nat.le_add_right fuel 10) h
  obtain ⟨r', c', h2⟩ := alpha_beta_choose_returns (fuel + 10) b
    (by have := num_of_empty_pos_le b; omega) r0 c0
  rw [h1] at h2
  exact congrArg Prod.fst (Option.some.inj h2)

theorem depth_choose_restores {fuel : Nat} {b b' : Board} {r0 c0 r c : Int}
    (h : DepthLimited.computer_choose fuel b r0 c0 = some (b', r, c)) : b' = b := by
  have h1 := depth_choose_mono (Nat.le_add_right fuel 10) h
  obtain ⟨r', c', h2⟩ := depth_choose_returns (fuel + 10) b
    (by have := num_of_empty_pos_le b; omega) r0 c0
  rw [h1] at h2
  exact congrArg Prod.fst (Option.some.inj h2)

/-- C7: mutate/restore.  For every board and all arguments, whenever `min_max`,
`alpha_beta_routine` (also when it leaves its loop through the pruning cutoff), `search`, or the
`computer_choose` of the exhaustive, alpha-beta or depth-limited variant returns, the board it
leaves is the board it was given; and with fuel 10 or more each of them does return. -/
theorem searches_restore_board (fuel : Nat) (b : Board) :
    (∀ m r b', Exhaustive.min_max fuel b m = some (r, b') → b' = b) ∧
    (∀ alpha beta m r b',
      AlphaBeta.alpha_beta_routine fuel b alpha beta m = some (r, b') → b' = b) ∧
    (∀ m depth max_depth r b',
      DepthLimited.search fuel b m depth max_depth = some (r, b') → b' = b) ∧
    (∀ rc b', Exhaustive.computer_choose fuel b = some (b', rc) → b' = b) ∧
    (∀ r0 c0 r c b', AlphaBeta.computer_choose fuel b r0 c0 = some (b', r, c) → b' = b) ∧
    (∀ r0 c0 r c b', DepthLimited.computer_choose fuel b r0 c0 = some (b', r, c) → b' = b) ∧
    (10 ≤ fuel →
      (∀ m, ∃ r, Exhaustive.min_max fuel b m = some (r, b)) ∧
      (∀ alpha beta m, ∃ r, AlphaBeta.alpha_beta_routine fuel b alpha beta m = some (r, b)) ∧
      (∀ m depth max_depth, ∃ r,
        DepthLimited.search fuel b m depth max_depth = some (r, b)) ∧
      (∃ rc, Exhaustive.computer_choose fuel b = some (b, rc)) ∧
      (∀ r0 c0, ∃ r c, AlphaBeta.computer_choose fuel b r0 c0 = some (b, r, c)) ∧
      (∀ r0 c0, ∃ r c, DepthLimited.computer_choose fuel b r0 c0 = some (b, r, c))) := by
  refine ⟨fun _ _ _ h => min_max_restores h, fun _ _ _ _ _ h => alpha_beta_routine_restores h,
    fun _ _ _ _ _ h => search_restores h, fun _ _ h => min_max_choose_restores h,
    fun _ _ _ _ _ h => alpha_beta_choose_restores h,
    fun _ _ _ _ _ h => depth_choose_restores h, ?_⟩
  intro hf
  have hb := num_of_empty_pos_le b
  exact ⟨fun m => ⟨_, min_max_eq fuel b m (by omega)⟩,
    fun alpha beta m => ⟨_, alpha_beta_routine_eq fuel b alpha beta m (by omega)⟩,
    fun m depth max_depth => ⟨_, search_eq fuel b m depth max_depth (by omega)⟩,
    min_max_choose_returns fuel b (by omega),
    fun r0 c0 => alpha_beta_choose_returns fuel b (by omega) r0 c0,
    fun r0 c0 => depth_choose_returns fuel b (by omega) r0 c0⟩

/-- The theorem of C7 at the position `three_left`. -/
theorem searches_restore_board_witness :
    10 ≤ 10 ∧
    (∃ r, AlphaBeta.alpha_beta_routine 10 three_left (-1) 0 1 = some (r, three_left)) ∧
    (∀ r b', DepthLimited.search 10 three_left 1 0 2 = some (r, b') → b' = three_left) :=
  ⟨by decide,
    ((searches_restore_board 10 three_left).2.2.2.2.2.2 (by decide)).2.1 (-1) 0 1,
    (searches_restore_board 10 three_left).2.2.1 1 0 2⟩

theorem has_line_iff_lines (b : Board) (p : Char) :
    has_line b p ↔ ∃ line ∈ lines, ∀ ij ∈ line, b.get ij.1 ij.2 = p := by
  obtain ⟨g0, g1, g2, g3, g4, g5, g6, g7, g8⟩ := get_cells b
  simp only [has_line, lines, List.mem_cons, List.mem_singleton, List.not_mem_nil, or_false,
    exists_eq_or_imp, forall_eq_or_imp, forall_eq, exists_eq_left, g0, g1, g2, g3, g4, g5, g6,
    g7, g8]

/-- C8: for every board and every player symbol `p`, `is_victorious(board, p)` returns 1 if
and only if one of the 8 lines (3 rows, 3 columns, 2 diagonals) has its three cells equal to
`p`, and returns 0 otherwise; so it is 1 on each of the 8 winning lines and 0 on every board with
no completed line. -/
theorem is_victorious_iff_line (b : Board) (p : Char) :
    (is_victorious b p = 1 ↔ ∃ line ∈ lines, ∀ ij ∈ line, b.get ij.1 ij.2 = p) ∧
    (is_victorious b p = 0 ↔ ¬ ∃ line ∈ lines, ∀ ij ∈ line, b.get ij.1 ij.2 = p) ∧
    lines.length = 8 := by
  rw [← has_line_iff_lines, is_victorious_eq]
  refine ⟨?_, ?_, rfl⟩ <;> split <;> simp_all

/-- C9: for every board, `is_draw(board)` returns 1 if and only if the number of cells equal to
`'_'` is 0, and returns 0 otherwise; completed lines play no part. -/
theorem is_draw_iff_no_empty_cell (b : Board) :
    (is_draw b = 1 ↔
      List.count '_' [b.c00, b.c01, b.c02, b.c10, b.c11, b.c12, b.c20, b.c21, b.c22] = 0) ∧
    (is_draw b = 0 ↔
      List.count '_' [b.c00, b.c01, b.c02, b.c10, b.c11, b.c12, b.c20, b.c21, b.c22] ≠ 0) := by
  have hc : List.count '_' [b.c00, b.c01, b.c02, b.c10, b.c11, b.c12, b.c20, b.c21, b.c22] =
      num_of_empty_pos b := by
    rw [num_of_empty_pos_eq]
    simp only [List.count_cons, List.count_nil, beq_iff_eq]
    omega
  rw [hc]
  unfold is_draw
  constructor <;> split <;> simp_all

/-- C10 fails on the code: the bounds test of `is_legal` lets column 3 through.  On the empty
board `is_legal(board, 0, 3)` reads `board[0][3]`, which is the cell `board[1][0]`, and returns
1; `is_legal(board, 2, 3)` reads past the end of the array. -/
theorem is_legal_accepts_column_three :
    is_legal emptyBoard 0 3 = some 1 ∧ is_legal emptyBoard 1 3 = some 1 ∧
      is_legal emptyBoard 2 3 = none := by
  decide

/-! ## The line-counting evaluator -/

section
open DepthLimited

theorem sum_indicator {α : Type} (p : α → Prop) [DecidablePred p] (l : List α) :
    (l.map (fun x => if p x then (1 : Int) else 0)).sum = (l.countP (fun x => decide (p x)) : Nat) := by
  induction l with
  | nil => simp
  | cons a t ih =>
    simp only [List.map_cons, List.sum_cons, ih, List.countP_cons]
    by_cases h : p a <;> simp [h]; omega

theorem num_of_three_rows_eq (b : Board) (p : Char) :
    num_of_three_rows b p =
      (lines.countP (fun line => line.all (fun ij => decide (b.get ij.1 ij.2 = p))) : Nat) := by
  unfold num_of_three_rows
  have := sum_indicator (fun line : List (Int × Int) =>
    line.all (fun ij => decide (b.get ij.1 ij.2 = p)) = true) lines
  simp only [Bool.decide_eq_true] at this
  exact this

theorem num_of_two_rows_eq (b : Board) (p : Char) :
    num_of_two_rows b p =
      (lines.countP (fun line => decide
        (line.countP (fun ij => decide (b.get ij.1 ij.2 = '_')) = 1 ∧
         line.countP (fun ij => decide (b.get ij.1 ij.2 = p)) = 2)) : Nat) := by
  unfold num_of_two_rows num_of_empty_spaces num_of_player_symbols
  have := sum_indicator (fun line : List (Int × Int) =>
    line.countP (fun ij => decide (b.get ij.1 ij.2 = '_')) = 1 ∧
         line.countP (fun ij => decide (b.get ij.1 ij.2 = p)) = 2) lines
  rw [← this]
  congr 1
  apply List.map_congr_left
  intro line _
  congr 1
  simp only [eq_iff_iff]
  constructor <;> (rintro ⟨h1, h2⟩; constructor <;> omega)

theorem num_of_one_rows_eq (b : Board) (p : Char) :
    num_of_one_rows b p =
      (lines.countP (fun line => decide
        (line.countP (fun ij => decide (b.get ij.1 ij.2 = '_')) = 2 ∧
         line.countP (fun ij => decide (b.get ij.1 ij.2 = p)) = 1)) : Nat) := by
  unfold num_of_one_rows num_of_empty_spaces num_of_player_symbols
  have := sum_indicator (fun line : List (Int × Int) =>
    line.countP (fun ij => decide (b.get ij.1 ij.2 = '_')) = 2 ∧
         line.countP (fun ij => decide (b.get ij.1 ij.2 = p)) = 1) lines
  rw [← this]
  congr 1
  apply List.map_congr_left
  intro line _
  congr 1
  simp only [eq_iff_iff]
  constructor <;> (rintro ⟨h1, h2⟩; constructor <;> omega)

theorem countP_add_le {α : Type} (p q : α → Bool) (l : List α)
    (h : ∀ x ∈ l, ¬ (p x = true ∧ q x = true)) : l.countP p + l.countP q ≤ l.length := by
  induction l with
  | nil => simp
  | cons a t ih =>
    have ih' := ih (fun x hx => h x (List.mem_cons_of_mem _ hx))
    have ha := h a (List.mem_cons_self _ _)
    simp only [List.countP_cons, List.length_cons]
    by_cases hp : p a = true <;> by_cases hq : q a = true <;> simp_all <;> omega

/-- The score of the evaluator lies strictly between the two sentinels. -/
theorem evaluation_function_bounds (b : Board) :
    -504 ≤ evaluation_function b ∧ evaluation_function b ≤ 9840 := by
  unfold evaluation_function
  simp only [num_of_three_rows_eq, num_of_two_rows_eq]
  have h1 := countP_add_le
    (fun line : List (Int × Int) => line.all (fun ij => decide (b.get ij.1 ij.2 = 'x')))
    (fun line => decide
        (line.countP (fun ij => decide (b.get ij.1 ij.2 = '_')) = 1 ∧
         line.countP (fun ij => decide (b.get ij.1 ij.2 = 'x')) = 2)) lines
    (by
      rintro line _ ⟨hall, h2⟩
      simp only [decide_eq_true_eq] at h2
      have h0 : line.countP (fun ij => decide (b.get ij.1 ij.2 = '_')) = 0 := by
        rw [List.countP_eq_zero]
        intro ij hij
        have := List.all_eq_true.1 hall ij hij
        simp only [decide_eq_true_eq] at this ⊢
        rw [this]; decide
      omega)
  have h2 := List.countP_le_length (fun line : List (Int × Int) => decide
        (line.countP (fun ij => decide (b.get ij.1 ij.2 = '_')) = 1 ∧
         line.countP (fun ij => decide (b.get ij.1 ij.2 = 'o')) = 2)) (l := lines)
  have hl : lines.length = 8 := rfl
  rw [hl] at h1 h2
  constructor <;> omega

end

/-! ## The depth-limited search at its depth limit -/

section
open DepthLimited

theorem foldl_pick_mem {F : Int → Int → Int} (hF : ∀ a v, F a v = a ∨ F a v = v)
    (l : List Int) (init : Int) : l.foldl F init = init ∨ l.foldl F init ∈ l := by
  induction l generalizing init with
  | nil => simp
  | cons a t ih =>
    simp only [List.foldl_cons]
    rcases ih (F init a) with h | h
    · rcases hF init a with h' | h'
      · left; rw [h, h']
      · right; rw [h, h']; exact List.mem_cons_self _ _
    · right; exact List.mem_cons_of_mem _ h

theorem max_pick (a v : Int) : max a v = a ∨ max a v = v := by omega

theorem min_pick (a v : Int) : min a v = a ∨ min a v = v := by omega

/-- On a non-empty list whose elements are all above the seed, the running maximum is an element
of the list. -/
theorem foldl_max_mem {l : List Int} (hne : l ≠ []) {init : Int} (h : ∀ x ∈ l, init ≤ x) :
    l.foldl max init ∈ l := by
  rcases foldl_pick_mem max_pick l init with h1 | h1
  · obtain ⟨a, t, rfl⟩ := List.exists_cons_of_ne_nil hne
    have ha := h a (List.mem_cons_self _ _)
    have hle := le_foldl_max (List.mem_cons_self a t) init
    have : a = init := by omega
    rw [h1, ← this]; exact List.mem_cons_self _ _
  · exact h1

theorem foldl_min_mem {l : List Int} (hne : l ≠ []) {init : Int} (h : ∀ x ∈ l, x ≤ init) :
    l.foldl min init ∈ l := by
  rcases foldl_pick_mem min_pick l init with h1 | h1
  · obtain ⟨a, t, rfl⟩ := List.exists_cons_of_ne_nil hne
    have ha := h a (List.mem_cons_self _ _)
    have hle := foldl_min_le (List.mem_cons_self a t) init
    have : a = init := by omega
    rw [h1, ← this]; exact List.mem_cons_self _ _
  · exact h1

/-- With `depth = max_depth` and a board that is not terminal, `search` makes no recursive call
(any fuel from 1 on is enough): it scores every board reached by one more move with
`evaluation_function` and folds the scores. -/
theorem search_cutoff (n : Nat) (b : Board) (m depth : Int) (hx : ¬ has_line b 'x')
    (ho : ¬ has_line b 'o') (hd : is_draw b = 0) :
    search (n + 1) b m depth depth =
      some (((moves b).map (fun ij =>
          evaluation_function (b.set ij.1 ij.2 (if m ≠ 0 then 'x' else 'o')))).foldl
        (fun best value =>
          if m = 1 then (if best < value then value else best)
          else (if best > value then value else best))
        (if m = 1 then ARBITRARILY_LOW_VALUE else ARBITRARILY_HIGH_VALUE), b) := by
  have e1 := search_loop_eq (search n) (fun _ => 0) m depth depth b cells (fun _ h => h)
    (fun hne => absurd rfl hne)
    (if m = 1 then ARBITRARILY_LOW_VALUE else ARBITRARILY_HIGH_VALUE)
  have hm : cells.filter (fun ij => decide (b.get ij.1 ij.2 = '_')) = moves b := rfl
  rw [hm] at e1
  simp only [if_true] at e1
  rw [search]
  rw [if_neg (fun hv => hx ((is_victorious_ne_zero b 'x').1 hv)),
    if_neg (fun hv => ho ((is_victorious_ne_zero b 'o').1 hv)), if_neg (by simp [hd])]
  exact e1

theorem search_cutoff_max (n : Nat) (b : Board) (depth : Int) (hx : ¬ has_line b 'x')
    (ho : ¬ has_line b 'o') (hd : is_draw b = 0) :
    search (n + 1) b 1 depth depth =
      some (((moves b).map (fun ij => evaluation_function (b.set ij.1 ij.2 'x'))).foldl max
        ARBITRARILY_LOW_VALUE, b) := by
  rw [search_cutoff n b 1 depth hx ho hd]
  have hF : (fun best value : Int =>
      if (1 : Int) = 1 then (if best < value then value else best)
      else (if best > value then value else best)) = max := by
    funext a v
    simp only [if_true]
    rw [max_def]; split <;> split <;> omega
  rw [hF]
  rfl

theorem search_cutoff_min (n : Nat) (b : Board) (depth : Int) (hx : ¬ has_line b 'x')
    (ho : ¬ has_line b 'o') (hd : is_draw b = 0) :
    search (n + 1) b 0 depth depth =
      some (((moves b).map (fun ij => evaluation_function (b.set ij.1 ij.2 'o'))).foldl min
        ARBITRARILY_HIGH_VALUE, b) := by
  rw [search_cutoff n b 0 depth hx ho hd]
  have hF : (fun best value : Int =>
      if (0 : Int) = 1 then (if best < value then value else best)
      else (if best > value then value else best)) = min := by
    funext a v
    simp only [zero_ne_one, if_false]
    rw [min_def]; split <;> split <;> omega
  rw [hF]
  rfl

/-- The score of the depth-limited search lies between the two sentinels, bounds included. -/
theorem sv_bounds (n : Nat) : ∀ (b : Board) (m depth max_depth : Int),
    ARBITRARILY_LOW_VALUE ≤ sv n b m depth max_depth ∧
      sv n b m depth max_depth ≤ ARBITRARILY_HIGH_VALUE := by
  induction n with
  | zero => intro b m depth max_depth; simp [sv]
  | succ n ih =>
    intro b m depth max_depth
    rw [sv]
    by_cases h1 : is_victorious b 'x' ≠ 0
    · simp only [if_pos h1]; decide
    simp only [if_neg h1]
    by_cases h2 : is_victorious b 'o' ≠ 0
    · simp only [if_pos h2]; decide
    simp only [if_neg h2]
    by_cases h3 : is_draw b ≠ 0
    · simp only [if_pos h3]; decide
    simp only [if_neg h3]
    have hpick : ∀ a v : Int, (fun best value : Int =>
        if m = 1 then (if best < value then value else best)
        else (if best > value then value else best)) a v = a ∨
        (fun best value : Int =>
        if m = 1 then (if best < value then value else best)
        else (if best > value then value else best)) a v = v := by
      intro a v
      simp only
      split <;> split <;> simp
    rcases foldl_pick_mem hpick _ (if m = 1 then ARBITRARILY_LOW_VALUE
      else ARBITRARILY_HIGH_VALUE) with h | h
    · rw [h]; split <;> decide
    · obtain ⟨ij, _, hv⟩ := List.mem_map.1 h
      rw [← hv]
      split
      · have := evaluation_function_bounds
          (b.set ij.1 ij.2 (if m ≠ 0 then 'x' else 'o'))
        simp only [ARBITRARILY_LOW_VALUE, ARBITRARILY_HIGH_VALUE]
        constructor <;> omega
      · exact ih _ _ _ _

end

/-! ## The claims about the depth-limited search and the evaluator -/

section
open DepthLimited

theorem not_has_line_of_zero {b : Board} {p : Char} (h : is_victorious b p = 0) :
    ¬ has_line b p := (is_victorious_eq_zero b p).1 h

theorem search_cutoff_max_spec (fuel : Nat) (hfuel : 1 ≤ fuel) (b : Board) (d : Int)
    (hx : is_victorious b 'x' = 0) (ho : is_victorious b 'o' = 0)
    (hne : num_of_empty_pos b ≠ 0) :
    ∃ v, search fuel b 1 d d = some (v, b) ∧
      (∃ ij ∈ cells, b.get ij.1 ij.2 = '_' ∧ v = evaluation_function (b.set ij.1 ij.2 'x')) ∧
      ∀ ij ∈ cells, b.get ij.1 ij.2 = '_' → evaluation_function (b.set ij.1 ij.2 'x') ≤ v := by
  obtain ⟨n, rfl⟩ : ∃ n, fuel = n + 1 := ⟨fuel - 1, by omega⟩
  have hd := is_draw_of_empties hne
  refine ⟨_, search_cutoff_max n b d (not_has_line_of_zero hx) (not_has_line_of_zero ho) hd,
    ?_, ?_⟩
  · have hmem : ((moves b).map (fun ij => evaluation_function (b.set ij.1 ij.2 'x'))).foldl max
        ARBITRARILY_LOW_VALUE ∈
          (moves b).map (fun ij => evaluation_function (b.set ij.1 ij.2 'x')) :=
      foldl_max_mem (by simpa using moves_ne_nil hd)
      (by
        intro x hx'
        obtain ⟨ij, _, rfl⟩ := List.mem_map.1 hx'
        have := (evaluation_function_bounds (b.set ij.1 ij.2 'x')).1
        simp only [ARBITRARILY_LOW_VALUE]; omega)
    obtain ⟨ij, hij, hv⟩ := List.mem_map.1 hmem
    exact ⟨ij, (mem_moves.1 hij).1, (mem_moves.1 hij).2, hv.symm⟩
  · intro ij hc he
    exact le_foldl_max (List.mem_map.2 ⟨ij, mem_moves.2 ⟨hc, he⟩, rfl⟩) _

theorem search_cutoff_min_spec (fuel : Nat) (hfuel : 1 ≤ fuel) (b : Board) (d : Int)
    (hx : is_victorious b 'x' = 0) (ho : is_victorious b 'o' = 0)
    (hne : num_of_empty_pos b ≠ 0) :
    ∃ v, search fuel b 0 d d = some (v, b) ∧
      (∃ ij ∈ cells, b.get ij.1 ij.2 = '_' ∧ v = evaluation_function (b.set ij.1 ij.2 'o')) ∧
      ∀ ij ∈ cells, b.get ij.1 ij.2 = '_' → v ≤ evaluation_function (b.set ij.1 ij.2 'o') := by
  obtain ⟨n, rfl⟩ : ∃ n, fuel = n + 1 := ⟨fuel - 1, by omega⟩
  have hd := is_draw_of_empties hne
  refine ⟨_, search_cutoff_min n b d (not_has_line_of_zero hx) (not_has_line_of_zero ho) hd,
    ?_, ?_⟩
  · have hmem : ((moves b).map (fun ij => evaluation_function (b.set ij.1 ij.2 'o'))).foldl min
        ARBITRARILY_HIGH_VALUE ∈
          (moves b).map (fun ij => evaluation_function (b.set ij.1 ij.2 'o')) :=
      foldl_min_mem (by simpa using moves_ne_nil hd)
      (by
        intro x hx'
        obtain ⟨ij, _, rfl⟩ := List.mem_map.1 hx'
        have := (evaluation_function_bounds (b.set ij.1 ij.2 'o')).2
        simp only [ARBITRARILY_HIGH_VALUE]; omega)
    obtain ⟨ij, hij, hv⟩ := List.mem_map.1 hmem
    exact ⟨ij, (mem_moves.1 hij).1, (mem_moves.1 hij).2, hv.symm⟩
  · intro ij hc he
    exact foldl_min_le (List.mem_map.2 ⟨ij, mem_moves.2 ⟨hc, he⟩, rfl⟩) _

/-- C11, as stated, fails: on the board with a single `x` in the corner, which is not terminal,
`search(board, 1, 0, 0)` returns 31 (the best score after one more `x`), while
`evaluation_function(board)` is 0. -/
theorem search_at_limit_is_not_evaluation :
    is_victorious x_corner 'x' = 0 ∧ is_victorious x_corner 'o' = 0 ∧
      num_of_empty_pos x_corner ≠ 0 ∧
      search 10 x_corner 1 0 0 = some (31, x_corner) ∧ evaluation_function x_corner = 0 ∧
      (31 : Int) ≠ 0 := by
  refine ⟨by decide, by decide, by decide, ?_, ?_, by decide⟩ <;> decide!

/-- C11, amended: when `depth` equals `max_depth` and the board is not terminal, `search` makes
no recursive call (fuel 1 is enough) and scores with `evaluation_function` the boards reached by
one more move of the side to move: `search(board, 1, d, d)` is the maximum of
`evaluation_function` over the boards with one empty cell filled with `'x'`, and
`search(board, 0, d, d)` the minimum over the boards with one empty cell filled with `'o'`. -/
theorem search_at_limit_scores_next_boards (fuel : Nat) (hfuel : 1 ≤ fuel) (b : Board) (d : Int)
    (hx : is_victorious b 'x' = 0) (ho : is_victorious b 'o' = 0)
    (hne : num_of_empty_pos b ≠ 0) :
    (∃ v, search fuel b 1 d d = some (v, b) ∧
      (∃ ij ∈ cells, b.get ij.1 ij.2 = '_' ∧ v = evaluation_function (b.set ij.1 ij.2 'x')) ∧
      ∀ ij ∈ cells, b.get ij.1 ij.2 = '_' → evaluation_function (b.set ij.1 ij.2 'x') ≤ v) ∧
    (∃ v, search fuel b 0 d d = some (v, b) ∧
      (∃ ij ∈ cells, b.get ij.1 ij.2 = '_' ∧ v = evaluation_function (b.set ij.1 ij.2 'o')) ∧
      ∀ ij ∈ cells, b.get ij.1 ij.2 = '_' → v ≤ evaluation_function (b.set ij.1 ij.2 'o')) :=
  ⟨search_cutoff_max_spec fuel hfuel b d hx ho hne,
    search_cutoff_min_spec fuel hfuel b d hx ho hne⟩

/-- The amended C11 at the board `x_corner`, depth 5. -/
theorem search_at_limit_scores_next_boards_witness :
    1 ≤ 1 ∧ is_victorious x_corner 'x' = 0 ∧ is_victorious x_corner 'o' = 0 ∧
      num_of_empty_pos x_corner ≠ 0 ∧
      ∃ v, search 1 x_corner 1 5 5 = some (v, x_corner) ∧
        (∃ ij ∈ cells, x_corner.get ij.1 ij.2 = '_' ∧
          v = evaluation_function (x_corner.set ij.1 ij.2 'x')) ∧
        ∀ ij ∈ cells, x_corner.get ij.1 ij.2 = '_' →
          evaluation_function (x_corner.set ij.1 ij.2 'x') ≤ v :=
  ⟨by decide, by decide, by decide, by decide,
    (search_at_limit_scores_next_boards 1 (by decide) x_corner 5 (by decide) (by decide)
      (by decide)).1⟩

/-- C12: with depth 0 and max depth 0 the search is a 1-ply heuristic search.  On every board
that is not terminal, `search(board, 1, 0, 0)` returns the maximum of `evaluation_function` over
the boards obtained by filling one empty cell with `'x'`, and `search(board, 0, 0, 0)` the
minimum over the boards obtained by filling one empty cell with `'o'`; the board is left as it
was. -/
theorem search_depth_zero_is_one_ply (fuel : Nat) (hfuel : 1 ≤ fuel) (b : Board)
    (hx : is_victorious b 'x' = 0) (ho : is_victorious b 'o' = 0)
    (hne : num_of_empty_pos b ≠ 0) :
    (∃ v, search fuel b 1 0 0 = some (v, b) ∧
      (∃ ij ∈ cells, b.get ij.1 ij.2 = '_' ∧ v = evaluation_function (b.set ij.1 ij.2 'x')) ∧
      ∀ ij ∈ cells, b.get ij.1 ij.2 = '_' → evaluation_function (b.set ij.1 ij.2 'x') ≤ v) ∧
    (∃ v, search fuel b 0 0 0 = some (v, b) ∧
      (∃ ij ∈ cells, b.get ij.1 ij.2 = '_' ∧ v = evaluation_function (b.set ij.1 ij.2 'o')) ∧
      ∀ ij ∈ cells, b.get ij.1 ij.2 = '_' → v ≤ evaluation_function (b.set ij.1 ij.2 'o')) :=
  ⟨search_cutoff_max_spec fuel hfuel b 0 hx ho hne,
    search_cutoff_min_spec fuel hfuel b 0 hx ho hne⟩

/-- The theorem of C12 at the board `three_left`, for the minimizer. -/
theorem search_depth_zero_is_one_ply_witness :
    1 ≤ 10 ∧ is_victorious three_left 'x' = 0 ∧ is_victorious three_left 'o' = 0 ∧
      num_of_empty_pos three_left ≠ 0 ∧
      ∃ v, search 10 three_left 0 0 0 = some (v, three_left) ∧
        (∃ ij ∈ cells, three_left.get ij.1 ij.2 = '_' ∧
          v = evaluation_function (three_left.set ij.1 ij.2 'o')) ∧
        ∀ ij ∈ cells, three_left.get ij.1 ij.2 = '_' →
          v ≤ evaluation_function (three_left.set ij.1 ij.2 'o') :=
  ⟨by decide, by decide, by decide, by decide,
    (search_depth_zero_is_one_ply 10 (by decide) three_left (by decide) (by decide)
      (by decide)).2⟩

theorem one_le_num_of_three_rows {b : Board} {p : Char} (h : has_line b p) :
    1 ≤ num_of_three_rows b p := by
  rw [num_of_three_rows_eq]
  obtain ⟨line, hl, hall⟩ := (has_line_iff_lines b p).1 h
  have : 0 < lines.countP (fun line => line.all (fun ij => decide (b.get ij.1 ij.2 = p))) := by
    rw [List.countP_pos_iff]
    exact ⟨line, hl, by simpa using hall⟩
  omega

theorem evaluation_function_x_line {b : Board} (h : has_line b 'x') :
    726 ≤ evaluation_function b := by
  have h3 := one_le_num_of_three_rows h
  unfold evaluation_function
  simp only [num_of_two_rows_eq] at *
  have h2 := List.countP_le_length (fun line : List (Int × Int) => decide
        (line.countP (fun ij => decide (b.get ij.1 ij.2 = '_')) = 1 ∧
         line.countP (fun ij => decide (b.get ij.1 ij.2 = 'o')) = 2)) (l := lines)
  have hl : lines.length = 8 := rfl
  rw [hl] at h2
  omega

/-- C13, as stated, fails.  On `o x x / _ _ x / o _ o`, which is not terminal and where `o` at
(1,0) completes a line, `search(board, 0, 0, 0)` returns -126 and not -10000; on
`x o x / o o x / _ _ _`, where `x` at (2,2) completes a line, `search(board, 1, 0, 0)` returns
1167 and not 10000. -/
theorem search_at_limit_misses_lines :
    is_victorious o_three_threats 'x' = 0 ∧ is_victorious o_three_threats 'o' = 0 ∧
      o_three_threats.get 1 0 = '_' ∧ is_victorious (o_three_threats.set 1 0 'o') 'o' = 1 ∧
      search 10 o_three_threats 0 0 0 = some (-126, o_three_threats) ∧
      (-126 : Int) ≠ ARBITRARILY_LOW_VALUE ∧
    is_victorious three_left 'x' = 0 ∧ is_victorious three_left 'o' = 0 ∧
      three_left.get 2 2 = '_' ∧ is_victorious (three_left.set 2 2 'x') 'x' = 1 ∧
      search 10 three_left 1 0 0 = some (1167, three_left) ∧
      (1167 : Int) ≠ ARBITRARILY_HIGH_VALUE := by
  refine ⟨by decide, by decide, by decide, by decide, ?_, by decide, by decide, by decide,
    by decide, by decide, ?_, by decide⟩ <;> decide!

/-- C13, amended: at the depth limit Mode C applies no terminal check to the boards it scores;
they are scored by `evaluation_function` alone.  On a board that is not terminal, if filling an
empty cell with `'o'` completes an `o` line then `search(board, 0, d, d)` is at most the
evaluator's score of that board and strictly above `ARBITRARILY_LOW_VALUE`; if filling an empty
cell with `'x'` completes an `x` line then `search(board, 1, d, d)` is at least the evaluator's
score of that board, hence at least 726, and strictly below `ARBITRARILY_HIGH_VALUE`. -/
theorem search_at_limit_scores_lines_by_evaluator (fuel : Nat) (hfuel : 1 ≤ fuel) (b : Board)
    (d : Int) (hx : is_victorious b 'x' = 0) (ho : is_victorious b 'o' = 0) :
    (∀ ij ∈ cells, b.get ij.1 ij.2 = '_' → is_victorious (b.set ij.1 ij.2 'o') 'o' = 1 →
      ∃ v, search fuel b 0 d d = some (v, b) ∧ ARBITRARILY_LOW_VALUE < v ∧
        v ≤ evaluation_function (b.set ij.1 ij.2 'o')) ∧
    (∀ ij ∈ cells, b.get ij.1 ij.2 = '_' → is_victorious (b.set ij.1 ij.2 'x') 'x' = 1 →
      ∃ v, search fuel b 1 d d = some (v, b) ∧ v < ARBITRARILY_HIGH_VALUE ∧
        evaluation_function (b.set ij.1 ij.2 'x') ≤ v ∧ 726 ≤ v) := by
  constructor
  · intro ij hc he _
    have hne : num_of_empty_pos b ≠ 0 := by
      have := empties_set b 'o' (by decide) hc he
      omega
    obtain ⟨v, hs, ⟨kl, _, _, hv⟩, hall⟩ := search_cutoff_min_spec fuel hfuel b d hx ho hne
    refine ⟨v, hs, ?_, hall ij hc he⟩
    have := (evaluation_function_bounds (b.set kl.1 kl.2 'o')).1
    simp only [ARBITRARILY_LOW_VALUE]; omega
  · intro ij hc he hwin
    have hne : num_of_empty_pos b ≠ 0 := by
      have := empties_set b 'x' (by decide) hc he
      omega
    obtain ⟨v, hs, ⟨kl, _, _, hv⟩, hall⟩ := search_cutoff_max_spec fuel hfuel b d hx ho hne
    have h1 := evaluation_function_x_line ((is_victorious_eq_one _ 'x').1 hwin)
    have h2 := hall ij hc he
    refine ⟨v, hs, ?_, h2, by omega⟩
    have := (evaluation_function_bounds (b.set kl.1 kl.2 'x')).2
    simp only [ARBITRARILY_HIGH_VALUE]; omega

/-- The amended C13 at the board `three_left`, where `x` at (2,2) completes a line. -/
theorem search_at_limit_scores_lines_by_evaluator_witness :
    1 ≤ 10 ∧ is_victorious three_left 'x' = 0 ∧ is_victorious three_left 'o' = 0 ∧
      three_left.get 2 2 = '_' ∧ is_victorious (three_left.set 2 2 'x') 'x' = 1 ∧
      ∃ v, search 10 three_left 1 3 3 = some (v, three_left) ∧ v < ARBITRARILY_HIGH_VALUE ∧
        evaluation_function (three_left.set 2 2 'x') ≤ v ∧ 726 ≤ v :=
  ⟨by decide, by decide, by decide, by decide, by decide,
    (search_at_limit_scores_lines_by_evaluator 10 (by decide) three_left 3 (by decide)
      (by decide)).2 (2, 2) (by decide) (by decide) (by decide)⟩

/-- C14, as stated, fails: on a board where `x` has a completed line `search` returns
`ARBITRARILY_HIGH_VALUE` itself. -/
theorem search_returns_sentinel :
    search 10 x_top_row 1 0 2 = some (ARBITRARILY_HIGH_VALUE, x_top_row) ∧
      ¬ (ARBITRARILY_HIGH_VALUE < ARBITRARILY_HIGH_VALUE) := by
  constructor <;> decide

/-- C14, amended: the two sentinels are the win and loss scores of the depth-limited search, so
its score lies between them, bounds included.  For every board, `is_maximizer`, `depth` and
`max_depth`, `search` returns (given fuel 10 or more) a value `v` with
`ARBITRARILY_LOW_VALUE ≤ v ≤ ARBITRARILY_HIGH_VALUE`; `v` is `ARBITRARILY_HIGH_VALUE` when `x`
has a completed line and `ARBITRARILY_LOW_VALUE` when `o` has one and `x` has none. -/
theorem search_score_range (fuel : Nat) (hfuel : 10 ≤ fuel) (b : Board)
    (m depth max_depth : Int) :
    ∃ v, search fuel b m depth max_depth = some (v, b) ∧
      ARBITRARILY_LOW_VALUE ≤ v ∧ v ≤ ARBITRARILY_HIGH_VALUE ∧
      (is_victorious b 'x' = 1 → v = ARBITRARILY_HIGH_VALUE) ∧
      (is_victorious b 'x' = 0 → is_victorious b 'o' = 1 → v = ARBITRARILY_LOW_VALUE) := by
  have hb := num_of_empty_pos_le b
  obtain ⟨n, rfl⟩ : ∃ n, fuel = n + 1 := ⟨fuel - 1, by omega⟩
  refine ⟨_, search_eq (n + 1) b m depth max_depth (by omega), (sv_bounds _ _ _ _ _).1,
    (sv_bounds _ _ _ _ _).2, ?_, ?_⟩
  · intro h
    rw [sv, if_pos (by rw [h]; decide)]
  · intro h0 h1
    rw [sv, if_neg (by rw [h0]; decide), if_pos (by rw [h1]; decide)]

/-- The amended C14 at the board `x_top_row`. -/
theorem search_score_range_witness :
    10 ≤ 10 ∧ ∃ v, search 10 x_top_row 0 0 2 = some (v, x_top_row) ∧
      ARBITRARILY_LOW_VALUE ≤ v ∧ v ≤ ARBITRARILY_HIGH_VALUE ∧
      (is_victorious x_top_row 'x' = 1 → v = ARBITRARILY_HIGH_VALUE) ∧
      (is_victorious x_top_row 'x' = 0 → is_victorious x_top_row 'o' = 1 →
        v = ARBITRARILY_LOW_VALUE) :=
  ⟨by decide, search_score_range 10 (by decide) x_top_row 0 0 2⟩

/-- C16: for every board, `evaluation_function(board) = 1230*c3 - 63*n2 + 31*c2`, where `c3`
counts the lines (of the 8) whose three cells are all `'x'`, `n2` the lines with exactly two
`'o'` and one `'_'`, and `c2` the lines with exactly two `'x'` and one `'_'`; the counts of
1-rows do not occur. -/
theorem evaluation_function_formula (b : Board) :
    evaluation_function b =
      1230 * (lines.countP (fun line =>
          line.all (fun ij => decide (b.get ij.1 ij.2 = 'x'))) : Nat)
      - 63 * (lines.countP (fun line => decide
          (line.countP (fun ij => decide (b.get ij.1 ij.2 = 'o')) = 2 ∧
           line.countP (fun ij => decide (b.get ij.1 ij.2 = '_')) = 1)) : Nat)
      + 31 * (lines.countP (fun line => decide
          (line.countP (fun ij => decide (b.get ij.1 ij.2 = 'x')) = 2 ∧
           line.countP (fun ij => decide (b.get ij.1 ij.2 = '_')) = 1)) : Nat) := by
  unfold evaluation_function
  simp only [num_of_three_rows_eq, num_of_two_rows_eq]
  have e : ∀ p : Char, (fun line : List (Int × Int) => decide
      (line.countP (fun ij => decide (b.get ij.1 ij.2 = '_')) = 1 ∧
        line.countP (fun ij => decide (b.get ij.1 ij.2 = p)) = 2)) =
      (fun line => decide
      (line.countP (fun ij => decide (b.get ij.1 ij.2 = p)) = 2 ∧
        line.countP (fun ij => decide (b.get ij.1 ij.2 = '_')) = 1)) := by
    intro p; funext line; simp only [and_comm]
  rw [e 'o', e 'x']

/-- C17, as stated, fails: on `x _ _ / _ x _ / _ _ o` the main diagonal holds an `o`, so it is
not a 2-row of `x`; `num_of_two_rows(x)` is 0, `num_of_one_rows(o)` is 2 and
`num_of_one_rows(x)` is 5. -/
theorem x_diag_o_counts_differ :
    num_of_two_rows x_diag_o 'x' ≠ 1 ∧ num_of_one_rows x_diag_o 'o' ≠ 0 ∧
      num_of_one_rows x_diag_o 'x' ≠ 1 ∧
      123 * num_of_three_rows x_diag_o 'x' - 63 * num_of_two_rows x_diag_o 'o'
        + 31 * num_of_two_rows x_diag_o 'x' - 15 * num_of_one_rows x_diag_o 'o'
        + 7 * num_of_one_rows x_diag_o 'x' ≠ 38 := by
  decide

/-- C17, amended: on the board with `'x'` at (0,0) and (1,1), `'o'` at (2,2) and every other
cell `'_'`, the counting functions give `c3 = 0`, `n2 = 0`, `c2 = 0`, `n1 = 2`, `c1 = 5`, so
that the reference weighting `123*c3 - 63*n2 + 31*c2 - 15*n1 + 7*c1` equals 5. -/
theorem x_diag_o_counts :
    num_of_three_rows x_diag_o 'x' = 0 ∧ num_of_two_rows x_diag_o 'o' = 0 ∧
      num_of_two_rows x_diag_o 'x' = 0 ∧ num_of_one_rows x_diag_o 'o' = 2 ∧
      num_of_one_rows x_diag_o 'x' = 5 ∧
      123 * num_of_three_rows x_diag_o 'x' - 63 * num_of_two_rows x_diag_o 'o'
        + 31 * num_of_two_rows x_diag_o 'x' - 15 * num_of_one_rows x_diag_o 'o'
        + 7 * num_of_one_rows x_diag_o 'x' = 5 := by
  decide

end

/-! ## The claims about the exact searches -/

theorem mmv_values (n : Nat) : ∀ (b : Board) (m : Int),
    mmv n b m = -10 ∨ mmv n b m = 0 ∨ mmv n b m = 10 := by
  induction n with
  | zero => intro b m; simp [mmv]
  | succ n ih =>
    intro b m
    have hbd := mmv_bounds (n + 1) b m
    rw [mmv] at hbd ⊢
    by_cases h1 : is_victorious b 'o' ≠ 0
    · simp [if_pos h1]
    simp only [if_neg h1] at hbd ⊢
    by_cases h2 : is_victorious b 'x' ≠ 0
    · simp [if_pos h2]
    simp only [if_neg h2] at hbd ⊢
    by_cases h3 : is_draw b ≠ 0
    · simp [if_pos h3]
    simp only [if_neg h3] at hbd ⊢
    have hne := moves_ne_nil (not_ne_zero h3)
    simp only [if_neg hne] at hbd ⊢
    by_cases h4 : m ≠ 0
    · simp only [if_pos h4] at hbd ⊢
      rcases foldl_pick_mem max_pick
        ((moves b).map (fun ij => mmv n (b.set ij.1 ij.2 'x') 0)) ARBITRARILY_LOW_VALUE
        with h | h
      · rw [h] at hbd; simp only [ARBITRARILY_LOW_VALUE] at hbd; omega
      · obtain ⟨ij, _, hv⟩ := List.mem_map.1 h
        rw [← hv]; exact ih _ _
    · simp only [if_neg h4] at hbd ⊢
      rcases foldl_pick_mem min_pick
        ((moves b).map (fun ij => mmv n (b.set ij.1 ij.2 'o') 1)) ARBITRARILY_HIGH_VALUE
        with h | h
      · rw [h] at hbd; simp only [ARBITRARILY_HIGH_VALUE] at hbd; omega
      · obtain ⟨ij, _, hv⟩ := List.mem_map.1 h
        rw [← hv]; exact ih _ _

theorem abv_max_values (child : Int × Int → Int → Int) (beta : Int)
    (hchild : ∀ ij a, child ij a = -1 ∨ child ij a = 0 ∨ child ij a = 1) :
    ∀ (l : List (Int × Int)) (value alpha : Int),
      ((value = -1 ∨ value = 0 ∨ value = 1) ∨ (value = ARBITRARILY_LOW_VALUE ∧ l ≠ [])) →
      (abv_max child beta l value alpha = -1 ∨ abv_max child beta l value alpha = 0 ∨
        abv_max child beta l value alpha = 1) := by
  intro l
  induction l with
  | nil =>
    intro value alpha h
    rcases h with h | ⟨_, h⟩
    · simpa [abv_max] using h
    · exact absurd rfl h
  | cons ij rest ih =>
    intro value alpha h
    have hc := hchild ij alpha
    have hv : max value (child ij alpha) = -1 ∨ max value (child ij alpha) = 0 ∨
        max value (child ij alpha) = 1 := by
      simp only [ARBITRARILY_LOW_VALUE] at h
      omega
    simp only [abv_max]
    split
    · exact hv
    · exact ih _ _ (Or.inl hv)

theorem abv_min_values (child : Int × Int → Int → Int) (alpha : Int)
    (hchild : ∀ ij c, child ij c = -1 ∨ child ij c = 0 ∨ child ij c = 1) :
    ∀ (l : List (Int × Int)) (value beta : Int),
      ((value = -1 ∨ value = 0 ∨ value = 1) ∨ (value = ARBITRARILY_HIGH_VALUE ∧ l ≠ [])) →
      (abv_min child alpha l value beta = -1 ∨ abv_min child alpha l value beta = 0 ∨
        abv_min child alpha l value beta = 1) := by
  intro l
  induction l with
  | nil =>
    intro value beta h
    rcases h with h | ⟨_, h⟩
    · simpa [abv_min] using h
    · exact absurd rfl h
  | cons ij rest ih =>
    intro value beta h
    have hc := hchild ij beta
    have hv : min value (child ij beta) = -1 ∨ min value (child ij beta) = 0 ∨
        min value (child ij beta) = 1 := by
      simp only [ARBITRARILY_HIGH_VALUE] at h
      omega
    simp only [abv_min]
    split
    · exact hv
    · exact ih _ _ (Or.inl hv)

/-- The score of the alpha-beta search is -1, 0 or 1, whatever window it is given. -/
theorem abv_values (n : Nat) : ∀ (b : Board) (alpha beta m : Int),
    abv n b alpha beta m = -1 ∨ abv n b alpha beta m = 0 ∨ abv n b alpha beta m = 1 := by
  induction n with
  | zero => intro b alpha beta m; simp [abv]
  | succ n ih =>
    intro b alpha beta m
    rw [abv]
    by_cases h1 : is_victorious b 'x' ≠ 0
    · simp [if_pos h1]
    simp only [if_neg h1]
    by_cases h2 : is_victorious b 'o' ≠ 0
    · simp [if_pos h2]
    simp only [if_neg h2]
    by_cases h3 : is_draw b ≠ 0
    · simp [if_pos h3]
    simp only [if_neg h3]
    have hne := moves_ne_nil (not_ne_zero h3)
    by_cases h4 : m ≠ 0
    · simp only [if_pos h4]
      exact abv_max_values _ beta (fun ij a => ih _ _ _ _) _ _ _ (Or.inr ⟨rfl, hne⟩)
    · simp only [if_neg h4]
      exact abv_min_values _ alpha (fun ij c => ih _ _ _ _) _ _ _ (Or.inr ⟨rfl, hne⟩)

/-- C15: the exact searches never return a sentinel.  For every board and `is_maximizer`,
`min_max` returns (given fuel 10 or more) a value in {-10, 0, 10}; for every board,
`is_maximizer` and every pair of integers `alpha`, `beta`, also with `alpha ≥ beta` on entry,
`alpha_beta_routine` returns a value in {-1, 0, 1}. -/
theorem exact_searches_never_return_sentinel (fuel : Nat) (hfuel : 10 ≤ fuel) (b : Board)
    (m : Int) :
    (∃ v, Exhaustive.min_max fuel b m = some (v, b) ∧ (v = -10 ∨ v = 0 ∨ v = 10)) ∧
    (∀ alpha beta : Int, ∃ v,
      AlphaBeta.alpha_beta_routine fuel b alpha beta m = some (v, b) ∧
        (v = -1 ∨ v = 0 ∨ v = 1)) := by
  have hb := num_of_empty_pos_le b
  exact ⟨⟨_, min_max_eq fuel b m (by omega), mmv_values fuel b m⟩,
    fun alpha beta => ⟨_, alpha_beta_routine_eq fuel b alpha beta m (by omega),
      abv_values fuel b alpha beta m⟩⟩

/-- The theorem of C15 at the empty board with fuel 10; the window `(5, -5)` is empty. -/
theorem exact_searches_never_return_sentinel_witness :
    10 ≤ 10 ∧
    (∃ v, Exhaustive.min_max 10 emptyBoard 1 = some (v, emptyBoard) ∧
      (v = -10 ∨ v = 0 ∨ v = 10)) ∧
    (∃ v, AlphaBeta.alpha_beta_routine 10 emptyBoard 5 (-5) 1 = some (v, emptyBoard) ∧
      (v = -1 ∨ v = 0 ∨ v = 1)) :=
  ⟨by decide, (exact_searches_never_return_sentinel 10 (by decide) emptyBoard 1).1,
    (exact_searches_never_return_sentinel 10 (by decide) emptyBoard 1).2 5 (-5)⟩

/-- C18, as stated, fails: on the board `x x x / o o o / _ _ _`, where `x` has a completed line,
`min_max` returns -10, because the line of `o` is tested first. -/
theorem min_max_tests_o_first :
    is_victorious both_lines 'x' = 1 ∧
      Exhaustive.min_max 10 both_lines 1 = some (-10, both_lines) ∧
      Exhaustive.min_max 10 both_lines 0 = some (-10, both_lines) ∧ (-10 : Int) ≠ 10 := by
  decide

/-- C18, amended: the base cases of exhaustive minimax are checked in the order O-wins, X-wins,
full board.  For every board and `is_maximizer`: if `o` has a completed line (whatever else the
board holds, a completed `x` line included) `min_max` returns -10; if `x` has a completed line
and `o` has none it returns +10; if neither has one and no cell is empty it returns 0. -/
theorem min_max_base_cases (fuel : Nat) (hfuel : 1 ≤ fuel) (b : Board) (m : Int) :
    (is_victorious b 'o' = 1 → Exhaustive.min_max fuel b m = some (-10, b)) ∧
    (is_victorious b 'o' = 0 → is_victorious b 'x' = 1 →
      Exhaustive.min_max fuel b m = some (10, b)) ∧
    (is_victorious b 'o' = 0 → is_victorious b 'x' = 0 → is_draw b = 1 →
      Exhaustive.min_max fuel b m = some (0, b)) := by
  obtain ⟨n, rfl⟩ : ∃ n, fuel = n + 1 := ⟨fuel - 1, by omega⟩
  refine ⟨?_, ?_, ?_⟩
  · intro h
    rw [Exhaustive.min_max, if_pos (by rw [h]; decide)]
  · intro h0 h1
    rw [Exhaustive.min_max, if_neg (by rw [h0]; decide), if_pos (by rw [h1]; decide)]
  · intro h0 h1 h2
    rw [Exhaustive.min_max, if_neg (by rw [h0]; decide), if_neg (by rw [h1]; decide),
      if_pos (by rw [h2]; decide)]

/-- The amended C18 at the boards `both_lines` and `x_top_row`. -/
theorem min_max_base_cases_witness :
    1 ≤ 1 ∧ is_victorious both_lines 'o' = 1 ∧
      Exhaustive.min_max 1 both_lines 1 = some (-10, both_lines) ∧
      is_victorious x_top_row 'o' = 0 ∧ is_victorious x_top_row 'x' = 1 ∧
      Exhaustive.min_max 1 x_top_row 0 = some (10, x_top_row) :=
  ⟨by decide, by decide, (min_max_base_cases 1 (by decide) both_lines 1).1 (by decide),
    by decide, by decide,
    (min_max_base_cases 1 (by decide) x_top_row 0).2.1 (by decide) (by decide)⟩

/-- C19: `min_max`, `alpha_beta_routine` and `search` terminate on every input, by recursion
on the number of empty cells: a call on a board with `k` empty cells nests at most `k + 1`
calls.  With any fuel above the number of empty cells (which is at most 9) each of them
returns, for every `is_maximizer`, every `alpha` and `beta`, and every `depth` and `max_depth`
(`depth > max_depth` included). -/
theorem searches_terminate (fuel : Nat) (b : Board) (hfuel : num_of_empty_pos b < fuel) :
    num_of_empty_pos b ≤ 9 ∧
    (∀ m, ∃ r, Exhaustive.min_max fuel b m = some r) ∧
    (∀ alpha beta m, ∃ r, AlphaBeta.alpha_beta_routine fuel b alpha beta m = some r) ∧
    (∀ m depth max_depth, ∃ r, DepthLimited.search fuel b m depth max_depth = some r) :=
  ⟨num_of_empty_pos_le b, fun m => ⟨_, min_max_eq fuel b m hfuel⟩,
    fun alpha beta m => ⟨_, alpha_beta_routine_eq fuel b alpha beta m hfuel⟩,
    fun m depth max_depth => ⟨_, search_eq fuel b m depth max_depth hfuel⟩⟩

/-- The theorem of C19 at the board `three_left` (three empty cells) with fuel 4, and `search`
called with `depth > max_depth`. -/
theorem searches_terminate_witness :
    num_of_empty_pos three_left < 4 ∧
    (∃ r, Exhaustive.min_max 4 three_left 1 = some r) ∧
    (∃ r, AlphaBeta.alpha_beta_routine 4 three_left 7 3 0 = some r) ∧
    (∃ r, DepthLimited.search 4 three_left 1 5 2 = some r) :=
  ⟨by decide, (searches_terminate 4 three_left (by decide)).2.1 1,
    (searches_terminate 4 three_left (by decide)).2.2.1 7 3 0,
    (searches_terminate 4 three_left (by decide)).2.2.2 1 5 2⟩

/-! ## Swapping rows and columns -/

theorem swap_mem_cells {ij : Int × Int} (h : ij ∈ cells) : (ij.2, ij.1) ∈ cells := by
  refine cells_cases (P := fun ij => (ij.2, ij.1) ∈ cells) h ?_ ?_ ?_ ?_ ?_ ?_ ?_ ?_ ?_ <;> decide

theorem transpose_get (b : Board) {ij : Int × Int} (h : ij ∈ cells) :
    (transpose b).get ij.1 ij.2 = b.get ij.2 ij.1 := by
  obtain ⟨g0, g1, g2, g3, g4, g5, g6, g7, g8⟩ := get_cells b
  obtain ⟨t0, t1, t2, t3, t4, t5, t6, t7, t8⟩ := get_cells (transpose b)
  refine cells_cases (P := fun ij => (transpose b).get ij.1 ij.2 = b.get ij.2 ij.1) h
    ?_ ?_ ?_ ?_ ?_ ?_ ?_ ?_ ?_ <;>
    (simp only [g0, g1, g2, g3, g4, g5, g6, g7, g8, t0, t1, t2, t3, t4, t5, t6, t7, t8];
      try rfl)

theorem transpose_set (b : Board) (s : Char) {ij : Int × Int} (h : ij ∈ cells) :
    (transpose b).set ij.1 ij.2 s = transpose (b.set ij.2 ij.1 s) := by
  obtain ⟨s0, s1, s2, s3, s4, s5, s6, s7, s8⟩ := set_cells b s
  obtain ⟨t0, t1, t2, t3, t4, t5, t6, t7, t8⟩ := set_cells (transpose b) s
  refine cells_cases (P := fun ij => (transpose b).set ij.1 ij.2 s = transpose (b.set ij.2 ij.1 s))
    h ?_ ?_ ?_ ?_ ?_ ?_ ?_ ?_ ?_ <;>
    (simp only [s0, s1, s2, s3, s4, s5, s6, s7, s8, t0, t1, t2, t3, t4, t5, t6, t7, t8];
      try rfl)

theorem has_line_transpose_imp (b : Board) (p : Char) :
    has_line (transpose b) p → has_line b p := by
  simp only [has_line, transpose]
  rintro (⟨h1, h2, h3⟩ | ⟨h1, h2, h3⟩ | ⟨h1, h2, h3⟩ | ⟨h1, h2, h3⟩ | ⟨h1, h2, h3⟩ |
    ⟨h1, h2, h3⟩ | ⟨h1, h2, h3⟩ | ⟨h1, h2, h3⟩)
  · exact Or.inr (Or.inr (Or.inr (Or.inl ⟨h1, h2, h3⟩)))
  · exact Or.inr (Or.inr (Or.inr (Or.inr (Or.inl ⟨h1, h2, h3⟩))))
  · exact Or.inr (Or.inr (Or.inr (Or.inr (Or.inr (Or.inl ⟨h1, h2, h3⟩)))))
  · exact Or.inl ⟨h1, h2, h3⟩
  · exact Or.inr (Or.inl ⟨h1, h2, h3⟩)
  · exact Or.inr (Or.inr (Or.inl ⟨h1, h2, h3⟩))
  · exact Or.inr (Or.inr (Or.inr (Or.inr (Or.inr (Or.inr (Or.inl ⟨h1, h2, h3⟩))))))
  · exact Or.inr (Or.inr (Or.inr (Or.inr (Or.inr (Or.inr (Or.inr ⟨h3, h2, h1⟩))))))

theorem transpose_transpose (b : Board) : transpose (transpose b) = b := rfl

theorem has_line_transpose (b : Board) (p : Char) :
    has_line (transpose b) p ↔ has_line b p :=
  ⟨has_line_transpose_imp b p, fun h => has_line_transpose_imp (transpose b) p
    (by rw [transpose_transpose]; exact h)⟩

theorem is_victorious_transpose (b : Board) (p : Char) :
    is_victorious (transpose b) p = is_victorious b p := by
  rw [is_victorious_eq, is_victorious_eq]
  simp only [has_line_transpose]

theorem is_draw_transpose (b : Board) : is_draw (transpose b) = is_draw b := by
  have : num_of_empty_pos (transpose b) = num_of_empty_pos b := by
    rw [num_of_empty_pos_eq, num_of_empty_pos_eq]
    simp only [transpose]
    omega
  unfold is_draw
  rw [this]

theorem mem_moves_transpose (b : Board) (ij : Int × Int) :
    ij ∈ moves (transpose b) ↔ (ij.2, ij.1) ∈ moves b := by
  rw [mem_moves, mem_moves]
  constructor
  · rintro ⟨hc, he⟩
    exact ⟨swap_mem_cells hc, by rw [← transpose_get b hc]; exact he⟩
  · rintro ⟨hc, he⟩
    have hc' : ij ∈ cells := swap_mem_cells hc
    exact ⟨hc', by rw [transpose_get b hc']; exact he⟩

theorem foldl_max_congr_mem {l l' : List Int} (h : ∀ x, x ∈ l ↔ x ∈ l') (init : Int) :
    l.foldl max init = l'.foldl max init := by
  apply le_antisymm
  · rcases foldl_pick_mem max_pick l init with h1 | h1
    · rw [h1]; exact init_le_foldl_max _ _
    · exact le_foldl_max ((h _).1 h1) _
  · rcases foldl_pick_mem max_pick l' init with h1 | h1
    · rw [h1]; exact init_le_foldl_max _ _
    · exact le_foldl_max ((h _).2 h1) _

theorem foldl_min_congr_mem {l l' : List Int} (h : ∀ x, x ∈ l ↔ x ∈ l') (init : Int) :
    l.foldl min init = l'.foldl min init := by
  apply le_antisymm
  · rcases foldl_pick_mem min_pick l' init with h1 | h1
    · rw [h1]; exact foldl_min_le_init _ _
    · exact foldl_min_le ((h _).2 h1) _
  · rcases foldl_pick_mem min_pick l init with h1 | h1
    · rw [h1]; exact foldl_min_le_init _ _
    · exact foldl_min_le ((h _).1 h1) _

theorem mem_children_transpose (b : Board) (s : Char) (f : Board → Int)
    (hf : ∀ b', f (transpose b') = f b') (x : Int) :
    x ∈ (moves (transpose b)).map (fun ij => f ((transpose b).set ij.1 ij.2 s)) ↔
      x ∈ (moves b).map (fun ij => f (b.set ij.1 ij.2 s)) := by
  simp only [List.mem_map]
  constructor
  · rintro ⟨ij, hij, rfl⟩
    refine ⟨(ij.2, ij.1), (mem_moves_transpose b ij).1 hij, ?_⟩
    rw [transpose_set b s (mem_moves.1 hij).1, hf]
  · rintro ⟨ij, hij, rfl⟩
    have hij' : (ij.2, ij.1) ∈ moves (transpose b) := (mem_moves_transpose b _).2 hij
    refine ⟨(ij.2, ij.1), hij', ?_⟩
    rw [transpose_set b s (mem_moves.1 hij').1, hf]

/-- The game value does not change when rows and columns are swapped. -/
theorem gval_transpose (n : Nat) : ∀ (b : Board) (m : Int),
    gval n (transpose b) m = gval n b m := by
  induction n with
  | zero => intro b m; rfl
  | succ n ih =>
    intro b m
    rw [gval, gval]
    simp only [is_victorious_transpose, is_draw_transpose]
    rw [foldl_max_congr_mem (mem_children_transpose b 'x' (fun b' => gval n b' 0)
        (fun b' => ih b' 0)),
      foldl_min_congr_mem (mem_children_transpose b 'o' (fun b' => gval n b' 1)
        (fun b' => ih b' 1))]

/-- C20: the value returned by the alpha-beta search does not depend on the order in which the
moves are tried.  For every board `b` and `is_maximizer`,
`alpha_beta_routine(transpose(b), -10000, 10000, is_maximizer)` and
`alpha_beta_routine(b, -10000, 10000, is_maximizer)` return the same score (given fuel 10 or
more), where `transpose` swaps rows and columns, so that the row-major scan of `transpose(b)`
tries the moves of `b` in column-major order. -/
theorem alpha_beta_transpose (fuel : Nat) (hfuel : 10 ≤ fuel) (b : Board) (m : Int) :
    ∃ v,
      AlphaBeta.alpha_beta_routine fuel (transpose b) ARBITRARILY_LOW_VALUE
        ARBITRARILY_HIGH_VALUE m = some (v, transpose b) ∧
      AlphaBeta.alpha_beta_routine fuel b ARBITRARILY_LOW_VALUE ARBITRARILY_HIGH_VALUE m =
        some (v, b) := by
  have hb := num_of_empty_pos_le b
  have hb' := num_of_empty_pos_le (transpose b)
  refine ⟨gval fuel b m, ?_, ?_⟩
  · rw [alpha_beta_routine_eq fuel _ _ _ m (by omega), abv_full fuel _ m (by omega),
      gval_transpose]
  · rw [alpha_beta_routine_eq fuel _ _ _ m (by omega), abv_full fuel _ m (by omega)]

/-- The theorem of C20 at the board `o_three_threats`, which differs from its transpose. -/
theorem alpha_beta_transpose_witness :
    10 ≤ 10 ∧ transpose o_three_threats ≠ o_three_threats ∧
    ∃ v,
      AlphaBeta.alpha_beta_routine 10 (transpose o_three_threats) ARBITRARILY_LOW_VALUE
        ARBITRARILY_HIGH_VALUE 1 = some (v, transpose o_three_threats) ∧
      AlphaBeta.alpha_beta_routine 10 o_three_threats ARBITRARILY_LOW_VALUE
        ARBITRARILY_HIGH_VALUE 1 = some (v, o_three_threats) :=
  ⟨by decide, by decide, alpha_beta_transpose 10 (by decide) o_three_threats 1⟩

/-! ## The game loops make legal alternating play -/

theorem after_move_board (b : Board) (p : Char) (row col cur next : Int) :
    (after_move b p row col cur next).board = b := by
  unfold after_move
  split_ifs <;> rfl

theorem after_move_running {b : Board} {p : Char} {row col cur next : Int}
    (h : (after_move b p row col cur next).running = true) :
    (after_move b p row col cur next).is_maximizer = next := by
  unfold after_move at h ⊢
  split_ifs at h ⊢
  rfl

/-- Every state of the `main` loop of the alpha-beta variant holds a position of legal
alternating play; while the game runs, the side to move is `x` exactly when `is_maximizer`
is 1. -/
theorem alpha_beta_reach_legal_play {s : GameState} (h : AlphaBeta.main_reach s) :
    (∃ side, legal_play s.board side) ∧
    (s.running = true → legal_play s.board (if s.is_maximizer = 1 then 'x' else 'o')) := by
  induction h with
  | start r c => exact ⟨⟨'x', legal_play.start⟩, fun _ => legal_play.start⟩
  | step s t hs hstep ih =>
    obtain ⟨hno, hrun⟩ := x_not_losing_reach hs
    cases hstep with
    | computer fuel board row col hr hm hcc =>
      obtain ⟨hnx, hd, _, _⟩ := hrun hr
      have hl := ih.2 hr
      rw [if_pos hm] at hl
      have hcc' := alpha_beta_choose_mono (Nat.le_add_right fuel 10) hcc
      obtain ⟨pre, ij, post, e, hspec, _, _⟩ :=
        alpha_beta_choose_spec (fuel + 10) (by omega) s.board hd s.row_choice s.col_choice
      rw [hspec] at hcc'
      have hres := Option.some.inj hcc'
      simp only [Prod.mk.injEq] at hres
      obtain ⟨hb, hrow, hcol⟩ := hres
      subst hb hrow hcol
      have hij : ij ∈ moves s.board := by rw [e]; simp
      have hl' := legal_play.move_x s.board ij hl ((is_victorious_eq_zero _ _).2 hnx)
        ((is_victorious_eq_zero _ _).2 hno) hij
      refine ⟨⟨'o', by rw [after_move_board]; exact hl'⟩, fun hr' => ?_⟩
      rw [after_move_running hr', after_move_board]
      exact hl'
    | player row col hr hm hleg =>
      obtain ⟨hnx, hd, _, _⟩ := hrun hr
      have hl := ih.2 hr
      rw [if_neg hm] at hl
      obtain ⟨ij, hij, hset⟩ := is_legal_one hleg
      rw [hset]
      have hl' := legal_play.move_o s.board ij hl ((is_victorious_eq_zero _ _).2 hnx)
        ((is_victorious_eq_zero _ _).2 hno) hij
      refine ⟨⟨'x', by rw [after_move_board]; exact hl'⟩, fun hr' => ?_⟩
      rw [after_move_running hr', after_move_board]
      exact hl'

/-- Every state of the `main` loop of the exhaustive variant holds a position of legal
alternating play; while the game runs, the side to move is `x` exactly when `is_maximizer`
is not 0. -/
theorem min_max_reach_legal_play {s : GameState} (h : Exhaustive.main_reach s) :
    (∃ side, legal_play s.board side) ∧
    (s.running = true → legal_play s.board (if s.is_maximizer ≠ 0 then 'x' else 'o')) := by
  induction h with
  | start r c => exact ⟨⟨'x', legal_play.start⟩, fun _ => legal_play.start⟩
  | step s t hs hstep ih =>
    obtain ⟨hnx, hrun⟩ := o_not_losing_reach hs
    cases hstep with
    | player row col hr hm hleg =>
      obtain ⟨hno, hd, _, _⟩ := hrun hr
      have hl := ih.2 hr
      rw [if_pos hm] at hl
      obtain ⟨ij, hij, hset⟩ := is_legal_one hleg
      rw [hset]
      have hl' := legal_play.move_x s.board ij hl ((is_victorious_eq_zero _ _).2 hnx)
        ((is_victorious_eq_zero _ _).2 hno) hij
      refine ⟨⟨'o', by rw [after_move_board]; exact hl'⟩, fun hr' => ?_⟩
      rw [after_move_running hr', after_move_board]
      exact hl'
    | computer fuel board row col hr hm hcc =>
      obtain ⟨hno, hd, _, _⟩ := hrun hr
      have hl := ih.2 hr
      rw [if_neg (by rw [hm]; decide)] at hl
      have hcc' := min_max_choose_mono (Nat.le_add_right fuel 10) hcc
      obtain ⟨pre, ij, post, e, hspec, _, _⟩ :=
        min_max_choose_spec (fuel + 10) (by omega) s.board hd
      rw [hspec] at hcc'
      have hres := Option.some.inj hcc'
      simp only [Prod.mk.injEq, Option.some.injEq] at hres
      obtain ⟨hb, hrc⟩ := hres
      subst hb
      have hrow : ij.1 = row := congrArg Prod.fst hrc
      have hcol : ij.2 = col := congrArg Prod.snd hrc
      subst hrow hcol
      have hij : ij ∈ moves s.board := by rw [e]; simp
      have hl' := legal_play.move_o s.board ij hl ((is_victorious_eq_zero _ _).2 hnx)
        ((is_victorious_eq_zero _ _).2 hno) hij
      refine ⟨⟨'x', by rw [after_move_board]; exact hl'⟩, fun hr' => ?_⟩
      rw [after_move_running hr', after_move_board]
      exact hl'

/-! ## The claims about the game loop and the exact searches at the start -/

/-- C21: X-wins and O-wins are mutually exclusive on reachable boards.  On every position of
legal alternating play from the empty board (`x` first, each move fills an empty cell, no move
after a completed line), `is_victorious(board,'x')` and `is_victorious(board,'o')` are not both
1; every board that the `main` loop of the alpha-beta variant or of the exhaustive variant
reaches is such a position. -/
theorem wins_mutually_exclusive :
    (∀ b side, legal_play b side →
      ¬ (is_victorious b 'x' = 1 ∧ is_victorious b 'o' = 1)) ∧
    (∀ s, AlphaBeta.main_reach s → (∃ side, legal_play s.board side) ∧
      ¬ (is_victorious s.board 'x' = 1 ∧ is_victorious s.board 'o' = 1)) ∧
    (∀ s, Exhaustive.main_reach s → (∃ side, legal_play s.board side) ∧
      ¬ (is_victorious s.board 'x' = 1 ∧ is_victorious s.board 'o' = 1)) := by
  have key : ∀ b side, legal_play b side →
      ¬ (is_victorious b 'x' = 1 ∧ is_victorious b 'o' = 1) := by
    intro b side h
    rw [is_victorious_eq_one, is_victorious_eq_one]
    exact legal_play_not_both h
  refine ⟨key, fun s h => ?_, fun s h => ?_⟩
  · obtain ⟨side, hl⟩ := (alpha_beta_reach_legal_play h).1
    exact ⟨⟨side, hl⟩, key _ _ hl⟩
  · obtain ⟨side, hl⟩ := (min_max_reach_legal_play h).1
    exact ⟨⟨side, hl⟩, key _ _ hl⟩

/-- The theorem of C21 at the position `x_top_row` of legal play and at the first state of the
`main` loop of the alpha-beta variant. -/
theorem wins_mutually_exclusive_witness :
    legal_play x_top_row 'o' ∧
    ¬ (is_victorious x_top_row 'x' = 1 ∧ is_victorious x_top_row 'o' = 1) ∧
    AlphaBeta.main_reach ⟨emptyBoard, 1, 0, 0, true⟩ ∧
    ¬ (is_victorious emptyBoard 'x' = 1 ∧ is_victorious emptyBoard 'o' = 1) :=
  ⟨legal_play_x_top_row, wins_mutually_exclusive.1 x_top_row 'o' legal_play_x_top_row,
    AlphaBeta.main_reach.start 0 0,
    (wins_mutually_exclusive.2.1 ⟨emptyBoard, 1, 0, 0, true⟩ (AlphaBeta.main_reach.start 0 0)).2⟩

/-- C22: the zero-legal-move fallback of `min_max` is unreachable.  On every board with
`is_draw(board) = 0` some pair `i, j` in {0,1,2} has `is_legal(board, i, j) = 1`, and the double
loop of `min_max` (either branch; with fuel at least the number of empty cells for the
recursive calls) ends with `no_legal_move = 0`, so that `best_value` is returned and not the
fallback 0. -/
theorem min_max_fallback_unreachable (fuel : Nat) (b : Board) (hd : is_draw b = 0)
    (hfuel : num_of_empty_pos b ≤ fuel) :
    (∃ ij ∈ cells, is_legal b ij.1 ij.2 = some 1) ∧
    (∃ best_value, Exhaustive.min_max_max_loop (Exhaustive.min_max fuel) cells b
      ARBITRARILY_LOW_VALUE 1 = some (b, best_value, 0)) ∧
    (∃ best_value, Exhaustive.min_max_min_loop (Exhaustive.min_max fuel) cells b
      ARBITRARILY_HIGH_VALUE 1 = some (b, best_value, 0)) := by
  have hne : cells.filter (fun ij => decide (b.get ij.1 ij.2 = '_')) ≠ [] := moves_ne_nil hd
  refine ⟨?_, ?_, ?_⟩
  · obtain ⟨ij, hij⟩ := List.exists_mem_of_ne_nil _ (moves_ne_nil hd)
    obtain ⟨hc, he⟩ := mem_moves.1 hij
    exact ⟨ij, hc, by rw [is_legal_cell b hc, if_pos he]⟩
  · have h := min_max_max_loop_eq (Exhaustive.min_max fuel) (fun b' => mmv fuel b' 0) b cells
      (fun _ h => h)
      (fun ij hc he => min_max_eq fuel _ 0 (by
        have := empties_set b 'x' (by decide) hc he
        omega))
      ARBITRARILY_LOW_VALUE 1
    rw [if_neg hne] at h
    exact ⟨_, h⟩
  · have h := min_max_min_loop_eq (Exhaustive.min_max fuel) (fun b' => mmv fuel b' 1) b cells
      (fun _ h => h)
      (fun ij hc he => min_max_eq fuel _ 1 (by
        have := empties_set b 'o' (by decide) hc he
        omega))
      ARBITRARILY_HIGH_VALUE 1
    rw [if_neg hne] at h
    exact ⟨_, h⟩

/-- The theorem of C22 at the board `three_left`, with fuel 3. -/
theorem min_max_fallback_unreachable_witness :
    is_draw three_left = 0 ∧ num_of_empty_pos three_left ≤ 3 ∧
    (∃ ij ∈ cells, is_legal three_left ij.1 ij.2 = some 1) ∧
    (∃ best_value, Exhaustive.min_max_max_loop (Exhaustive.min_max 3) cells three_left
      ARBITRARILY_LOW_VALUE 1 = some (three_left, best_value, 0)) ∧
    (∃ best_value, Exhaustive.min_max_min_loop (Exhaustive.min_max 3) cells three_left
      ARBITRARILY_HIGH_VALUE 1 = some (three_left, best_value, 0)) :=
  ⟨by decide, by decide, min_max_fallback_unreachable 3 three_left (by decide) (by decide)⟩

/-- C23: best play from the empty board draws.  `min_max(empty board, 1)` returns 0 and
`alpha_beta_routine(empty board, -10000, 10000, 1)` returns 0, with any fuel from 10 on. -/
theorem empty_board_is_a_draw (fuel : Nat) (hfuel : 10 ≤ fuel) :
    Exhaustive.min_max fuel emptyBoard 1 = some (0, emptyBoard) ∧
    AlphaBeta.alpha_beta_routine fuel emptyBoard ARBITRARILY_LOW_VALUE ARBITRARILY_HIGH_VALUE 1
      = some (0, emptyBoard) := by
  obtain ⟨h1, h2⟩ := min_max_alpha_beta emptyBoard 1 fuel fuel hfuel hfuel (by decide)
  rw [gval_empty] at h1 h2
  exact ⟨h2, h1⟩

/-- The theorem of C23 with fuel 10. -/
theorem empty_board_is_a_draw_witness :
    10 ≤ 10 ∧ Exhaustive.min_max 10 emptyBoard 1 = some (0, emptyBoard) ∧
    AlphaBeta.alpha_beta_routine 10 emptyBoard ARBITRARILY_LOW_VALUE ARBITRARILY_HIGH_VALUE 1
      = some (0, emptyBoard) :=
  ⟨by decide, empty_board_is_a_draw 10 (by decide)⟩

/-! ## The claims about the counting functions -/

section
open DepthLimited

theorem lines_length {line : List (Int × Int)} (h : line ∈ lines) : line.length = 3 := by
  revert line
  decide

/-- If two tests that exclude each other together count every element of a list, every element
passes one of them. -/
theorem countP_cover {α : Type} (p q : α → Bool) (l : List α)
    (hd : ∀ x ∈ l, ¬ (p x = true ∧ q x = true)) (h : l.countP p + l.countP q = l.length) :
    ∀ x ∈ l, p x = true ∨ q x = true := by
  induction l with
  | nil => intro x hx; simp at hx
  | cons a t ih =>
    have hle := countP_add_le p q t (fun x hx => hd x (List.mem_cons_of_mem _ hx))
    have ha := hd a (List.mem_cons_self _ _)
    simp only [List.countP_cons, List.length_cons] at h
    intro x hx
    by_cases hp : p a = true <;> by_cases hq : q a = true
    · exact absurd ⟨hp, hq⟩ ha
    · simp only [hp, hq, if_true] at h
      rcases List.mem_cons.1 hx with rfl | hx
      · exact Or.inl hp
      · exact ih (fun x hx => hd x (List.mem_cons_of_mem _ hx)) (by simp at h; omega) x hx
    · simp only [hp, hq, if_true] at h
      rcases List.mem_cons.1 hx with rfl | hx
      · exact Or.inr hq
      · exact ih (fun x hx => hd x (List.mem_cons_of_mem _ hx)) (by simp at h; omega) x hx
    · simp only [hp, hq] at h
      simp at h
      omega

theorem all_iff_three (b : Board) {p : Char} (hp : p ≠ '_') {line : List (Int × Int)}
    (hl : line ∈ lines) :
    line.all (fun ij => decide (b.get ij.1 ij.2 = p)) = true ↔
      line.countP (fun ij => decide (b.get ij.1 ij.2 = p)) = 3 ∧
      line.countP (fun ij => decide (b.get ij.1 ij.2 = '_')) = 3 - 3 := by
  have h3 := lines_length hl
  constructor
  · intro hall
    have hall' := List.all_eq_true.1 hall
    constructor
    · rw [← h3, List.countP_eq_length]
      exact hall'
    · rw [List.countP_eq_zero]
      intro ij hij
      have := hall' ij hij
      simp only [decide_eq_true_eq] at this ⊢
      rw [this]; exact hp
  · rintro ⟨hc, _⟩
    rw [← h3, List.countP_eq_length] at hc
    exact List.all_eq_true.2 hc

/-- C24: for every board and every player symbol `p` (any character other than `'_'`, so `'x'`
and `'o'`), `num_of_one_rows`, `num_of_two_rows` and `num_of_three_rows` return the number of
lines among the 8 that hold exactly 1, 2 and 3 cells equal to `p` and 2, 1 and 0 cells equal to
`'_'`; a line that is counted holds no other mark. -/
theorem counting_functions_count_k_rows (b : Board) (p : Char) (hp : p ≠ '_') :
    num_of_one_rows b p = num_of_k_rows b p 1 ∧
    num_of_two_rows b p = num_of_k_rows b p 2 ∧
    num_of_three_rows b p = num_of_k_rows b p 3 ∧
    ∀ k ≤ 3, ∀ line ∈ lines,
      line.countP (fun ij => decide (b.get ij.1 ij.2 = p)) = k →
      line.countP (fun ij => decide (b.get ij.1 ij.2 = '_')) = 3 - k →
      ∀ ij ∈ line, b.get ij.1 ij.2 = p ∨ b.get ij.1 ij.2 = '_' := by
  refine ⟨?_, ?_, ?_, ?_⟩
  · rw [num_of_one_rows_eq, num_of_k_rows]
    congr 1
    apply List.countP_congr
    intro line _
    simp only [decide_eq_true_eq]
    constructor <;> (rintro ⟨h1, h2⟩; constructor <;> omega)
  · rw [num_of_two_rows_eq, num_of_k_rows]
    congr 1
    apply List.countP_congr
    intro line _
    simp only [decide_eq_true_eq]
    constructor <;> (rintro ⟨h1, h2⟩; constructor <;> omega)
  · rw [num_of_three_rows_eq, num_of_k_rows]
    congr 1
    apply List.countP_congr
    intro line hl
    rw [all_iff_three b hp hl, decide_eq_true_eq]
  · intro k hk line hl h1 h2 ij hij
    have h3 := lines_length hl
    have := countP_cover (fun ij : Int × Int => decide (b.get ij.1 ij.2 = p))
      (fun ij => decide (b.get ij.1 ij.2 = '_')) line
      (by
        rintro x _ ⟨hx1, hx2⟩
        simp only [decide_eq_true_eq] at hx1 hx2
        exact hp (hx1.symm.trans hx2))
      (by omega) ij hij
    simpa only [decide_eq_true_eq] using this

/-- The theorem of C24 at the board `x_diag_o` for `'x'`: five 1-rows, no 2-row, no 3-row. -/
theorem counting_functions_count_k_rows_witness :
    'x' ≠ '_' ∧ num_of_one_rows x_diag_o 'x' = num_of_k_rows x_diag_o 'x' 1 ∧
    num_of_k_rows x_diag_o 'x' 1 = 5 ∧
    num_of_two_rows x_diag_o 'x' = num_of_k_rows x_diag_o 'x' 2 ∧
    num_of_three_rows x_diag_o 'x' = num_of_k_rows x_diag_o 'x' 3 :=
  ⟨by decide, (counting_functions_count_k_rows x_diag_o 'x' (by decide)).1, by decide,
    (counting_functions_count_k_rows x_diag_o 'x' (by decide)).2.1,
    (counting_functions_count_k_rows x_diag_o 'x' (by decide)).2.2.1⟩

/-- C25: the heuristic score stays strictly inside the sentinel range.  For every board,
whatever its cells hold, `-10000 < evaluation_function(board) < 10000`; more precisely the
score lies between -504 and 9840. -/
theorem evaluation_function_inside_sentinels (b : Board) :
    ARBITRARILY_LOW_VALUE < evaluation_function b ∧
    evaluation_function b < ARBITRARILY_HIGH_VALUE ∧
    -504 ≤ evaluation_function b ∧ evaluation_function b ≤ 9840 := by
  obtain ⟨h1, h2⟩ := evaluation_function_bounds b
  simp only [ARBITRARILY_LOW_VALUE, ARBITRARILY_HIGH_VALUE]
  omega

/-- C29: win detection and the 3-row counter agree.  For every board and player symbol `p`,
`is_victorious(board, p) = 1` if and only if `num_of_three_rows(board, p) ≥ 1`, and
`0 ≤ num_of_three_rows(board, p) ≤ 8`. -/
theorem is_victorious_iff_three_rows (b : Board) (p : Char) :
    (is_victorious b p = 1 ↔ 1 ≤ num_of_three_rows b p) ∧
    0 ≤ num_of_three_rows b p ∧ num_of_three_rows b p ≤ 8 := by
  have hle := List.countP_le_length
    (fun line : List (Int × Int) => line.all (fun ij => decide (b.get ij.1 ij.2 = p))) (l := lines)
  have hl : lines.length = 8 := rfl
  refine ⟨⟨fun h => one_le_num_of_three_rows ((is_victorious_eq_one b p).1 h), fun h => ?_⟩, ?_, ?_⟩
  · rw [is_victorious_eq_one, has_line_iff_lines]
    rw [num_of_three_rows_eq] at h
    have hpos : 0 < lines.countP
        (fun line => line.all (fun ij => decide (b.get ij.1 ij.2 = p))) := by omega
    obtain ⟨line, hmem, hall⟩ := List.countP_pos_iff.1 hpos
    exact ⟨line, hmem, by simpa using hall⟩
  · rw [num_of_three_rows_eq]; omega
  · rw [num_of_three_rows_eq]; omega

end

/-! ## The depth-limited search against the game value -/

section
open DepthLimited

theorem sv_x_line {n : Nat} {b : Board} {m depth max_depth : Int} (h : has_line b 'x') :
    sv (n + 1) b m depth max_depth = ARBITRARILY_HIGH_VALUE := by
  rw [sv, if_pos ((is_victorious_ne_zero b 'x').2 h)]

theorem sv_o_line {n : Nat} {b : Board} {m depth max_depth : Int} (hx : ¬ has_line b 'x')
    (h : has_line b 'o') : sv (n + 1) b m depth max_depth = ARBITRARILY_LOW_VALUE := by
  rw [sv, if_neg (fun hv => hx ((is_victorious_ne_zero b 'x').1 hv)),
    if_pos ((is_victorious_ne_zero b 'o').2 h)]

theorem sv_draw {n : Nat} {b : Board} {m depth max_depth : Int} (hx : ¬ has_line b 'x')
    (ho : ¬ has_line b 'o') (hd : is_draw b ≠ 0) : sv (n + 1) b m depth max_depth = 0 := by
  rw [sv, if_neg (fun hv => hx ((is_victorious_ne_zero b 'x').1 hv)),
    if_neg (fun hv => ho ((is_victorious_ne_zero b 'o').1 hv)), if_pos hd]

/-- The score of `search` for the maximizer on a board that is not terminal. -/
theorem sv_max {n : Nat} {b : Board} {depth max_depth : Int} (hx : ¬ has_line b 'x')
    (ho : ¬ has_line b 'o') (hd : ¬ is_draw b ≠ 0) :
    sv (n + 1) b 1 depth max_depth =
      ((moves b).map (fun ij =>
        if depth = max_depth then evaluation_function (b.set ij.1 ij.2 'x')
        else sv n (b.set ij.1 ij.2 'x') 0 (int_wrap (depth + 1)) max_depth)).foldl max
        ARBITRARILY_LOW_VALUE := by
  rw [sv, if_neg (fun hv => hx ((is_victorious_ne_zero b 'x').1 hv)),
    if_neg (fun hv => ho ((is_victorious_ne_zero b 'o').1 hv)), if_neg hd]
  have hF : (fun best value : Int =>
      if (1 : Int) = 1 then (if best < value then value else best)
      else (if best > value then value else best)) = max := by
    funext a v
    simp only [if_true]
    rw [max_def]; split <;> split <;> omega
  rw [hF]
  rfl

/-- The score of `search` for the minimizer on a board that is not terminal. -/
theorem sv_min {n : Nat} {b : Board} {depth max_depth : Int} (hx : ¬ has_line b 'x')
    (ho : ¬ has_line b 'o') (hd : ¬ is_draw b ≠ 0) :
    sv (n + 1) b 0 depth max_depth =
      ((moves b).map (fun ij =>
        if depth = max_depth then evaluation_function (b.set ij.1 ij.2 'o')
        else sv n (b.set ij.1 ij.2 'o') 1 (int_wrap (depth + 1)) max_depth)).foldl min
        ARBITRARILY_HIGH_VALUE := by
  rw [sv, if_neg (fun hv => hx ((is_victorious_ne_zero b 'x').1 hv)),
    if_neg (fun hv => ho ((is_victorious_ne_zero b 'o').1 hv)), if_neg hd]
  have hF : (fun best value : Int =>
      if (0 : Int) = 1 then (if best < value then value else best)
      else (if best > value then value else best)) = min := by
    funext a v
    simp only [zero_ne_one, if_false]
    rw [min_def]; split <;> split <;> omega
  rw [hF]
  rfl

/-- A sentinel returned by the depth-limited search, called with `is_maximizer` 0 or 1, is the
game value: 10000 only on positions that `x` wins under best play, -10000 only on positions
that `o` wins. -/
theorem sv_sentinel (n : Nat) : ∀ (b : Board) (m depth max_depth : Int), (m = 0 ∨ m = 1) →
    (sv n b m depth max_depth = ARBITRARILY_HIGH_VALUE → gval n b m = 1) ∧
    (sv n b m depth max_depth = ARBITRARILY_LOW_VALUE → gval n b m = -1) := by
  induction n with
  | zero => intro b m depth max_depth _; simp [sv]
  | succ n ih =>
    intro b m depth max_depth hm
    by_cases hx : has_line b 'x'
    · rw [sv_x_line hx, gval_x_line hx]
      exact ⟨fun _ => rfl, fun h => absurd h (by decide)⟩
    by_cases ho : has_line b 'o'
    · rw [sv_o_line hx ho, gval_o_line hx ho]
      exact ⟨fun h => absurd h (by decide), fun _ => rfl⟩
    by_cases hd : is_draw b ≠ 0
    · rw [sv_draw hx ho hd]
      exact ⟨fun h => absurd h (by decide), fun h => absurd h (by decide)⟩
    have hne := moves_ne_nil (not_ne_zero hd)
    have hev : ∀ b' : Board, ARBITRARILY_LOW_VALUE < evaluation_function b' ∧
        evaluation_function b' < ARBITRARILY_HIGH_VALUE := by
      intro b'
      have := evaluation_function_bounds b'
      simp only [ARBITRARILY_LOW_VALUE, ARBITRARILY_HIGH_VALUE]
      omega
    rcases hm with rfl | rfl
    · -- the minimizer
      have hgb := gval_bounds (n + 1) b 0
      rw [sv_min hx ho hd]
      rw [gval_min hx ho (not_ne_zero hd)] at hgb ⊢
      have hcb : ∀ ij : Int × Int,
          ARBITRARILY_LOW_VALUE ≤ (if depth = max_depth then
            evaluation_function (b.set ij.1 ij.2 'o')
            else sv n (b.set ij.1 ij.2 'o') 1 (int_wrap (depth + 1)) max_depth) ∧
          (if depth = max_depth then evaluation_function (b.set ij.1 ij.2 'o')
            else sv n (b.set ij.1 ij.2 'o') 1 (int_wrap (depth + 1)) max_depth)
            ≤ ARBITRARILY_HIGH_VALUE := by
        intro ij
        split
        · exact ⟨le_of_lt (hev _).1, le_of_lt (hev _).2⟩
        · exact sv_bounds _ _ _ _ _
      constructor
      · intro h
        have hmem := @foldl_min_mem
          ((moves b).map (fun ij => gval n (b.set ij.1 ij.2 'o') 1))
          (by simpa using hne) ARBITRARILY_HIGH_VALUE
          (by
            intro x hx'
            obtain ⟨ij, _, rfl⟩ := List.mem_map.1 hx'
            have := (gval_bounds n (b.set ij.1 ij.2 'o') 1).2
            simp only [ARBITRARILY_HIGH_VALUE]; omega)
        obtain ⟨ij, hij, hv⟩ := List.mem_map.1 hmem
        have hle := foldl_min_le (List.mem_map.2 ⟨ij, hij, rfl⟩ :
          (if depth = max_depth then evaluation_function (b.set ij.1 ij.2 'o')
            else sv n (b.set ij.1 ij.2 'o') 1 (int_wrap (depth + 1)) max_depth) ∈
          (moves b).map (fun ij => if depth = max_depth then
            evaluation_function (b.set ij.1 ij.2 'o')
            else sv n (b.set ij.1 ij.2 'o') 1 (int_wrap (depth + 1)) max_depth)) ARBITRARILY_HIGH_VALUE
        rw [h] at hle
        have hc := (hcb ij).2
        rw [← hv]
        split at hle
        · exact absurd hle (not_le.2 (hev _).2)
        · rw [if_neg (by assumption)] at hc
          exact (ih _ _ _ _ (Or.inr rfl)).1 (le_antisymm hc hle)
      · intro h
        have hmem := @foldl_min_mem
          ((moves b).map (fun ij => if depth = max_depth then
            evaluation_function (b.set ij.1 ij.2 'o')
            else sv n (b.set ij.1 ij.2 'o') 1 (int_wrap (depth + 1)) max_depth))
          (by simpa using hne) ARBITRARILY_HIGH_VALUE
          (by
            intro x hx'
            obtain ⟨ij, _, rfl⟩ := List.mem_map.1 hx'
            exact (hcb ij).2)
        rw [h] at hmem
        obtain ⟨ij, hij, hv⟩ := List.mem_map.1 hmem
        have hg : gval n (b.set ij.1 ij.2 'o') 1 = -1 := by
          split at hv
          · exact absurd hv (ne_of_gt (hev _).1)
          · exact (ih _ _ _ _ (Or.inr rfl)).2 hv
        have hle := foldl_min_le (List.mem_map.2 ⟨ij, hij, rfl⟩ :
          gval n (b.set ij.1 ij.2 'o') 1 ∈
            (moves b).map (fun ij => gval n (b.set ij.1 ij.2 'o') 1)) ARBITRARILY_HIGH_VALUE
        omega
    · -- the maximizer
      have hgb := gval_bounds (n + 1) b 1
      rw [sv_max hx ho hd]
      rw [gval_max hx ho (not_ne_zero hd) one_ne_zero] at hgb ⊢
      have hcb : ∀ ij : Int × Int,
          ARBITRARILY_LOW_VALUE ≤ (if depth = max_depth then
            evaluation_function (b.set ij.1 ij.2 'x')
            else sv n (b.set ij.1 ij.2 'x') 0 (int_wrap (depth + 1)) max_depth) ∧
          (if depth = max_depth then evaluation_function (b.set ij.1 ij.2 'x')
            else sv n (b.set ij.1 ij.2 'x') 0 (int_wrap (depth + 1)) max_depth)
            ≤ ARBITRARILY_HIGH_VALUE := by
        intro ij
        split
        · exact ⟨le_of_lt (hev _).1, le_of_lt (hev _).2⟩
        · exact sv_bounds _ _ _ _ _
      constructor
      · intro h
        have hmem := @foldl_max_mem
          ((moves b).map (fun ij => if depth = max_depth then
            evaluation_function (b.set ij.1 ij.2 'x')
            else sv n (b.set ij.1 ij.2 'x') 0 (int_wrap (depth + 1)) max_depth))
          (by simpa using hne) ARBITRARILY_LOW_VALUE
          (by
            intro x hx'
            obtain ⟨ij, _, rfl⟩ := List.mem_map.1 hx'
            exact (hcb ij).1)
        rw [h] at hmem
        obtain ⟨ij, hij, hv⟩ := List.mem_map.1 hmem
        have hg : gval n (b.set ij.1 ij.2 'x') 0 = 1 := by
          split at hv
          · exact absurd hv (ne_of_lt (hev _).2)
          · exact (ih _ _ _ _ (Or.inl rfl)).1 hv
        have hle := le_foldl_max (List.mem_map.2 ⟨ij, hij, rfl⟩ :
          gval n (b.set ij.1 ij.2 'x') 0 ∈
            (moves b).map (fun ij => gval n (b.set ij.1 ij.2 'x') 0)) ARBITRARILY_LOW_VALUE
        omega
      · intro h
        have hmem := @foldl_max_mem
          ((moves b).map (fun ij => gval n (b.set ij.1 ij.2 'x') 0))
          (by simpa using hne) ARBITRARILY_LOW_VALUE
          (by
            intro x hx'
            obtain ⟨ij, _, rfl⟩ := List.mem_map.1 hx'
            have := (gval_bounds n (b.set ij.1 ij.2 'x') 0).1
            simp only [ARBITRARILY_LOW_VALUE]; omega)
        obtain ⟨ij, hij, hv⟩ := List.mem_map.1 hmem
        have hle := le_foldl_max (List.mem_map.2 ⟨ij, hij, rfl⟩ :
          (if depth = max_depth then evaluation_function (b.set ij.1 ij.2 'x')
            else sv n (b.set ij.1 ij.2 'x') 0 (int_wrap (depth + 1)) max_depth) ∈
          (moves b).map (fun ij => if depth = max_depth then
            evaluation_function (b.set ij.1 ij.2 'x')
            else sv n (b.set ij.1 ij.2 'x') 0 (int_wrap (depth + 1)) max_depth)) ARBITRARILY_LOW_VALUE
        rw [h] at hle
        have hc := (hcb ij).1
        rw [← hv]
        split at hle
        · exact absurd hle (not_le.2 (hev _).1)
        · rw [if_neg (by assumption)] at hc
          exact (ih _ _ _ _ (Or.inl rfl)).2 (le_antisymm hle hc)


theorem foldl_max_times (l : List Int) (c : Int) :
    (l.map (fun x => 10000 * x)).foldl max (10000 * c) = 10000 * l.foldl max c := by
  induction l generalizing c with
  | nil => simp
  | cons a t ih =>
    simp only [List.map_cons, List.foldl_cons]
    have : max (10000 * c) (10000 * a) = 10000 * max c a := by omega
    rw [this, ih]

theorem foldl_min_times (l : List Int) (c : Int) :
    (l.map (fun x => 10000 * x)).foldl min (10000 * c) = 10000 * l.foldl min c := by
  induction l generalizing c with
  | nil => simp
  | cons a t ih =>
    simp only [List.map_cons, List.foldl_cons]
    have : min (10000 * c) (10000 * a) = 10000 * min c a := by omega
    rw [this, ih]

theorem foldl_max_times_low {l : List Int} (hne : l ≠ []) (hl : ∀ x ∈ l, -1 ≤ x) :
    (l.map (fun x => 10000 * x)).foldl max ARBITRARILY_LOW_VALUE =
      10000 * l.foldl max ARBITRARILY_LOW_VALUE := by
  obtain ⟨a, t, rfl⟩ := List.exists_cons_of_ne_nil hne
  have ha := hl a (List.mem_cons_self _ _)
  simp only [List.map_cons, List.foldl_cons]
  have e1 : max ARBITRARILY_LOW_VALUE (10000 * a) = 10000 * a := by
    simp only [ARBITRARILY_LOW_VALUE]; omega
  have e2 : max ARBITRARILY_LOW_VALUE a = a := by
    simp only [ARBITRARILY_LOW_VALUE]; omega
  rw [e1, e2, foldl_max_times]

theorem foldl_min_times_high {l : List Int} (hne : l ≠ []) (hl : ∀ x ∈ l, x ≤ 1) :
    (l.map (fun x => 10000 * x)).foldl min ARBITRARILY_HIGH_VALUE =
      10000 * l.foldl min ARBITRARILY_HIGH_VALUE := by
  obtain ⟨a, t, rfl⟩ := List.exists_cons_of_ne_nil hne
  have ha := hl a (List.mem_cons_self _ _)
  simp only [List.map_cons, List.foldl_cons]
  have e1 : min ARBITRARILY_HIGH_VALUE (10000 * a) = 10000 * a := by
    simp only [ARBITRARILY_HIGH_VALUE]; omega
  have e2 : min ARBITRARILY_HIGH_VALUE a = a := by
    simp only [ARBITRARILY_HIGH_VALUE]; omega
  rw [e1, e2, foldl_min_times]

/-- The 32-bit successor of a depth: the next number below `2147483647`, and `-2147483648`
at `2147483647`. -/
theorem int_wrap_succ (d : Int) (hlo : -2147483648 ≤ d) (hhi : d ≤ 2147483647) :
    (d < 2147483647 → int_wrap (d + 1) = d + 1) ∧
    (d = 2147483647 → int_wrap (d + 1) = -2147483648) := by
  unfold int_wrap
  constructor <;> intro h <;> omega

/-- Called with `0 ≤ max_depth < depth` and `is_maximizer` 0 or 1, the depth-limited search
never reaches its depth test and returns the game value on the scale 10000 / 0 / -10000.  The
depths of the nested calls stay above `max_depth` until `depth + 1` wraps around at 32 bits, and
from there on they are negative: at most 9 calls are nested. -/
theorem sv_eq_gval (n : Nat) : ∀ (b : Board) (m depth max_depth : Int), (m = 0 ∨ m = 1) →
    0 ≤ max_depth →
    ((max_depth < depth ∧ depth ≤ 2147483647) ∨
      (-2147483648 ≤ depth ∧ depth + num_of_empty_pos b < 0)) →
    num_of_empty_pos b < n →
    sv n b m depth max_depth = 10000 * gval n b m := by
  induction n with
  | zero => intro b _ _ _ _ _ _ h; omega
  | succ n ih =>
    intro b m depth max_depth hm h0 hdepth h
    by_cases hx : has_line b 'x'
    · rw [sv_x_line hx, gval_x_line hx]; rfl
    by_cases ho : has_line b 'o'
    · rw [sv_o_line hx ho, gval_o_line hx ho]; rfl
    by_cases hd : is_draw b ≠ 0
    · rw [sv_draw hx ho hd, gval, if_neg (fun hv => hx ((is_victorious_ne_zero b 'x').1 hv)),
        if_neg (fun hv => ho ((is_victorious_ne_zero b 'o').1 hv)), if_pos hd]; rfl
    have hne := moves_ne_nil (not_ne_zero hd)
    have hdm : ¬ depth = max_depth := by omega
    have hrange : -2147483648 ≤ depth ∧ depth ≤ 2147483647 := by omega
    obtain ⟨hw1, hw2⟩ := int_wrap_succ depth hrange.1 hrange.2
    have hnext : ∀ e : Nat, e + 1 = num_of_empty_pos b →
        (max_depth < int_wrap (depth + 1) ∧ int_wrap (depth + 1) ≤ 2147483647) ∨
        (-2147483648 ≤ int_wrap (depth + 1) ∧ int_wrap (depth + 1) + e < 0) := by
      intro e he
      have hb := num_of_empty_pos_le b
      by_cases hlast : depth = 2147483647
      · rw [hw2 hlast]; right; omega
      · rw [hw1 (by omega)]; omega
    rcases hm with rfl | rfl
    · rw [sv_min hx ho hd, gval_min hx ho (not_ne_zero hd)]
      have hc : ∀ ij ∈ moves b,
          (if depth = max_depth then evaluation_function (b.set ij.1 ij.2 'o')
            else sv n (b.set ij.1 ij.2 'o') 1 (int_wrap (depth + 1)) max_depth) =
          10000 * gval n (b.set ij.1 ij.2 'o') 1 := by
        intro ij hij
        obtain ⟨hcell, he⟩ := mem_moves.1 hij
        have := empties_set b 'o' (by decide) hcell he
        rw [if_neg hdm]
        exact ih _ _ _ _ (Or.inr rfl) h0 (hnext _ this) (by omega)
      rw [List.map_congr_left hc]
      have hmap : (moves b).map (fun ij => 10000 * gval n (b.set ij.1 ij.2 'o') 1) =
          ((moves b).map (fun ij => gval n (b.set ij.1 ij.2 'o') 1)).map
            (fun x => 10000 * x) := by
        rw [List.map_map]; rfl
      rw [hmap, foldl_min_times_high (by simpa using hne)]
      intro x hx'
      obtain ⟨ij, _, rfl⟩ := List.mem_map.1 hx'
      exact (gval_bounds _ _ _).2
    · rw [sv_max hx ho hd, gval_max hx ho (not_ne_zero hd) one_ne_zero]
      have hc : ∀ ij ∈ moves b,
          (if depth = max_depth then evaluation_function (b.set ij.1 ij.2 'x')
            else sv n (b.set ij.1 ij.2 'x') 0 (int_wrap (depth + 1)) max_depth) =
          10000 * gval n (b.set ij.1 ij.2 'x') 0 := by
        intro ij hij
        obtain ⟨hcell, he⟩ := mem_moves.1 hij
        have := empties_set b 'x' (by decide) hcell he
        rw [if_neg hdm]
        exact ih _ _ _ _ (Or.inl rfl) h0 (hnext _ this) (by omega)
      rw [List.map_congr_left hc]
      have hmap : (moves b).map (fun ij => 10000 * gval n (b.set ij.1 ij.2 'x') 0) =
          ((moves b).map (fun ij => gval n (b.set ij.1 ij.2 'x') 0)).map
            (fun x => 10000 * x) := by
        rw [List.map_map]; rfl
      rw [hmap, foldl_max_times_low (by simpa using hne)]
      intro x hx'
      obtain ⟨ij, _, rfl⟩ := List.mem_map.1 hx'
      exact (gval_bounds _ _ _).1

/-! ## The claims about the windows, the win scores and the degenerate depth -/

/-- C26: the window property of `alpha_beta_routine`.  For every board, `is_maximizer` and
integers `alpha < beta`, with `v` the unpruned minimax value `gval` of the position on the
scale +1 / 0 / -1 and `r` the score `alpha_beta_routine(board, alpha, beta, is_maximizer)`
returns (given fuel 10 or more; the board is left as it was): if `alpha < v < beta` then
`r = v`; if `v ≤ alpha` then `r ≤ alpha`; if `v ≥ beta` then `r ≥ beta`. -/
theorem alpha_beta_window (fuel : Nat) (hfuel : 10 ≤ fuel) (b : Board) (alpha beta m : Int)
    (hab : alpha < beta) :
    ∃ r, AlphaBeta.alpha_beta_routine fuel b alpha beta m = some (r, b) ∧
      (alpha < gval 10 b m → gval 10 b m < beta → r = gval 10 b m) ∧
      (gval 10 b m ≤ alpha → r ≤ alpha) ∧
      (beta ≤ gval 10 b m → beta ≤ r) := by
  have hb := num_of_empty_pos_le b
  have hw := abv_win fuel b alpha beta m hab (by omega)
  rw [gval_fuel fuel 10 b m (by omega) (by omega)] at hw
  refine ⟨_, alpha_beta_routine_eq fuel b alpha beta m (by omega), ?_, ?_, ?_⟩ <;>
    (unfold Win at hw; omega)

/-- The theorem of C26 at the board `three_left` with `x` to move, whose value 1 lies above
the window `(-1, 0)`. -/
theorem alpha_beta_window_witness :
    10 ≤ 10 ∧ (-1 : Int) < 0 ∧ gval 10 three_left 1 = 1 ∧
    ∃ r, AlphaBeta.alpha_beta_routine 10 three_left (-1) 0 1 = some (r, three_left) ∧
      (-1 < gval 10 three_left 1 → gval 10 three_left 1 < 0 → r = gval 10 three_left 1) ∧
      (gval 10 three_left 1 ≤ -1 → r ≤ -1) ∧
      (0 ≤ gval 10 three_left 1 → 0 ≤ r) :=
  ⟨by decide, by decide, by decide,
    alpha_beta_window 10 (by decide) three_left (-1) 0 1 (by decide)⟩

/-- C27, as stated for all `is_maximizer`, fails: on `o x o / x o x / _ _ _`, where no player
has a line, `search(board, 2, 1, 0)` returns `ARBITRARILY_HIGH_VALUE` (with `is_maximizer = 2`
every move places an `x`, and three of them fill the bottom row), while
`min_max(board, 2)` is -10: whatever `x` plays, `o` completes a diagonal. -/
theorem search_win_score_unsound_for_flag_two :
    ¬ (is_victorious bottom_row_left 'x' = 1 ∧ is_victorious bottom_row_left 'o' = 1) ∧
    search 10 bottom_row_left 2 1 0 = some (ARBITRARILY_HIGH_VALUE, bottom_row_left) ∧
    Exhaustive.min_max 10 bottom_row_left 2 = some (-10, bottom_row_left) ∧
    (-10 : Int) ≠ 10 := by
  refine ⟨by decide, ?_, ?_, by decide⟩ <;> decide!

/-- C27, amended: the win and loss scores of the depth-limited search are sound when
`is_maximizer` is 0 or 1.  For every board on which `x` and `o` do not both have a completed
line, `is_maximizer` in {0,1} and all `depth`, `max_depth`: if `search` returns
`ARBITRARILY_HIGH_VALUE` then `min_max(board, is_maximizer)` is +10, and if it returns
`ARBITRARILY_LOW_VALUE` then `min_max(board, is_maximizer)` is -10 (both calls return, given
fuel 10 or more). -/
theorem search_win_scores_sound (fuel : Nat) (hfuel : 10 ≤ fuel) (b : Board)
    (hnb : ¬ (is_victorious b 'x' = 1 ∧ is_victorious b 'o' = 1)) (m : Int)
    (hm : m = 0 ∨ m = 1) (depth max_depth : Int) :
    ∃ v w, search fuel b m depth max_depth = some (v, b) ∧
      Exhaustive.min_max fuel b m = some (w, b) ∧
      (v = ARBITRARILY_HIGH_VALUE → w = 10) ∧ (v = ARBITRARILY_LOW_VALUE → w = -10) := by
  have hb := num_of_empty_pos_le b
  rw [is_victorious_eq_one, is_victorious_eq_one] at hnb
  refine ⟨_, _, search_eq fuel b m depth max_depth (by omega), min_max_eq fuel b m (by omega),
    ?_, ?_⟩
  · intro h
    rw [mmv_eq_gval fuel b m (by omega) hnb, (sv_sentinel fuel b m depth max_depth hm).1 h]
    rfl
  · intro h
    rw [mmv_eq_gval fuel b m (by omega) hnb, (sv_sentinel fuel b m depth max_depth hm).2 h]
    rfl

/-- The amended C27 at the board `bottom_row_left` with `x` to move (`is_maximizer = 1`),
depth 1 and max depth 0. -/
theorem search_win_scores_sound_witness :
    10 ≤ 10 ∧
    ¬ (is_victorious bottom_row_left 'x' = 1 ∧ is_victorious bottom_row_left 'o' = 1) ∧
    ((1 : Int) = 0 ∨ (1 : Int) = 1) ∧
    ∃ v w, search 10 bottom_row_left 1 1 0 = some (v, bottom_row_left) ∧
      Exhaustive.min_max 10 bottom_row_left 1 = some (w, bottom_row_left) ∧
      (v = ARBITRARILY_HIGH_VALUE → w = 10) ∧ (v = ARBITRARILY_LOW_VALUE → w = -10) :=
  ⟨by decide, by decide, by decide,
    search_win_scores_sound 10 (by decide) bottom_row_left (by decide) 1 (by decide) 1 0⟩

/-- With a negative `max_depth` the depth test can fire after the wrap-around of `depth + 1`:
from `depth = 2147483647` the nested call runs at depth `-2147483648`, and with `max_depth`
equal to that number it scores the boards two moves ahead with the evaluator.  After `x` in the
corner this gives 31, while `min_max` gives 0. -/
theorem search_wraps_into_limit :
    search 10 x_corner 0 2147483647 (-2147483648) = some (31, x_corner) ∧
    Exhaustive.min_max 10 x_corner 0 = some (0, x_corner) := by
  constructor
  · decide!
  · have h := (min_max_alpha_beta x_corner 0 10 10 (le_refl _) (le_refl _) (by decide)).2
    rw [gval_x_corner] at h
    exact h

/-- C28: called with `depth > max_depth ≥ 0` the depth test of `search` never fires and
`search` is exhaustive minimax on the scale 10000 / 0 / -10000.  For every board on which `x`
and `o` do not both have a completed line, `is_maximizer` in {0,1} and all 32-bit `depth` and
`max_depth` with `depth > max_depth ≥ 0`, `search(board, is_maximizer, depth, max_depth)`
equals `1000 * min_max(board, is_maximizer)`; both calls return, given fuel 10 or more.  This
includes the depths from which `depth + 1` wraps around to `-2147483648` in a nested call. -/
theorem search_above_limit_is_min_max (fuel : Nat) (hfuel : 10 ≤ fuel) (b : Board)
    (hnb : ¬ (is_victorious b 'x' = 1 ∧ is_victorious b 'o' = 1)) (m : Int)
    (hm : m = 0 ∨ m = 1) (depth max_depth : Int) (h0 : 0 ≤ max_depth)
    (hlt : max_depth < depth) (hmax : depth ≤ 2147483647) :
    ∃ w, Exhaustive.min_max fuel b m = some (w, b) ∧
      search fuel b m depth max_depth = some (1000 * w, b) := by
  have hb := num_of_empty_pos_le b
  rw [is_victorious_eq_one, is_victorious_eq_one] at hnb
  refine ⟨_, min_max_eq fuel b m (by omega), ?_⟩
  rw [search_eq fuel b m depth max_depth (by omega),
    sv_eq_gval fuel b m depth max_depth hm h0 (Or.inl ⟨hlt, hmax⟩) (by omega),
    mmv_eq_gval fuel b m (by omega) hnb]
  congr 2
  omega

/-- The theorem of C28 at the board `three_left` with `o` to move, max depth 2 and the largest
depth, `2147483647`, from which the nested calls run at depths `-2147483648`, `-2147483647`. -/
theorem search_above_limit_is_min_max_witness :
    10 ≤ 10 ∧ ¬ (is_victorious three_left 'x' = 1 ∧ is_victorious three_left 'o' = 1) ∧
    ((0 : Int) = 0 ∨ (0 : Int) = 1) ∧ (0 : Int) ≤ 2 ∧ (2 : Int) < 2147483647 ∧
    (2147483647 : Int) ≤ 2147483647 ∧
    ∃ w, Exhaustive.min_max 10 three_left 0 = some (w, three_left) ∧
      search 10 three_left 0 2147483647 2 = some (1000 * w, three_left) :=
  ⟨by decide, by decide, by decide, by decide, by decide, by decide,
    search_above_limit_is_min_max 10 (by decide) three_left (by decide) 0 (by decide)
      2147483647 2 (by decide) (by decide) (by decide)⟩

end

end TicTacToe
